import Mathlib

/-!
Balanced search trees and algorithms of `natemollica-nm/dsa`.

A shallow embedding of `datastructures/trees/avl/avl.go`,
`datastructures/trees/red-black/rb.go`, `datastructures/trees/maxheap/maxheap.go`,
`datastructures/trees/binary/binary.go` and, from `algorithms/`, `ShellSort`, `QuickSort`,
`Dijkstra` with its priority queue, `HeapSort`, `MergeSort`, `RadixSort`, `BinarySearch`,
`Fibonacci`, `DynamicFibonacci` and `LongestCommonSubstring`, followed by the properties proved
of them.

Modelling conventions.

* A Go `*Node` is a value of an inductive type whose `nil` constructor is the nil pointer.
  The Go code mutates nodes in place and returns the new subtree root; since every node has
  exactly one owner, the embedding returns the rebuilt subtree instead.
* A nil dereference (a Go panic) is the result `none`; every function that dereferences a
  pointer therefore returns an `Option`.
* Keys and values are Go `int`s. They are only ever compared, so they are embedded as `Int`.
  The cached AVL height is an `int` bounded by the number of nodes, so it is an `Int` too.
* A slice `[]int` is the list of its elements; a function that writes into its argument returns
  the new contents. An index or slice bound out of range (a Go panic) is `none`, and so is a
  loop that runs out of the fuel it is given.
* Calls to `fmt.Println` / `fmt.Printf` have no effect on the tree; only the evaluation of their
  arguments (which may dereference or index) is kept.
* Where the code computes with a Go `int` (the sums of `Fibonacci`, the negation in
  `RadixSort`), the exact result is reduced to 64 bits, two's complement, by `wrapInt`.
* A string is the list of its bytes.
* Where a property compares the code with the wording of the specification (the AVL rebalance
  guards), the specification's wording is embedded as a second definition whose name ends in
  `Spec`, next to the definition taken from the code.
-/

namespace AVL

/-- The type `*Node` of `avl.go`: `nil`, or a node with `Key`, `Left`, `Right`, `height`. -/
inductive Node where
  | nil : Node
  | node (Key : Int) (Left Right : Node) (height : Int) : Node
  deriving DecidableEq

/-- The type `Tree` of `avl.go`. -/
structure Tree where
  Root : Node
  deriving DecidableEq

/-- Go `func (n *Node) Height() int`: 0 for nil, the cached field otherwise. -/
def Node.Height : Node → Int
  | .nil => 0
  | .node _ _ _ h => h

/-- Go `func (n *Node) Bal() int`: `n.Right.Height() - n.Left.Height()`; dereferences `n`. -/
def Node.Bal : Node → Option Int
  | .nil => none
  | .node _ l r _ => some (r.Height - l.Height)

/-- Go `func NewNode(key int) *Node`. -/
def NewNode (key : Int) : Node := .node key .nil .nil 1

/-- The statement `n.height = max(n.Left.Height(), n.Right.Height()) + 1`; dereferences `n`. -/
def Node.updateHeight : Node → Option Node
  | .nil => none
  | .node k l r _ => some (.node k l r (max l.Height r.Height + 1))

/-- Go `func (n *Node) rotateLeft() *Node`; dereferences `n` and `n.Right`. -/
def Node.rotateLeft : Node → Option Node
  | .node k l (.node rk rl rr _) _ =>
    let n := Node.node k l rl (max l.Height rl.Height + 1)
    some (.node rk n rr (max n.Height rr.Height + 1))
  | _ => none

/-- Go `func (n *Node) rotateRight() *Node`; dereferences `n` and `n.Left`. -/
def Node.rotateRight : Node → Option Node
  | .node k (.node lk ll lr _) r _ =>
    let n := Node.node k lr r (max lr.Height r.Height + 1)
    some (.node lk ll n (max ll.Height n.Height + 1))
  | _ => none

/-- Go `func (n *Node) rotateRightLeft() *Node`. -/
def Node.rotateRightLeft : Node → Option Node
  | .nil => none
  | .node k l r h =>
    match r.rotateRight with
    | none => none
    | some r1 =>
      match (Node.node k l r1 h).rotateLeft with
      | none => none
      | some n => n.updateHeight

/-- Go `func (n *Node) rotateLeftRight() *Node`. -/
def Node.rotateLeftRight : Node → Option Node
  | .nil => none
  | .node k l r h =>
    match l.rotateLeft with
    | none => none
    | some l1 =>
      match (Node.node k l1 r h).rotateRight with
      | none => none
      | some n => n.updateHeight

/-- A `case a && c.Bal() == v` guard of `rebalance`, with Go's short-circuit evaluation:
`c.Bal()` is evaluated (and may dereference nil) only when `a` holds. -/
def balGuard (a : Bool) (c : Node) (v : Int) : Option Bool :=
  if a then
    match c.Bal with
    | none => none
    | some b => some (decide (b = v))
  else some false

/-- Go `func (n *Node) rebalance() *Node`: the four `switch` cases in source order. -/
def Node.rebalance : Node → Option Node
  | .nil => none
  | .node k l r h =>
    let n := Node.node k l r h
    let b := r.Height - l.Height
    match balGuard (decide (b < -1)) l (-1) with
    | none => none
    | some true => n.rotateRight
    | some false =>
    match balGuard (decide (b > 1)) r 1 with
    | none => none
    | some true => n.rotateLeft
    | some false =>
    match balGuard (decide (b < -1)) l 1 with
    | none => none
    | some true => n.rotateLeftRight
    | some false =>
    match balGuard (decide (b > 1)) r (-1) with
    | none => none
    | some true => n.rotateRightLeft
    | some false => some n

/-- Go `func (tree *Tree) insert(root *Node, key int) *Node`. -/
def insert : Node → Int → Option Node
  | .nil, key => some (NewNode key)
  | .node k l r h, key =>
    if key < k then
      match insert l key with
      | none => none
      | some l1 => (Node.node k l1 r (max l1.Height r.Height + 1)).rebalance
    else if key > k then
      match insert r key with
      | none => none
      | some r1 => (Node.node k l r1 (max l.Height r1.Height + 1)).rebalance
    else some (.node k l r h)

/-- Go `func (tree *Tree) Insert(key int)`. -/
def Tree.Insert (tree : Tree) (key : Int) : Option Tree :=
  match insert tree.Root key with
  | none => none
  | some r => some (Tree.mk r)

/-- The empty tree `&Tree{}` that `TestAVL` starts from. -/
def Tree.empty : Tree := Tree.mk .nil

/-- The loop `for _, key := range nodes { avlTree.Insert(key) }` of `TestAVL`. -/
def Tree.InsertAll (tree : Tree) : List Int → Option Tree
  | [] => some tree
  | key :: rest =>
    match tree.Insert key with
    | none => none
    | some t => t.InsertAll rest

/-- The in-order (left, node, right) key sequence of a subtree. -/
def Node.inorder : Node → List Int
  | .nil => []
  | .node k l r _ => l.inorder ++ k :: r.inorder

/-- The true height of a subtree: 0 for nil, one more than the taller child otherwise. -/
def Node.trueHeight : Node → Int
  | .nil => 0
  | .node _ l r _ => max l.trueHeight r.trueHeight + 1

/-- Every node satisfies `|height(Right) - height(Left)| ≤ 1` for the true heights. -/
def Node.Balanced : Node → Prop
  | .nil => True
  | .node _ l r _ => |r.trueHeight - l.trueHeight| ≤ 1 ∧ l.Balanced ∧ r.Balanced

/-- Every node's cached `height` equals `1 + max(Height(Left), Height(Right))`, is at least 1
and equals the true height of the subtree rooted there. -/
def Node.HeightsCached : Node → Prop
  | .nil => True
  | .node k l r h =>
    (h = 1 + max l.Height r.Height ∧ 1 ≤ h ∧ h = (Node.node k l r h).trueHeight) ∧
      l.HeightsCached ∧ r.HeightsCached

/-- Decision procedure for `Balanced`. -/
instance Node.decBalanced : (t : Node) → Decidable t.Balanced
  | .nil => isTrue trivial
  | .node _ l r _ =>
    @instDecidableAnd _ _ _ (@instDecidableAnd _ _ (Node.decBalanced l) (Node.decBalanced r))

/-- Decision procedure for `HeightsCached`. -/
instance Node.decHeightsCached : (t : Node) → Decidable t.HeightsCached
  | .nil => isTrue trivial
  | .node _ l r _ =>
    @instDecidableAnd _ _ _
      (@instDecidableAnd _ _ (Node.decHeightsCached l) (Node.decHeightsCached r))

/-- The AVL invariant on cached heights: every cached height is one more than the larger
child height, and the two child heights differ by at most one. -/
def Node.Inv : Node → Prop
  | .nil => True
  | .node _ l r h =>
    l.Inv ∧ r.Inv ∧ h = max l.Height r.Height + 1 ∧
      -1 ≤ r.Height - l.Height ∧ r.Height - l.Height ≤ 1

/-- A node whose two children have different cached heights. -/
def Node.Tilted : Node → Prop
  | .nil => False
  | .node _ l r _ => l.Height ≠ r.Height

/-- Every node's cached `height` equals `1 + max(Height(Left), Height(Right))`. -/
def Node.HeightsAccurate : Node → Prop
  | .nil => True
  | .node _ l r h => h = 1 + max l.Height r.Height ∧ l.HeightsAccurate ∧ r.HeightsAccurate

/-- Decision procedure for `HeightsAccurate`. -/
instance Node.decHeightsAccurate : (t : Node) → Decidable t.HeightsAccurate
  | .nil => isTrue trivial
  | .node _ l r _ =>
    @instDecidableAnd _ _ _
      (@instDecidableAnd _ _ (Node.decHeightsAccurate l) (Node.decHeightsAccurate r))

/-- The nodes on which `insert root key` calls `rebalance`, innermost call first, each as
`rebalance` receives it (child re-linked, `height` refreshed). -/
def rebalanceCalls : Node → Int → List Node
  | .nil, _ => []
  | .node k l r _, key =>
    if key < k then
      match insert l key with
      | none => rebalanceCalls l key
      | some l1 => rebalanceCalls l key ++ [.node k l1 r (max l1.Height r.Height + 1)]
    else if key > k then
      match insert r key with
      | none => rebalanceCalls r key
      | some r1 => rebalanceCalls r key ++ [.node k l r1 (max l.Height r1.Height + 1)]
    else []

/-- The nodes on which `rebalance` is called during a run of `Insert` calls, in order. -/
def Tree.rebalanceCallsAll (tree : Tree) : List Int → List Node
  | [] => []
  | key :: rest =>
    rebalanceCalls tree.Root key ++
      (match tree.Insert key with
        | none => []
        | some t => t.rebalanceCallsAll rest)

/-- One of the four `switch` cases of `rebalance` applies to the node. -/
def Node.CaseApplies : Node → Prop
  | .nil => False
  | .node _ l r _ =>
    balGuard (decide (r.Height - l.Height < -1)) l (-1) = some true ∨
    balGuard (decide (r.Height - l.Height > 1)) r 1 = some true ∨
    balGuard (decide (r.Height - l.Height < -1)) l 1 = some true ∨
    balGuard (decide (r.Height - l.Height > 1)) r (-1) = some true

/-- The guards under-trigger on the node: `|n.Bal()| > 1`, yet each of the four `switch`
cases of `rebalance` evaluates to false, so `rebalance` returns the node as it is. -/
def Node.UnderTriggered : Node → Prop
  | .nil => False
  | .node _ l r _ =>
    |r.Height - l.Height| > 1 ∧
    balGuard (decide (r.Height - l.Height < -1)) l (-1) = some false ∧
    balGuard (decide (r.Height - l.Height > 1)) r 1 = some false ∧
    balGuard (decide (r.Height - l.Height < -1)) l 1 = some false ∧
    balGuard (decide (r.Height - l.Height > 1)) r (-1) = some false

/-- What holds of every node handed to `rebalance` during an insertion into an AVL tree:
its children satisfy the invariant, its height is fresh, and it is either balanced or one
taller on a side whose child is itself tilted. -/
def Node.GoodCall : Node → Prop
  | .nil => False
  | .node _ l r h =>
    l.Inv ∧ r.Inv ∧ h = max l.Height r.Height + 1 ∧
      ((-1 ≤ r.Height - l.Height ∧ r.Height - l.Height ≤ 1) ∨
        (l.Height = r.Height + 2 ∧ l.Tilted) ∨ (r.Height = l.Height + 2 ∧ r.Tilted))

/-- A guard `a and p(balance(c))` of the specification's `rebalance`, where `p` is a sign test
on the child's balance factor; `balance(c)` is taken only when `a` holds, and has no value for
an absent child. -/
def signGuard (a : Bool) (c : Node) (p : Int → Bool) : Option Bool :=
  if a then
    match c.Bal with
    | none => none
    | some b => some (p b)
  else some false

/-- The operation `rebalance(n)` as the specification words it (section 4.2), with
`balance(n) = height(n.right) - height(n.left)` and the sign-based guards:
case LL, `balance(n) < -1 and balance(n.left) <= 0`, gives `rotateRight(n)`;
case RR, `balance(n) > 1 and balance(n.right) >= 0`, gives `rotateLeft(n)`;
case LR, `balance(n) < -1 and balance(n.left) > 0`, rotates left on `n.left`, then right on `n`;
case RL, `balance(n) > 1 and balance(n.right) < 0`, rotates right on `n.right`, then left on
`n`; when no case applies `n` is returned unchanged. The rotations are those of section 4.1,
which recompute the two heights they change. -/
def Node.rebalanceSpec : Node → Option Node
  | .nil => none
  | .node k l r h =>
    let n := Node.node k l r h
    let b := r.Height - l.Height
    match signGuard (decide (b < -1)) l (fun x => decide (x ≤ 0)) with
    | none => none
    | some true => n.rotateRight
    | some false =>
    match signGuard (decide (b > 1)) r (fun x => decide (x ≥ 0)) with
    | none => none
    | some true => n.rotateLeft
    | some false =>
    match signGuard (decide (b < -1)) l (fun x => decide (x > 0)) with
    | none => none
    | some true =>
      (match l.rotateLeft with
        | none => none
        | some l1 => (Node.node k l1 r h).rotateRight)
    | some false =>
    match signGuard (decide (b > 1)) r (fun x => decide (x < 0)) with
    | none => none
    | some true =>
      (match r.rotateRight with
        | none => none
        | some r1 => (Node.node k l r1 h).rotateLeft)
    | some false => some n

/-- The insertion algorithm as the specification words it (section 4.2): recursive descent
comparing `key` to `n.key`; a new leaf of height 1 at `nil`; a duplicate key returns the
subtree unchanged; on unwind `n.height` is updated to `1 + max(height(left), height(right))`
and `rebalance(n)`, the specification's, is called. -/
def insertSpec : Node → Int → Option Node
  | .nil, key => some (.node key .nil .nil 1)
  | .node k l r h, key =>
    if key < k then
      match insertSpec l key with
      | none => none
      | some l1 => (Node.node k l1 r (1 + max l1.Height r.Height)).rebalanceSpec
    else if key > k then
      match insertSpec r key with
      | none => none
      | some r1 => (Node.node k l r1 (1 + max l.Height r1.Height)).rebalanceSpec
    else some (.node k l r h)

/-- Building a tree with the specification's insertion: the keys are inserted in order, each
result becoming the new root. -/
def Tree.InsertAllSpec (tree : Tree) : List Int → Option Tree
  | [] => some tree
  | key :: rest =>
    match insertSpec tree.Root key with
    | none => none
    | some root => (Tree.mk root).InsertAllSpec rest

end AVL

namespace RB

/-- The type `*Node` of `rb.go`: `nil`, or a node with `Value`, `Left`, `Right`, `Color`. -/
inductive Node where
  | nil : Node
  | node (Value : Int) (Left Right : Node) (Color : Bool) : Node
  deriving DecidableEq

/-- The type `RedBlackTree` of `rb.go`. -/
structure RedBlackTree where
  Root : Node
  deriving DecidableEq

/-- The constant `red = true`. -/
abbrev red : Bool := true

/-- The constant `black = false`. -/
abbrev black : Bool := false

/-- Go `func NewRedBlackTree() *RedBlackTree`. -/
def NewRedBlackTree : RedBlackTree := RedBlackTree.mk .nil

/-- Go `func isRed(node *Node) bool`: nil counts as black. -/
def isRed : Node → Bool
  | .nil => false
  | .node _ _ _ c => c == red

/-- The field access `node.Left`; dereferences `node`. -/
def Node.Left : Node → Option Node
  | .nil => none
  | .node _ l _ _ => some l

/-- Go `func rotateLeft(node *Node) *Node`; dereferences `node` and `node.Right`. -/
def rotateLeft : Node → Option Node
  | .node v l (.node xv xl xr _) c => some (.node xv (.node v l xl red) xr c)
  | _ => none

/-- Go `func rotateRight(node *Node) *Node`; dereferences `node` and `node.Left`. -/
def rotateRight : Node → Option Node
  | .node v (.node xv xl xr _) r c => some (.node xv xl (.node v xr r red) c)
  | _ => none

/-- Go `func flipColors(node *Node)`; dereferences `node`, `node.Left` and `node.Right`. -/
def flipColors : Node → Option Node
  | .node v (.node lv ll lr lc) (.node rv rl rr rc) c =>
    some (.node v (.node lv ll lr (!lc)) (.node rv rl rr (!rc)) (!c))
  | _ => none

/-- The statement `if isRed(root.Right) && !isRed(root.Left) { root = rotateLeft(root) }`. -/
def leanLeftStep : Node → Option Node
  | .nil => none
  | .node v l r c =>
    if isRed r && !isRed l then rotateLeft (.node v l r c) else some (.node v l r c)

/-- The statement `if isRed(root.Left) && isRed(root.Left.Left) { root = rotateRight(root) }`;
`root.Left.Left` is evaluated only when `isRed(root.Left)` holds. -/
def doubleRedStep : Node → Option Node
  | .nil => none
  | .node v l r c =>
    let cond : Option Bool :=
      if isRed l then
        match l.Left with
        | none => none
        | some ll => some (isRed ll)
      else some false
    match cond with
    | none => none
    | some true => rotateRight (.node v l r c)
    | some false => some (.node v l r c)

/-- The statement `if isRed(root.Left) && isRed(root.Right) { flipColors(root) }`. -/
def splitStep : Node → Option Node
  | .nil => none
  | .node v l r c =>
    if isRed l && isRed r then flipColors (.node v l r c) else some (.node v l r c)

/-- Go `func insert(root *Node, value int) *Node`. -/
def insert : Node → Int → Option Node
  | .nil, value => some (.node value .nil .nil red)
  | .node v l r c, value =>
    let descended : Option Node :=
      if value < v then
        match insert l value with
        | none => none
        | some l1 => some (.node v l1 r c)
      else if value > v then
        match insert r value with
        | none => none
        | some r1 => some (.node v l r1 c)
      else some (.node v l r c)
    ((descended.bind leanLeftStep).bind doubleRedStep).bind splitStep

/-- Go `func (t *RedBlackTree) Insert(value int)`: the final `t.Root.Color = black` dereferences
the new root. -/
def RedBlackTree.Insert (t : RedBlackTree) (value : Int) : Option RedBlackTree :=
  match insert t.Root value with
  | none => none
  | some .nil => none
  | some (.node v l r _) => some (RedBlackTree.mk (.node v l r black))

/-- The loop `for _, value := range values { tree.Insert(value) }` of `TestRedBlackTree`. -/
def RedBlackTree.InsertAll (t : RedBlackTree) : List Int → Option RedBlackTree
  | [] => some t
  | value :: rest =>
    match t.Insert value with
    | none => none
    | some t1 => t1.InsertAll rest

/-- Go `func inorder(node *Node, result *[]int)`: returns the slice `*result` after the call. -/
def inorder : Node → List Int → List Int
  | .nil, result => result
  | .node v l r _, result => inorder r (inorder l result ++ [v])

/-- Go `func (t *RedBlackTree) InorderTraversal() []int`. -/
def RedBlackTree.InorderTraversal (t : RedBlackTree) : List Int :=
  inorder t.Root []

/-- The number of black nodes on each path from a node down to a nil child, one entry per
path. -/
def blackCounts : Node → List Nat
  | .nil => [0]
  | .node _ l r c => (blackCounts l ++ blackCounts r).map (fun n => n + (if c = black then 1 else 0))

/-- The subtree rooted at each node of a tree (the tree itself first; nil children included). -/
def Node.subtrees : Node → List Node
  | .nil => [.nil]
  | .node v l r c => .node v l r c :: (l.subtrees ++ r.subtrees)

/-- From every node, all paths down to a nil child pass through the same number of black
nodes. -/
def Node.BlackUniform (t : Node) : Prop :=
  ∀ s ∈ t.subtrees, ∀ a ∈ blackCounts s, ∀ b ∈ blackCounts s, a = b

/-- No node has a red right child while its left child is non-red (nil or black). -/
def Node.NoRightLean : Node → Prop
  | .nil => True
  | .node _ l r _ => ¬(isRed r = true ∧ isRed l = false) ∧ l.NoRightLean ∧ r.NoRightLean

/-- No red node has a red child, left or right. -/
def Node.NoRedRed : Node → Prop
  | .nil => True
  | .node _ l r c =>
    (c = red → isRed l = false ∧ isRed r = false) ∧ l.NoRedRed ∧ r.NoRedRed

/-- Decision procedure for `BlackUniform`. -/
instance Node.decBlackUniform (t : Node) : Decidable t.BlackUniform := by
  unfold Node.BlackUniform
  exact inferInstance

/-- Decision procedure for `NoRightLean`. -/
instance Node.decNoRightLean : (t : Node) → Decidable t.NoRightLean
  | .nil => isTrue trivial
  | .node _ l r _ =>
    @instDecidableAnd _ _ _ (@instDecidableAnd _ _ (Node.decNoRightLean l) (Node.decNoRightLean r))

/-- Decision procedure for `NoRedRed`. -/
instance Node.decNoRedRed : (t : Node) → Decidable t.NoRedRed
  | .nil => isTrue trivial
  | .node _ l r _ =>
    @instDecidableAnd _ _ _ (@instDecidableAnd _ _ (Node.decNoRedRed l) (Node.decNoRedRed r))

/-- The three fix-up statements of `insert`, run in source order on the re-linked node. -/
def fixup (n : Node) : Option Node :=
  ((leanLeftStep n).bind doubleRedStep).bind splitStep

/-- Number of black nodes on the leftmost path from a node down to nil. -/
def bh : Node → Nat
  | .nil => 0
  | .node _ l _ c => bh l + (if c = red then 0 else 1)

/-- Whether the left child of a node is red (false for nil). -/
def leftRed : Node → Bool
  | .nil => false
  | .node _ l _ _ => isRed l

/-- The left-leaning red-black invariant of a subtree: equal black heights, no red right
child, no red node with a red left child. -/
def Node.Valid : Node → Prop
  | .nil => True
  | .node _ l r c =>
    l.Valid ∧ r.Valid ∧ bh l = bh r ∧ isRed r = false ∧ (c = red → isRed l = false)

/-- The invariant of a subtree returned by `insert`: as `Valid`, except that a red root may
have a red left child. -/
def Node.Almost : Node → Prop
  | .nil => False
  | .node _ l r _ => l.Valid ∧ r.Valid ∧ bh l = bh r ∧ isRed r = false

/-- The invariant of a whole red-black tree between two `Insert` calls. -/
def RedBlackTree.Inv (t : RedBlackTree) : Prop :=
  t.Root.Valid ∧ isRed t.Root = false ∧ (inorder t.Root []).Sorted (· < ·)

end RB

namespace Algorithms

/-- The slice read `arr[i]` for a Go `int` index; `none` is the index-out-of-range panic. -/
def index {α : Type} (arr : List α) (i : Int) : Option α :=
  if 0 ≤ i then arr[i.toNat]? else none

/-- The slice write `arr[i] = x` for a Go `int` index; `none` is the index-out-of-range
panic. -/
def store {α : Type} (arr : List α) (i : Int) (x : α) : Option (List α) :=
  if 0 ≤ i ∧ i < arr.length then some (arr.set i.toNat x) else none

/-- The inner loop `for j >= gap && arr[j-gap] > temp { arr[j] = arr[j-gap]; j -= gap }` of
`ShellSort`, returning the slice and the final `j`; `none` is a panic or exhausted fuel. -/
def shiftLoop (gap temp : Int) : Nat → List Int → Int → Option (List Int × Int)
  | 0, _, _ => none
  | fuel + 1, arr, j =>
    if j ≥ gap then
      match index arr (j - gap) with
      | none => none
      | some x =>
        if x > temp then
          match store arr j x with
          | none => none
          | some arr1 => shiftLoop gap temp fuel arr1 (j - gap)
        else some (arr, j)
    else some (arr, j)

/-- The loop `for i := gap; i < n; i++ { ... }` of `ShellSort`, entered at index `i`. -/
def gapPass (gap : Int) : Nat → List Int → Int → Option (List Int)
  | 0, _, _ => none
  | fuel + 1, arr, i =>
    if i < arr.length then
      match index arr i with
      | none => none
      | some temp =>
        match shiftLoop gap temp (arr.length + 1) arr i with
        | none => none
        | some (arr1, j) =>
          match store arr1 j temp with
          | none => none
          | some arr2 => gapPass gap fuel arr2 (i + 1)
    else some arr

/-- The loop `for gap > 0 { ...; gap /= 10 }` of `ShellSort`. -/
def gapLoop : Nat → List Int → Int → Option (List Int)
  | 0, _, _ => none
  | fuel + 1, arr, gap =>
    if gap > 0 then
      match gapPass gap (arr.length + 1) arr gap with
      | none => none
      | some arr1 => gapLoop fuel arr1 (gap.tdiv 10)
    else some arr

/-- Go `func ShellSort(arr []int)`: the contents of the slice after the call. The first gap
is `(len(arr) - 1) / 2` with Go's truncating division; the fuel `len(arr) + 1` bounds the
number of gaps tried. -/
def ShellSort (arr : List Int) : Option (List Int) :=
  gapLoop (arr.length + 1) arr (((arr.length : Int) - 1).tdiv 2)

/-- The loop `for arr[low] < pivot { low++ }` of `partition`, returning the final `low`. -/
def scanLow (arr : List Int) (pivot : Int) : Nat → Int → Option Int
  | 0, _ => none
  | fuel + 1, low =>
    match index arr low with
    | none => none
    | some x => if x < pivot then scanLow arr pivot fuel (low + 1) else some low

/-- The loop `for pivot < arr[high] { high-- }` of `partition`, returning the final `high`. -/
def scanHigh (arr : List Int) (pivot : Int) : Nat → Int → Option Int
  | 0, _ => none
  | fuel + 1, high =>
    match index arr high with
    | none => none
    | some x => if pivot < x then scanHigh arr pivot fuel (high - 1) else some high

/-- The loop `for !done { ... }` of `partition`, returning the slice and the final `high`. -/
def partitionLoop (pivot : Int) : Nat → List Int → Int → Int → Option (List Int × Int)
  | 0, _, _, _ => none
  | fuel + 1, arr, low, high =>
    match scanLow arr pivot (arr.length + 1) low with
    | none => none
    | some low1 =>
      match scanHigh arr pivot (arr.length + 1) high with
      | none => none
      | some high1 =>
        if low1 ≥ high1 then some (arr, high1)
        else
          match index arr low1, index arr high1 with
          | some x, some y =>
            match store arr low1 y with
            | none => none
            | some arr1 =>
              match store arr1 high1 x with
              | none => none
              | some arr2 => partitionLoop pivot fuel arr2 (low1 + 1) (high1 - 1)
          | _, _ => none

/-- Go `func partition(arr []int, low int, high int) int`: the slice after the call and the
returned index. -/
def partition (arr : List Int) (low high : Int) : Option (List Int × Int) :=
  match index arr (low + (high - low).tdiv 2) with
  | none => none
  | some pivot => partitionLoop pivot (arr.length + 1) arr low high

/-- Go `func QuickSort(arr []int)`: the contents of the slice after the call. The two
recursive calls work on the sub-slices `arr[:pivotIndex]` and `arr[pivotIndex+1 : high]` of
the same backing array, so the result is those two sorted stretches with `arr[pivotIndex]`
between them and `arr[high:]` after them, both left as `partition` put them. `none` is a
panic (index or slice bounds out of range) or exhausted fuel. -/
def QuickSortFuel : Nat → List Int → Option (List Int)
  | 0, _ => none
  | fuel + 1, arr =>
    let low : Int := 0
    let high : Int := (arr.length : Int) - 1
    if low < high then
      match partition arr low high with
      | none => none
      | some (arr1, pivotIndex) =>
        if 0 ≤ pivotIndex ∧ pivotIndex + 1 ≤ high then
          match QuickSortFuel fuel (arr1.take pivotIndex.toNat) with
          | none => none
          | some left =>
            match QuickSortFuel fuel
                ((arr1.drop (pivotIndex.toNat + 1)).take (high.toNat - (pivotIndex.toNat + 1))) with
            | none => none
            | some right =>
              some (left ++ (arr1.drop pivotIndex.toNat).take 1 ++ right ++ arr1.drop high.toNat)
        else none
    else some arr

/-- Go `func QuickSort(arr []int)` with fuel for the recursion depth, which never exceeds the
length of the slice. -/
def QuickSort (arr : List Int) : Option (List Int) :=
  QuickSortFuel (arr.length + 1) arr

/-- The constant `INF = math.MaxInt64`. -/
def INF : Int := 9223372036854775807

/-- The value a Go `int` (64 bits, two's complement) holds for the exact result `x`. -/
def wrapInt (x : Int) : Int :=
  (x + 9223372036854775808) % 18446744073709551616 - 9223372036854775808

/-- A Go `map[int]V`: the present keys with their values, each key once. -/
abbrev IntMap (V : Type) := List (Int × V)

/-- The lookup `v, ok := m[k]`: `none` when the key is absent. -/
def mapFind {V : Type} : IntMap V → Int → Option V
  | [], _ => none
  | (k1, v) :: rest, k => if k1 = k then some v else mapFind rest k

/-- The read `m[k]` of a `map[int]int`: an absent key reads as the zero value 0. -/
def mapGet (m : IntMap Int) (k : Int) : Int :=
  match mapFind m k with
  | none => 0
  | some v => v

/-- The write `m[k] = v`: replaces the value of a present key, adds an absent one. -/
def mapSet {V : Type} : IntMap V → Int → V → IntMap V
  | [], k, v => [(k, v)]
  | (k1, v1) :: rest, k, v => if k1 = k then (k, v) :: rest else (k1, v1) :: mapSet rest k v

/-- The type `Edge` of `dijkstra.go`; `dest` is its field `to`, a reserved word here. -/
structure Edge where
  dest : Int
  weight : Int
  deriving DecidableEq

/-- The type `Graph` of `dijkstra.go`: the adjacency lists, keyed by source vertex. -/
structure Graph where
  vertices : IntMap (List Edge)
  deriving DecidableEq

/-- Go `func NewGraph() *Graph`. -/
def NewGraph : Graph := Graph.mk []

/-- The read `g.vertices[u]`: an absent key reads as the nil slice. -/
def Graph.edges (g : Graph) (u : Int) : List Edge :=
  match mapFind g.vertices u with
  | none => []
  | some es => es

/-- Go `func (g *Graph) AddEdge(from, to, weight int)`. -/
def Graph.AddEdge (g : Graph) (src dest weight : Int) : Graph :=
  Graph.mk (mapSet g.vertices src (g.edges src ++ [Edge.mk dest weight]))

/-- The type `Item` of `dijkstra.go`. -/
structure Item where
  value : Int
  priority : Int
  index : Int
  deriving DecidableEq

/-- The type `PriorityQueue` of `dijkstra.go`. -/
abbrev PriorityQueue := List Item

/-- Go `func (pq *PriorityQueue) swap(i, j int)`: exchanges the two entries, then records the
new positions in their `index` fields. -/
def swap (pq : PriorityQueue) (i j : Int) : Option PriorityQueue :=
  match index pq i, index pq j with
  | some a, some b =>
    match store pq i b with
    | none => none
    | some pq1 =>
      match store pq1 j a with
      | none => none
      | some pq2 =>
        match index pq2 i with
        | none => none
        | some x =>
          match store pq2 i (Item.mk x.value x.priority i) with
          | none => none
          | some pq3 =>
            match index pq3 j with
            | none => none
            | some y => store pq3 j (Item.mk y.value y.priority j)
  | _, _ => none

/-- Go `func (pq *PriorityQueue) up(j int)`; `(j - 1) / 2` is Go's truncating division. -/
def up : Nat → PriorityQueue → Int → Option PriorityQueue
  | 0, _, _ => none
  | fuel + 1, pq, j =>
    let i := (j - 1).tdiv 2
    if i = j then some pq
    else
      match index pq i, index pq j with
      | some a, some b =>
        if a.priority ≤ b.priority then some pq
        else
          match swap pq i j with
          | none => none
          | some pq1 => up fuel pq1 i
      | _, _ => none

/-- Go `func (pq *PriorityQueue) down(i int)`. -/
def down : Nat → PriorityQueue → Int → Option PriorityQueue
  | 0, _, _ => none
  | fuel + 1, pq, i =>
    let n : Int := pq.length
    let j1 := 2 * i + 1
    if j1 ≥ n ∨ j1 < 0 then some pq
    else
      let smaller : Option Int :=
        if j1 + 1 < n then
          match index pq (j1 + 1), index pq j1 with
          | some a, some b => some (if a.priority < b.priority then j1 + 1 else j1)
          | _, _ => none
        else some j1
      match smaller with
      | none => none
      | some j =>
        match index pq j, index pq i with
        | some a, some b =>
          if a.priority ≥ b.priority then some pq
          else
            match swap pq i j with
            | none => none
            | some pq1 => down fuel pq1 j
        | _, _ => none

/-- Go `func (pq *PriorityQueue) Push(x *Item)`. -/
def Push (pq : PriorityQueue) (x : Item) : Option PriorityQueue :=
  up (pq.length + 1) (pq ++ [Item.mk x.value x.priority pq.length]) pq.length

/-- Go `func (pq *PriorityQueue) Pop() *Item`: the returned item and the queue afterwards. -/
def Pop (pq : PriorityQueue) : Option (Item × PriorityQueue) :=
  match index pq 0, index pq ((pq.length : Int) - 1) with
  | some item, some last =>
    match store pq 0 last with
    | none => none
    | some old =>
      match down (pq.length + 1) (old.take (pq.length - 1)) 0 with
      | none => none
      | some pq1 => some (item, pq1)
  | _, _ => none

/-- The state of the main loop of `Dijkstra`: `dist`, `prev` and the queue. -/
structure State where
  dist : IntMap Int
  prev : IntMap Int
  pq : PriorityQueue
  deriving DecidableEq

/-- The body of `for _, edge := range g.vertices[u] { ... }` for one edge. -/
def relax (u : Int) (s : State) (edge : Edge) : Option State :=
  let v := edge.dest
  let alt := wrapInt (mapGet s.dist u + edge.weight)
  if alt < mapGet s.dist v then
    match Push s.pq (Item.mk v alt 0) with
    | none => none
    | some pq1 => some (State.mk (mapSet s.dist v alt) (mapSet s.prev v u) pq1)
  else some s

/-- The loop `for _, edge := range g.vertices[u] { ... }`. -/
def relaxAll (u : Int) : State → List Edge → Option State
  | s, [] => some s
  | s, edge :: rest =>
    match relax u s edge with
    | none => none
    | some s1 => relaxAll u s1 rest

/-- The main loop `for len(pq) > 0 { ... }` of `Dijkstra`; `none` is a panic or exhausted
fuel. -/
def mainLoop (g : Graph) : Nat → State → Option State
  | 0, _ => none
  | fuel + 1, s =>
    if s.pq.length > 0 then
      match Pop s.pq with
      | none => none
      | some (item, pq1) =>
        match relaxAll item.value (State.mk s.dist s.prev pq1) (g.edges item.value) with
        | none => none
        | some s1 => mainLoop g fuel s1
    else some s

/-- The loop `for v := range g.vertices { dist[v] = INF; prev[v] = -1 }`. -/
def initMaps : List (Int × List Edge) → IntMap Int × IntMap Int
  | [] => ([], [])
  | (v, _) :: rest => (mapSet (initMaps rest).1 v INF, mapSet (initMaps rest).2 v (-1))

/-- Go `func (g *Graph) Dijkstra(start int) (dist map[int]int, prev map[int]int)`, with fuel
for the number of queue pops. -/
def Graph.Dijkstra (g : Graph) (start : Int) (fuel : Nat) : Option (IntMap Int × IntMap Int) :=
  match Push [] (Item.mk start 0 0) with
  | none => none
  | some pq =>
    match mainLoop g fuel
        (State.mk (mapSet (initMaps g.vertices).1 start 0) (initMaps g.vertices).2 pq) with
    | none => none
    | some s => some (s.dist, s.prev)

/-- The graph built by `TestDijkstraAlgorithm`. -/
def testGraph : Graph :=
  (((((NewGraph.AddEdge 0 1 4).AddEdge 0 2 2).AddEdge 1 2 5).AddEdge 1 3 10).AddEdge 2 3 3).AddEdge
    3 4 1

/-- The total weight of the path visiting the given vertices in order, taking at each step
the first edge of the graph between the two vertices; `none` when some step has no edge. -/
def pathWeight (g : Graph) : List Int → Option Int
  | [] => some 0
  | [_] => some 0
  | u :: v :: rest =>
    match (g.edges u).find? (fun e => decide (e.dest = v)) with
    | none => none
    | some e =>
      match pathWeight g (v :: rest) with
      | none => none
      | some w => some (e.weight + w)

/-- The exchange `arr[i], arr[j] = arr[j], arr[i]`; `none` is the index-out-of-range panic. -/
def swapAt (arr : List Int) (i j : Nat) : Option (List Int) :=
  match arr[i]?, arr[j]? with
  | some a, some b => some ((arr.set i b).set j a)
  | _, _ => none

/-- The statement `if child < n && arr[child] > arr[largest] { largest = child }` of `heapify`
(and of `PercolateDown`), returning the new `largest`; `arr[child]` is read only when
`child < n`. -/
def pickLarger (arr : List Int) (n child largest : Nat) : Option Nat :=
  if child < n then
    match arr[child]?, arr[largest]? with
    | some x, some y => some (if x > y then child else largest)
    | _, _ => none
  else some largest

/-- Go `func heapify(arr []int, n, i int)` with fuel for the recursion depth: the contents of
the slice after the call. -/
def heapify : Nat → List Int → Nat → Nat → Option (List Int)
  | 0, _, _, _ => none
  | fuel + 1, arr, n, i =>
    match pickLarger arr n (2 * i + 1) i with
    | none => none
    | some largest1 =>
      match pickLarger arr n (2 * i + 2) largest1 with
      | none => none
      | some largest =>
        if largest ≠ i then
          match swapAt arr i largest with
          | none => none
          | some arr1 => heapify fuel arr1 n largest
        else some arr

/-- The loop `for i := n/2 - 1; i >= 0; i-- { heapify(arr, n, i) }` of `HeapSort`, entered
with `i = count - 1`; it ends when `i` reaches -1, that is `count = 0`. Each `heapify` call
descends from `i` to a larger index below `n`, so fuel `n + 1` is enough for it. -/
def buildHeap (n : Nat) : Nat → List Int → Option (List Int)
  | 0, arr => some arr
  | i + 1, arr =>
    match heapify (n + 1) arr n i with
    | none => none
    | some arr1 => buildHeap n i arr1

/-- The loop `for i := n - 1; i > 0; i-- { arr[0], arr[i] = arr[i], arr[0]; heapify(arr, i, 0) }`
of `HeapSort`, entered with the given `i`. -/
def extractAll : Nat → List Int → Option (List Int)
  | 0, arr => some arr
  | i + 1, arr =>
    match swapAt arr 0 (i + 1) with
    | none => none
    | some arr1 =>
      match heapify (i + 2) arr1 (i + 1) 0 with
      | none => none
      | some arr2 => extractAll i arr2

/-- Go `func HeapSort(arr []int)`: the contents of the slice after the call. For the empty
slice `n/2 - 1` and `n - 1` are both -1 and neither loop body runs. -/
def HeapSort (arr : List Int) : Option (List Int) :=
  match buildHeap arr.length (arr.length / 2) arr with
  | none => none
  | some arr1 => extractAll (arr.length - 1) arr1

/-- The element `arr[i]`, read as 0 outside the slice. -/
def nth (arr : List Int) (i : Nat) : Int := (arr[i]?).getD 0

/-- The max-heap property at node `j` of a heap of `n` elements `f 0, ..., f (n - 1)`:
neither child that lies below `n` is larger than the node. -/
def HeapAt (f : Nat → Int) (n j : Nat) : Prop :=
  (2 * j + 1 < n → f (2 * j + 1) ≤ f j) ∧ (2 * j + 2 < n → f (2 * j + 2) ≤ f j)

/-- What a sift-down from node `c` may assume inside the part of the heap from index `lo` on:
every other node from `lo` on has the heap property, and a parent of `c` from `lo` on is not
smaller than the children of `c`. -/
def SiftPre (f : Nat → Int) (n lo c : Nat) : Prop :=
  (∀ j, lo ≤ j → j ≠ c → HeapAt f n j) ∧
    (∀ p, lo ≤ p → (c = 2 * p + 1 ∨ c = 2 * p + 2) →
      (2 * c + 1 < n → f (2 * c + 1) ≤ f p) ∧ (2 * c + 2 < n → f (2 * c + 2) ≤ f p))

/-- The slice write `arr[k] = x` for an index that is never negative; `none` is the
index-out-of-range panic. -/
def storeAt (arr : List Int) (k : Nat) (x : Int) : Option (List Int) :=
  if k < arr.length then some (arr.set k x) else none

/-- The loop `for i < len(left) && j < len(right) { ... }` of `MergeSort`, returning the slice
and the final `i`, `j`, `k`. -/
def mergeBoth (left right : List Int) :
    Nat → List Int → Nat → Nat → Nat → Option (List Int × Nat × Nat × Nat)
  | 0, _, _, _, _ => none
  | fuel + 1, arr, i, j, k =>
    if i < left.length ∧ j < right.length then
      match left[i]?, right[j]? with
      | some x, some y =>
        if x ≤ y then
          match storeAt arr k x with
          | none => none
          | some arr1 => mergeBoth left right fuel arr1 (i + 1) j (k + 1)
        else
          match storeAt arr k y with
          | none => none
          | some arr1 => mergeBoth left right fuel arr1 i (j + 1) (k + 1)
      | _, _ => none
    else some (arr, i, j, k)

/-- The loops `for i < len(left) { arr[k] = left[i]; i++; k++ }` and
`for j < len(right) { arr[k] = right[j]; j++; k++ }` of `MergeSort`, for the source slice
`src`, returning the slice and the final source index and `k`. -/
def copyRest (src : List Int) : Nat → List Int → Nat → Nat → Option (List Int × Nat × Nat)
  | 0, _, _, _ => none
  | fuel + 1, arr, i, k =>
    if i < src.length then
      match src[i]? with
      | none => none
      | some x =>
        match storeAt arr k x with
        | none => none
        | some arr1 => copyRest src fuel arr1 (i + 1) (k + 1)
    else some (arr, i, k)

/-- Go `func MergeSort(arr []int)` with fuel for the recursion depth: the contents of the
slice after the call. `left` and `right` are fresh copies of the two halves. -/
def MergeSortFuel : Nat → List Int → Option (List Int)
  | 0, _ => none
  | fuel + 1, arr =>
    if arr.length ≤ 1 then some arr
    else
      match MergeSortFuel fuel (arr.take (arr.length / 2)),
          MergeSortFuel fuel (arr.drop (arr.length / 2)) with
      | some left, some right =>
        match mergeBoth left right (arr.length + 1) arr 0 0 0 with
        | none => none
        | some (arr1, i, j, k) =>
          match copyRest left (arr.length + 1) arr1 i k with
          | none => none
          | some (arr2, _, k2) =>
            match copyRest right (arr.length + 1) arr2 j k2 with
            | none => none
            | some (arr3, _, _) => some arr3
      | _, _ => none

/-- Go `func MergeSort(arr []int)`; each recursive call works on a strictly shorter slice, so
`len(arr) + 1` levels of recursion are never exceeded. -/
def MergeSort (arr : List Int) : Option (List Int) :=
  MergeSortFuel (arr.length + 1) arr

/-- Go `func RadixGetLength(num int) int`. For a positive `num` the expression
`int(math.Log10(float64(num))) + 1` is taken as the exact number of decimal digits of `num`.
For a negative `num` the source converts NaN to `int`, a conversion whose result Go leaves to
the implementation: `nanLen` stands for what the expression yields there. -/
def RadixGetLength (nanLen : Int) (num : Int) : Int :=
  if num = 0 then 1
  else if num < 0 then nanLen
  else (Nat.log 10 num.toNat : Int) + 1

/-- The loop `for _, num := range arr { if num < 0 { num = -num }; if num > max { max = num } }`
of `RadixGetMaxLength`, returning the final `max`. -/
def radixMaxLoop : List Int → Int → Int
  | [], max => max
  | num :: rest, max =>
    let num1 := if num < 0 then wrapInt (-num) else num
    radixMaxLoop rest (if num1 > max then num1 else max)

/-- Go `func RadixGetMaxLength(arr []int) int`; `none` is the panic of `arr[0]` on an empty
slice. -/
def RadixGetMaxLength (nanLen : Int) (arr : List Int) : Option Int :=
  match index arr 0 with
  | none => none
  | some max => some (RadixGetLength nanLen (radixMaxLoop arr max))

/-- The first loop of `RadixSort`: negative numbers go negated to `negativeArr`, the others to
`nonNegativeArr`. -/
def radixSplit : List Int → List Int → List Int → List Int × List Int
  | [], negativeArr, nonNegativeArr => (negativeArr, nonNegativeArr)
  | num :: rest, negativeArr, nonNegativeArr =>
    if num < 0 then radixSplit rest (negativeArr ++ [wrapInt (-num)]) nonNegativeArr
    else radixSplit rest negativeArr (nonNegativeArr ++ [num])

/-- The expression `(num / int(math.Pow(10, float64(i)))) % 10` with Go's truncating `/` and
`%`, the power taken as the exact integer `10^i`. -/
def radixDigit (num : Int) (i : Nat) : Int :=
  (num.tdiv (10 ^ i)).tmod 10

/-- The loop `for _, num := range subArray { digit := ...; buckets[digit] = append(buckets[digit],
num) }`; `none` is the index-out-of-range panic of `buckets[digit]`. -/
def radixFill (i : Nat) : List Int → List (List Int) → Option (List (List Int))
  | [], buckets => some buckets
  | num :: rest, buckets =>
    match index buckets (radixDigit num i) with
    | none => none
    | some bucket =>
      match store buckets (radixDigit num i) (bucket ++ [num]) with
      | none => none
      | some buckets1 => radixFill i rest buckets1

/-- The loop `for _, num := range nums { arr[index] = num; index++ }`, returning the slice and
the final `index`. -/
def radixWrite : List Int → List Int → Nat → Option (List Int × Nat)
  | [], arr, index => some (arr, index)
  | num :: rest, arr, index =>
    match storeAt arr index num with
    | none => none
    | some arr1 => radixWrite rest arr1 (index + 1)

/-- The loop `for j := 0; j < 10; j++ { for _, num := range buckets[j] { ... } }` over the ten
buckets. -/
def radixWriteAll : List (List Int) → List Int → Nat → Option (List Int × Nat)
  | [], subArray, index => some (subArray, index)
  | bucket :: rest, subArray, index =>
    match radixWrite bucket subArray index with
    | none => none
    | some (subArray1, index1) => radixWriteAll rest subArray1 index1

/-- The loop `for i := 0; i < maxDigs; i++ { ... }` of the inline `radixSort` with `passes`
iterations left. -/
def radixPasses : Nat → Nat → List Int → Option (List Int)
  | 0, _, subArray => some subArray
  | passes + 1, i, subArray =>
    match radixFill i subArray (List.replicate 10 []) with
    | none => none
    | some buckets =>
      match radixWriteAll buckets subArray 0 with
      | none => none
      | some (subArray1, _) => radixPasses passes (i + 1) subArray1

/-- The inline `radixSort := func(subArray []int, maxDigs int)` of `RadixSort`: the contents
of `subArray` after the call. -/
def radixSort (subArray : List Int) (maxDigs : Int) : Option (List Int) :=
  radixPasses maxDigs.toNat 0 subArray

/-- Go `func RadixSort(arr []int)`: the contents of the slice after the call; `none` is a
panic. -/
def RadixSort (nanLen : Int) (arr : List Int) : Option (List Int) :=
  match RadixGetMaxLength nanLen arr with
  | none => none
  | some maxDigits =>
    match radixSort (radixSplit arr [] []).1 maxDigits,
        radixSort (radixSplit arr [] []).2 maxDigits with
    | some negativeArr, some nonNegativeArr =>
      match radixWrite (negativeArr.reverse.map (fun num => wrapInt (-num))) arr 0 with
      | none => none
      | some (arr1, arrIndex) =>
        match radixWrite nonNegativeArr arr1 arrIndex with
        | none => none
        | some (arr2, _) => some arr2
    | _, _ => none

/-- Go `func Fibonacci(i int) int` on an argument `i ≥ 0`, by recursion on `i`; the sum is a
Go `int` addition and wraps around. -/
def FibonacciNat : Nat → Int
  | 0 => 0
  | 1 => 1
  | n + 2 => wrapInt (FibonacciNat (n + 1) + FibonacciNat n)

/-- Go `func Fibonacci(i int) int`: for a negative argument the recursion never reaches a base
case and the call does not return (`none`). -/
def Fibonacci (i : Int) : Option Int :=
  if 0 ≤ i then some (FibonacciNat i.toNat) else none

/-- The loop `for i := 1; i < term; i++ { next := prev + current; prev = current;
current = next }` of `DynamicFibonacci` with the given number of iterations left, returning
the final `current`. -/
def fibLoop : Nat → Int → Int → Int
  | 0, _, current => current
  | k + 1, prev, current => fibLoop k current (wrapInt (prev + current))

/-- Go `func DynamicFibonacci(term int) int`: the loop body runs `term - 1` times (not at all
when `term ≤ 1`). -/
def DynamicFibonacci (term : Int) : Int :=
  if term = 0 then 0 else fibLoop (term - 1).toNat 0 1

/-- A byte of a Go `string`. -/
abbrev Byte := Fin 256

/-- The read `dp[i][j]` of the matrix; `none` is the index-out-of-range panic. -/
def load2 (dp : List (List Int)) (i j : Nat) : Option Int :=
  match dp[i]? with
  | none => none
  | some row => row[j]?

/-- The write `dp[i][j] = v` of the matrix; `none` is the index-out-of-range panic. -/
def store2 (dp : List (List Int)) (i j : Nat) (v : Int) : Option (List (List Int)) :=
  match dp[i]? with
  | none => none
  | some row => if j < row.length then some (dp.set i (row.set j v)) else none

/-- The variables of `LongestCommonSubstring` that its loops change. -/
structure LcsState where
  dp : List (List Int)
  maxLength : Int
  endIndex : Int

/-- The body of the inner loop of `LongestCommonSubstring` for given `i` and `j`. -/
def lcsCell (str1 str2 : List Byte) (i j : Nat) (s : LcsState) : Option LcsState :=
  match str1[i - 1]?, str2[j - 1]? with
  | some a, some b =>
    if a = b then
      match load2 s.dp (i - 1) (j - 1) with
      | none => none
      | some d =>
        match store2 s.dp i j (d + 1) with
        | none => none
        | some dp1 =>
          if d + 1 > s.maxLength then some (LcsState.mk dp1 (d + 1) i)
          else some (LcsState.mk dp1 s.maxLength s.endIndex)
    else
      match store2 s.dp i j 0 with
      | none => none
      | some dp1 => some (LcsState.mk dp1 s.maxLength s.endIndex)
  | _, _ => none

/-- The loop `for j := 1; j <= n; j++ { ... }`, entered at the given `j` with the given number
of iterations left. -/
def lcsRow (str1 str2 : List Byte) (i : Nat) : Nat → Nat → LcsState → Option LcsState
  | 0, _, s => some s
  | k + 1, j, s =>
    match lcsCell str1 str2 i j s with
    | none => none
    | some s1 => lcsRow str1 str2 i k (j + 1) s1

/-- The loop `for i := 1; i <= m; i++ { ... }`, entered at the given `i` with the given number
of iterations left. -/
def lcsRows (str1 str2 : List Byte) : Nat → Nat → LcsState → Option LcsState
  | 0, _, s => some s
  | k + 1, i, s =>
    match lcsRow str1 str2 i str2.length 1 s with
    | none => none
    | some s1 => lcsRows str1 str2 k (i + 1) s1

/-- Go `func LongestCommonSubstring(str1, str2 string) string`, on the byte sequences of the
two strings; `none` is a panic (index or slice bounds out of range). -/
def LongestCommonSubstring (str1 str2 : List Byte) : Option (List Byte) :=
  match lcsRows str1 str2 str1.length 1
      (LcsState.mk (List.replicate (str1.length + 1) (List.replicate (str2.length + 1) 0)) 0 0) with
  | none => none
  | some s =>
    if s.maxLength = 0 then some []
    else if 0 ≤ s.endIndex - s.maxLength ∧ s.endIndex - s.maxLength ≤ s.endIndex ∧
        s.endIndex ≤ str1.length then
      some ((str1.drop (s.endIndex - s.maxLength).toNat).take s.maxLength.toNat)
    else none

/-- The length of the longest common prefix of two byte sequences. -/
def commonPrefixLen : List Byte → List Byte → Nat
  | x :: xs, y :: ys => if x = y then commonPrefixLen xs ys + 1 else 0
  | _, _ => 0

/-- The length of the longest common suffix of `str1[:i]` and `str2[:j]`. -/
def suf (str1 str2 : List Byte) (i j : Nat) : Nat :=
  commonPrefixLen (str1.take i).reverse (str2.take j).reverse

/-- The matrix entry `dp[i][j]`, read as 0 outside the matrix. -/
def cell (dp : List (List Int)) (i j : Nat) : Int := (load2 dp i j).getD 0

/-- The loop invariant of `LongestCommonSubstring` when the cell `(i, j)` is the next to be
filled: the matrix has its shape, the filled cells hold the common-suffix lengths and the
others 0, `maxLength` bounds the filled cells and is attained in row `endIndex`. -/
def LcsInv (str1 str2 : List Byte) (i j : Nat) (s : LcsState) : Prop :=
  s.dp.length = str1.length + 1 ∧ (∀ row ∈ s.dp, row.length = str2.length + 1) ∧
  (∀ x y, x ≤ str1.length → y ≤ str2.length →
    cell s.dp x y = if x < i ∨ (x = i ∧ y < j) then (suf str1 str2 x y : Int) else 0) ∧
  (∀ x y, x ≤ str1.length → y ≤ str2.length → (x < i ∨ (x = i ∧ y < j)) →
    (suf str1 str2 x y : Int) ≤ s.maxLength) ∧
  0 ≤ s.maxLength ∧
  (0 < s.maxLength → ∃ x y, x ≤ str1.length ∧ y ≤ str2.length ∧ s.endIndex = x ∧
    (suf str1 str2 x y : Int) = s.maxLength)

/-- The outcome of running a Go function on given fuel: a returned value, a panic, or fuel
exhausted before the function returned. -/
inductive Run (α : Type) where
  | done (a : α) : Run α
  | panic : Run α
  | fuelOut : Run α
  deriving DecidableEq

/-- Go `func binarySearchRecursive(arr []int, target int, left int, right int) int`, with fuel
for the recursion depth. The trace output evaluates `arr[mid]`, then `arr[mid+1]` and
`arr[right]` before searching right, or `arr[left]` and `arr[mid-1]` before searching left;
an index out of range there is a panic. -/
def binarySearchRecursive (arr : List Int) (target : Int) : Nat → Int → Int → Run Int
  | 0, _, _ => .fuelOut
  | fuel + 1, left, right =>
    if left > right then .done (-1)
    else
      match index arr (left + (right - left).tdiv 2) with
      | none => .panic
      | some x =>
        if x = target then .done (left + (right - left).tdiv 2)
        else if x < target then
          match index arr (left + (right - left).tdiv 2 + 1), index arr right with
          | some _, some _ =>
            binarySearchRecursive arr target fuel (left + (right - left).tdiv 2 + 1) right
          | _, _ => .panic
        else
          match index arr left, index arr (left + (right - left).tdiv 2 - 1) with
          | some _, some _ =>
            binarySearchRecursive arr target fuel left (left + (right - left).tdiv 2 - 1)
          | _, _ => .panic

/-- Go `func BinarySearch(arr []int, target int) int`; each recursive call searches a strictly
shorter stretch, so `len(arr) + 1` levels of recursion are never exceeded. -/
def BinarySearch (arr : List Int) (target : Int) : Run Int :=
  binarySearchRecursive arr target (arr.length + 1) 0 ((arr.length : Int) - 1)

/-- The ten buckets after the filling loop of pass `i` over `nums`: bucket `d` holds, in their
order in `nums`, the numbers whose digit `i` is `d`. -/
def bucketsOf (i : Nat) (nums : List Int) : List (List Int) :=
  (List.range 10).map
    (fun (d : Nat) => nums.filter (fun x => decide (radixDigit x i = (d : Int))))

end Algorithms

namespace Maxheap

/-- The type `MaxHeap` of `maxheap.go`. -/
structure MaxHeap where
  heap : List Int
  deriving DecidableEq

/-- Go `func NewMaxHeap() *MaxHeap`. -/
def NewMaxHeap : MaxHeap := MaxHeap.mk []

/-- Go `func (h *MaxHeap) PercolateUp(index int)` on the backing slice, with fuel for the
number of loop iterations; `(index - 1) / 2` is taken only for `index > 0`. -/
def PercolateUp : Nat → List Int → Nat → Option (List Int)
  | 0, _, _ => none
  | fuel + 1, heap, index =>
    if index > 0 then
      match heap[index]?, heap[(index - 1) / 2]? with
      | some x, some p =>
        if x ≤ p then some heap
        else
          match Algorithms.swapAt heap index ((index - 1) / 2) with
          | none => none
          | some heap1 => PercolateUp fuel heap1 ((index - 1) / 2)
      | _, _ => none
    else some heap

/-- Go `func (h *MaxHeap) PercolateDown(index int)` on the backing slice, with fuel for the
number of loop iterations. -/
def PercolateDown : Nat → List Int → Nat → Option (List Int)
  | 0, _, _ => none
  | fuel + 1, heap, index =>
    match Algorithms.pickLarger heap heap.length (2 * index + 1) index with
    | none => none
    | some largest1 =>
      match Algorithms.pickLarger heap heap.length (2 * index + 2) largest1 with
      | none => none
      | some largest =>
        if largest = index then some heap
        else
          match Algorithms.swapAt heap index largest with
          | none => none
          | some heap1 => PercolateDown fuel heap1 largest

/-- Go `func (h *MaxHeap) Insert(value int)`. -/
def MaxHeap.Insert (h : MaxHeap) (value : Int) : Option MaxHeap :=
  match PercolateUp (h.heap.length + 2) (h.heap ++ [value]) h.heap.length with
  | none => none
  | some heap1 => some (MaxHeap.mk heap1)

/-- Go `func (h *MaxHeap) Remove() int`: the returned value and the heap afterwards. -/
def MaxHeap.Remove (h : MaxHeap) : Option (Int × MaxHeap) :=
  if h.heap.length = 0 then some (0, h)
  else
    match h.heap[0]?, h.heap[h.heap.length - 1]? with
    | some root, some last =>
      match PercolateDown (h.heap.length + 1) ((h.heap.set 0 last).take (h.heap.length - 1)) 0 with
      | none => none
      | some heap1 => some (root, MaxHeap.mk heap1)
    | _, _ => none

/-- One call on a heap: `Insert(value)` or `Remove()`. -/
inductive Call where
  | insert (value : Int) : Call
  | remove : Call
  deriving DecidableEq

/-- A finite sequence of `Insert` and `Remove` calls, run in order. -/
def MaxHeap.run (h : MaxHeap) : List Call → Option MaxHeap
  | [] => some h
  | .insert value :: rest =>
    match h.Insert value with
    | none => none
    | some h1 => h1.run rest
  | .remove :: rest =>
    match h.Remove with
    | none => none
    | some (_, h1) => h1.run rest

/-- The max-heap property of a backing slice: for every index `i`, `heap[i] >= heap[2i+1]` and
`heap[i] >= heap[2i+2]` whenever those indices exist. -/
def IsMaxHeap (heap : List Int) : Prop :=
  ∀ i, Algorithms.HeapAt (Algorithms.nth heap) heap.length i

/-- What a sift-up from node `c` may assume in a heap of `n` elements: every other node is not
larger than its parent, and the children of `c` are not larger than the parent of `c`. -/
def UpPre (f : Nat → Int) (n c : Nat) : Prop :=
  (∀ j q, j < n → (j = 2 * q + 1 ∨ j = 2 * q + 2) → j ≠ c → f j ≤ f q) ∧
    (∀ j p, j < n → (j = 2 * c + 1 ∨ j = 2 * c + 2) → (c = 2 * p + 1 ∨ c = 2 * p + 2) →
      f j ≤ f p)

end Maxheap

namespace Binary

/-- The type `*Node` of `binary.go`: `nil`, or a node with `Value`, `Left`, `Right`. -/
inductive Node where
  | nil : Node
  | node (Value : Int) (Left Right : Node) : Node
  deriving DecidableEq

/-- The type `Tree` of `binary.go`. -/
structure Tree where
  Root : Node
  deriving DecidableEq

/-- Go `func NewBinaryTree() *Tree`. -/
def NewBinaryTree : Tree := Tree.mk .nil

/-- Go `func (tree *Tree) insertNode(current *Node, newNode *Node)`, given the value of the
fresh leaf `newNode`; returns the subtree rooted at `current` afterwards. A nil `current`
would be dereferenced (`none`). -/
def insertNode : Node → Int → Option Node
  | .nil, _ => none
  | .node v l r, value =>
    if value < v then
      if l = .nil then some (.node v (.node value .nil .nil) r)
      else
        match insertNode l value with
        | none => none
        | some l1 => some (.node v l1 r)
    else
      if r = .nil then some (.node v l (.node value .nil .nil))
      else
        match insertNode r value with
        | none => none
        | some r1 => some (.node v l r1)

/-- Go `func (tree *Tree) Insert(value int)`. -/
def Tree.Insert (tree : Tree) (value : Int) : Option Tree :=
  if tree.Root = .nil then some (Tree.mk (.node value .nil .nil))
  else
    match insertNode tree.Root value with
    | none => none
    | some r => some (Tree.mk r)

/-- A run of `Insert` calls, one per value, in order. -/
def Tree.InsertAll (tree : Tree) : List Int → Option Tree
  | [] => some tree
  | value :: rest =>
    match tree.Insert value with
    | none => none
    | some t => t.InsertAll rest

/-- Go `func (tree *Tree) searchNode(node *Node, value int) bool`. -/
def searchNode : Node → Int → Bool
  | .nil, _ => false
  | .node v l r, value =>
    if value = v then true
    else if value < v then searchNode l value
    else searchNode r value

/-- Go `func (tree *Tree) Search(value int) bool`. -/
def Tree.Search (tree : Tree) (value : Int) : Bool :=
  searchNode tree.Root value

/-- The values stored in a subtree, in order (left, node, right). -/
def Node.values : Node → List Int
  | .nil => []
  | .node v l r => l.values ++ v :: r.values

/-- The ordering that `insertNode` keeps: smaller values to the left of a node, equal or
larger ones to its right. -/
def Node.Ordered : Node → Prop
  | .nil => True
  | .node v l r =>
    (∀ x ∈ l.values, x < v) ∧ (∀ x ∈ r.values, v ≤ x) ∧ l.Ordered ∧ r.Ordered

end Binary

/-! Order and membership of in-order sequences, shared by both trees. -/

/-- Membership and order of `l1 ++ k :: r` when `l1` is `l` with `key < k` added. -/
theorem inorder_left_step {l l1 r : List Int} {k key : Int} (hlt : key < k)
    (hmem : ∀ x, x ∈ l1 ↔ x = key ∨ x ∈ l)
    (hsort : l.Sorted (· < ·) → l1.Sorted (· < ·)) :
    (∀ x, x ∈ l1 ++ k :: r ↔ x = key ∨ x ∈ l ++ k :: r) ∧
    ((l ++ k :: r).Sorted (· < ·) → (l1 ++ k :: r).Sorted (· < ·)) := by
  constructor
  · intro x
    simp only [List.mem_append, List.mem_cons, hmem]
    tauto
  · intro hs
    simp only [List.Sorted, List.pairwise_append] at hs ⊢
    obtain ⟨s1, s2, s3⟩ := hs
    refine ⟨hsort s1, s2, ?_⟩
    intro a ha b hb
    rcases (hmem a).1 ha with rfl | ha
    · rcases List.mem_cons.1 hb with rfl | hb
      · exact hlt
      · exact lt_trans hlt (List.rel_of_pairwise_cons s2 hb)
    · exact s3 a ha b hb

/-- Membership and order of `l ++ k :: r1` when `r1` is `r` with `key > k` added. -/
theorem inorder_right_step {l r r1 : List Int} {k key : Int} (hgt : k < key)
    (hmem : ∀ x, x ∈ r1 ↔ x = key ∨ x ∈ r)
    (hsort : r.Sorted (· < ·) → r1.Sorted (· < ·)) :
    (∀ x, x ∈ l ++ k :: r1 ↔ x = key ∨ x ∈ l ++ k :: r) ∧
    ((l ++ k :: r).Sorted (· < ·) → (l ++ k :: r1).Sorted (· < ·)) := by
  constructor
  · intro x
    simp only [List.mem_append, List.mem_cons, hmem]
    tauto
  · intro hs
    simp only [List.Sorted, List.pairwise_append, List.pairwise_cons] at hs ⊢
    obtain ⟨s1, ⟨s2, s4⟩, s3⟩ := hs
    refine ⟨s1, ⟨?_, hsort s4⟩, ?_⟩
    · intro a ha
      rcases (hmem a).1 ha with rfl | ha
      · exact hgt
      · exact s2 a ha
    · intro a ha b hb
      rcases List.mem_cons.1 hb with rfl | hb
      · exact s3 a ha _ (List.mem_cons_self _ _)
      · rcases (hmem b).1 hb with rfl | hb
        · exact lt_trans (s3 a ha _ (List.mem_cons_self _ _)) hgt
        · exact s3 a ha b (List.mem_cons_of_mem _ hb)

/-- The six orders of three elements. -/
theorem perm_three {ks : List Int} {a b c : Int} (h : ks.Perm [a, b, c]) :
    ks = [a, b, c] ∨ ks = [a, c, b] ∨ ks = [b, a, c] ∨ ks = [b, c, a] ∨ ks = [c, a, b] ∨
      ks = [c, b, a] := by
  have h1 := List.mem_permutations.2 h
  simp [List.permutations, List.permutationsAux, List.permutationsAux.rec, List.permutationsAux2] at h1
  tauto

/-! The AVL tree. -/

namespace AVL

@[simp]
theorem Node.Height_nil : Node.nil.Height = 0 := rfl
@[simp]
theorem Node.Height_node (k : Int) (l r : Node) (h : Int) :
    (Node.node k l r h).Height = h := rfl
@[simp]
theorem Node.Bal_node (k : Int) (l r : Node) (h : Int) :
    (Node.node k l r h).Bal = some (r.Height - l.Height) := rfl
@[simp]
theorem Node.inorder_nil : Node.nil.inorder = [] := rfl
@[simp]
theorem Node.inorder_node (k : Int) (l r : Node) (h : Int) :
    (Node.node k l r h).inorder = l.inorder ++ k :: r.inorder := rfl

theorem Node.Inv.height_nonneg : ∀ {t : Node}, t.Inv → 0 ≤ t.Height
  | .nil, _ => by simp
  | .node _ l r h, hi => by
    obtain ⟨hl, hr, hh, _, _⟩ := hi
    have := hl.height_nonneg
    have := hr.height_nonneg
    simp only [Node.Height_node]
    omega

theorem rebalance_noop (k : Int) (l r : Node) (h : Int)
    (h1 : -1 ≤ r.Height - l.Height) (h2 : r.Height - l.Height ≤ 1) :
    (Node.node k l r h).rebalance = some (.node k l r h) := by
  have e1 : decide (r.Height - l.Height < -1) = false := by simp; omega
  have e2 : decide (r.Height - l.Height > 1) = false := by simp; omega
  simp [Node.rebalance, balGuard, e1, e2]

theorem rebalance_left (k : Int) (l r : Node) (hl : l.Inv) (hr : r.Inv)
    (hh : l.Height = r.Height + 2) (hlean : l.Tilted) :
    ∃ t, (Node.node k l r (max l.Height r.Height + 1)).rebalance = some t ∧ t.Inv ∧
      t.Height = r.Height + 2 ∧ t.inorder = l.inorder ++ k :: r.inorder := by
  have hr0 := hr.height_nonneg
  match l, hl, hlean with
  | .node lk ll lr lh, ⟨hll, hlr, hlh, hb1, hb2⟩, hne =>
    simp only [Node.Tilted] at hne
    simp only [Node.Height_node] at hh
    have hll0 := hll.height_nonneg
    have hlr0 := hlr.height_nonneg
    have e1 : decide (r.Height - lh < -1) = true := by simp; omega
    have e2 : decide (r.Height - lh > 1) = false := by simp; omega
    by_cases hc : lr.Height - ll.Height = -1
    · refine ⟨.node lk ll (.node k lr r (max lr.Height r.Height + 1))
        (max ll.Height (max lr.Height r.Height + 1) + 1), ?_, ?_, ?_, ?_⟩
      · simp [Node.rebalance, balGuard, e1, hc, Node.rotateRight]
      · simp [Node.Inv, *]
        omega
      · simp; omega
      · simp
    · have hc1 : lr.Height - ll.Height = 1 := by omega
      match lr, hlr with
      | .nil, _ => simp at hc1; omega
      | .node mk ml mr mh, ⟨hml, hmr, hmh, hmb1, hmb2⟩ =>
        simp only [Node.Height_node] at *
        have hml0 := hml.height_nonneg
        have hmr0 := hmr.height_nonneg
        refine ⟨.node mk (.node lk ll ml (max ll.Height ml.Height + 1))
          (.node k mr r (max mr.Height r.Height + 1))
          (max (max ll.Height ml.Height + 1) (max mr.Height r.Height + 1) + 1), ?_, ?_, ?_, ?_⟩
        · simp [Node.rebalance, balGuard, e1, e2, hc1, Node.rotateLeftRight, Node.rotateLeft,
            Node.rotateRight, Node.updateHeight]
        · simp [Node.Inv, *]
          omega
        · simp; omega
        · simp

theorem rebalance_right (k : Int) (l r : Node) (hl : l.Inv) (hr : r.Inv)
    (hh : r.Height = l.Height + 2) (hlean : r.Tilted) :
    ∃ t, (Node.node k l r (max l.Height r.Height + 1)).rebalance = some t ∧ t.Inv ∧
      t.Height = l.Height + 2 ∧ t.inorder = l.inorder ++ k :: r.inorder := by
  have hl0 := hl.height_nonneg
  match r, hr, hlean with
  | .node rk rl rr rh, ⟨hrl, hrr, hrh, hb1, hb2⟩, hne =>
    simp only [Node.Tilted] at hne
    simp only [Node.Height_node] at hh
    have hrl0 := hrl.height_nonneg
    have hrr0 := hrr.height_nonneg
    have e1 : decide (rh - l.Height < -1) = false := by simp; omega
    have e2 : decide (rh - l.Height > 1) = true := by simp; omega
    by_cases hc : rr.Height - rl.Height = 1
    · refine ⟨.node rk (.node k l rl (max l.Height rl.Height + 1)) rr
        (max (max l.Height rl.Height + 1) rr.Height + 1), ?_, ?_, ?_, ?_⟩
      · simp [Node.rebalance, balGuard, e1, e2, hc, Node.rotateLeft]
      · simp [Node.Inv, *]
        omega
      · simp; omega
      · simp
    · have hc1 : rr.Height - rl.Height = -1 := by omega
      match rl, hrl with
      | .nil, _ => simp at hc1; omega
      | .node mk ml mr mh, ⟨hml, hmr, hmh, hmb1, hmb2⟩ =>
        simp only [Node.Height_node] at *
        have hml0 := hml.height_nonneg
        have hmr0 := hmr.height_nonneg
        refine ⟨.node mk (.node k l ml (max l.Height ml.Height + 1))
          (.node rk mr rr (max mr.Height rr.Height + 1))
          (max (max l.Height ml.Height + 1) (max mr.Height rr.Height + 1) + 1), ?_, ?_, ?_, ?_⟩
        · simp [Node.rebalance, balGuard, e1, e2, hc1, Node.rotateRightLeft, Node.rotateLeft,
            Node.rotateRight, Node.updateHeight]
        · simp [Node.Inv, *]
          omega
        · simp; omega
        · simp

/-- The height refresh and `rebalance` that follow an insertion into the left subtree. -/
theorem rebalance_after_left (k : Int) (l l1 r : Node) (h : Int) (hl : l.Inv) (hr : r.Inv)
    (hh : h = max l.Height r.Height + 1)
    (hb1 : -1 ≤ r.Height - l.Height) (hb2 : r.Height - l.Height ≤ 1) (il1 : l1.Inv)
    (hgrow : l1.Height = l.Height ∨ (l1.Height = l.Height + 1 ∧ (l = .nil ∨ l1.Tilted))) :
    ∃ t1, (Node.node k l1 r (max l1.Height r.Height + 1)).rebalance = some t1 ∧ t1.Inv ∧
      (t1.Height = h ∨ (t1.Height = h + 1 ∧ t1.Tilted)) ∧
      t1.inorder = l1.inorder ++ k :: r.inorder := by
  have hl0 := hl.height_nonneg
  have hr0 := hr.height_nonneg
  by_cases hcase : l1.Height = r.Height + 2
  · have hlean : l1.Tilted := by
      rcases hgrow with hg | ⟨hg1, hg | hg⟩
      · omega
      · subst hg
        simp only [Node.Height_nil] at hb1 hg1
        omega
      · exact hg
    obtain ⟨t1, e1, i1, h1, o1⟩ := rebalance_left k l1 r il1 hr hcase hlean
    exact ⟨t1, e1, i1, Or.inl (by omega), o1⟩
  · have hn := rebalance_noop k l1 r (max l1.Height r.Height + 1) (by omega) (by omega)
    refine ⟨_, hn, ⟨il1, hr, rfl, by omega, by omega⟩, ?_, rfl⟩
    simp only [Node.Height_node, Node.Tilted]
    omega

/-- The height refresh and `rebalance` that follow an insertion into the right subtree. -/
theorem rebalance_after_right (k : Int) (l r r1 : Node) (h : Int) (hl : l.Inv) (hr : r.Inv)
    (hh : h = max l.Height r.Height + 1)
    (hb1 : -1 ≤ r.Height - l.Height) (hb2 : r.Height - l.Height ≤ 1) (ir1 : r1.Inv)
    (hgrow : r1.Height = r.Height ∨ (r1.Height = r.Height + 1 ∧ (r = .nil ∨ r1.Tilted))) :
    ∃ t1, (Node.node k l r1 (max l.Height r1.Height + 1)).rebalance = some t1 ∧ t1.Inv ∧
      (t1.Height = h ∨ (t1.Height = h + 1 ∧ t1.Tilted)) ∧
      t1.inorder = l.inorder ++ k :: r1.inorder := by
  have hl0 := hl.height_nonneg
  have hr0 := hr.height_nonneg
  by_cases hcase : r1.Height = l.Height + 2
  · have hlean : r1.Tilted := by
      rcases hgrow with hg | ⟨hg1, hg | hg⟩
      · omega
      · subst hg
        simp only [Node.Height_nil] at hb2 hg1
        omega
      · exact hg
    obtain ⟨t1, e1, i1, h1, o1⟩ := rebalance_right k l r1 hl ir1 hcase hlean
    exact ⟨t1, e1, i1, Or.inl (by omega), o1⟩
  · have hn := rebalance_noop k l r1 (max l.Height r1.Height + 1) (by omega) (by omega)
    refine ⟨_, hn, ⟨hl, ir1, rfl, by omega, by omega⟩, ?_, rfl⟩
    simp only [Node.Height_node, Node.Tilted]
    omega

/-- What one `insert` does to a subtree satisfying the AVL invariant. -/
theorem insert_spec (key : Int) (t : Node) (ht : t.Inv) :
    ∃ t1, insert t key = some t1 ∧ t1.Inv ∧
      (t1.Height = t.Height ∨ (t1.Height = t.Height + 1 ∧ (t = .nil ∨ t1.Tilted))) ∧
      (∀ x, x ∈ t1.inorder ↔ x = key ∨ x ∈ t.inorder) ∧
      (t.inorder.Sorted (· < ·) → t1.inorder.Sorted (· < ·)) := by
  induction t with
  | nil =>
    refine ⟨NewNode key, rfl, ?_, ?_, ?_, ?_⟩
    · simp [NewNode, Node.Inv]
    · simp [NewNode]
    · simp [NewNode]
    · simp [NewNode]
  | node k l r h ihl ihr =>
    obtain ⟨hl, hr, hh, hb1, hb2⟩ := ht
    by_cases hlt : key < k
    · obtain ⟨l1, el, il1, hgrow, hmem, hsort⟩ := ihl hl
      obtain ⟨t1, e1, i1, h1, o1⟩ := rebalance_after_left k l l1 r h hl hr hh hb1 hb2 il1 hgrow
      have hlist := @inorder_left_step _ _ r.inorder k key hlt hmem hsort
      refine ⟨t1, ?_, i1, ?_, ?_⟩
      · simp only [insert, if_pos hlt, el, e1]
      · rcases h1 with h1 | ⟨h1, h2⟩
        · exact Or.inl h1
        · exact Or.inr ⟨h1, Or.inr h2⟩
      · rw [o1]
        exact hlist
    · by_cases hgt : key > k
      · obtain ⟨r1, er, ir1, hgrow, hmem, hsort⟩ := ihr hr
        obtain ⟨t1, e1, i1, h1, o1⟩ := rebalance_after_right k l r r1 h hl hr hh hb1 hb2 ir1 hgrow
        have hlist := @inorder_right_step l.inorder _ _ k key hgt hmem hsort
        refine ⟨t1, ?_, i1, ?_, ?_⟩
        · simp only [insert, if_neg hlt, if_pos hgt, er, e1]
        · rcases h1 with h1 | ⟨h1, h2⟩
          · exact Or.inl h1
          · exact Or.inr ⟨h1, Or.inr h2⟩
        · rw [o1]
          exact hlist
      · have hk : key = k := by omega
        clear ihl ihr
        refine ⟨.node k l r h, ?_, ⟨hl, hr, hh, hb1, hb2⟩, Or.inl rfl, ?_, id⟩
        · simp only [insert, if_neg hlt, if_neg hgt]
        · intro x
          simp only [Node.inorder_node, List.mem_append, List.mem_cons, hk]
          tauto

theorem Node.Inv.trueHeight_eq : ∀ {t : Node}, t.Inv → t.trueHeight = t.Height
  | .nil, _ => rfl
  | .node _ l r h, ⟨hl, hr, hh, _, _⟩ => by
    simp only [Node.trueHeight, Node.Height_node, hl.trueHeight_eq, hr.trueHeight_eq, hh]

theorem Node.Inv.balanced : ∀ {t : Node}, t.Inv → t.Balanced
  | .nil, _ => trivial
  | .node _ l r h, ⟨hl, hr, _, hb1, hb2⟩ => by
    refine ⟨?_, hl.balanced, hr.balanced⟩
    rw [hl.trueHeight_eq, hr.trueHeight_eq, abs_le]
    exact ⟨by omega, hb2⟩

theorem Node.Inv.heightsCached : ∀ {t : Node}, t.Inv → t.HeightsCached
  | .nil, _ => trivial
  | .node k l r h, ⟨hl, hr, hh, hb1, hb2⟩ => by
    have hl0 := hl.height_nonneg
    have hr0 := hr.height_nonneg
    refine ⟨⟨?_, ?_, ?_⟩, hl.heightsCached, hr.heightsCached⟩
    · omega
    · omega
    · simp only [Node.trueHeight, hl.trueHeight_eq, hr.trueHeight_eq, hh]

/-- What a run of `Insert` calls does to a tree satisfying the AVL invariant. -/
theorem insertAll_spec : ∀ (keys : List Int) (t : Tree), t.Root.Inv → t.Root.inorder.Sorted (· < ·) →
    ∃ t1, t.InsertAll keys = some t1 ∧ t1.Root.Inv ∧ t1.Root.inorder.Sorted (· < ·) ∧
      ∀ x, x ∈ t1.Root.inorder ↔ x ∈ keys ∨ x ∈ t.Root.inorder
  | [], t, hi, hs => ⟨t, rfl, hi, hs, by simp⟩
  | key :: rest, t, hi, hs => by
    obtain ⟨r1, e1, i1, _, m1, s1⟩ := insert_spec key t.Root hi
    obtain ⟨t2, e2, i2, s2, m2⟩ := insertAll_spec rest (Tree.mk r1) i1 (s1 hs)
    refine ⟨t2, ?_, i2, s2, ?_⟩
    · simp only [Tree.InsertAll, Tree.Insert, e1, e2]
    · intro x
      rw [m2, m1]
      simp
      tauto

/-- Re-inserting a key already stored in an ordered AVL subtree returns it unchanged. -/
theorem avl_insert_present (key : Int) (t : Node) (ht : t.Inv)
    (hs : t.inorder.Sorted (· < ·)) (hm : key ∈ t.inorder) : insert t key = some t := by
  induction t with
  | nil => simp at hm
  | node k l r h ihl ihr =>
    obtain ⟨hl, hr, hh, hb1, hb2⟩ := ht
    rw [Node.inorder_node] at hs hm
    simp only [List.Sorted, List.pairwise_append, List.pairwise_cons] at hs
    obtain ⟨s1, ⟨s2, s4⟩, s3⟩ := hs
    have hfix := rebalance_noop k l r h hb1 hb2
    by_cases hlt : key < k
    · have hml : key ∈ l.inorder := by
        rcases List.mem_append.1 hm with h | h
        · exact h
        · rcases List.mem_cons.1 h with h | h
          · omega
          · have := s2 key h
            omega
      simp only [insert, if_pos hlt, ihl hl s1 hml, ← hh, hfix]
    · by_cases hgt : key > k
      · have hmr : key ∈ r.inorder := by
          rcases List.mem_append.1 hm with h | h
          · have := s3 key h k (List.mem_cons_self _ _)
            omega
          · rcases List.mem_cons.1 h with h | h
            · omega
            · exact h
        simp only [insert, if_neg hlt, if_pos hgt, ihr hr s4 hmr, ← hh, hfix]
      · simp only [insert, if_neg hlt, if_neg hgt]

theorem empty_inv : Tree.empty.Root.Inv ∧ Tree.empty.Root.inorder.Sorted (· < ·) :=
  ⟨trivial, by simp [Tree.empty]⟩

theorem rebalanceCalls_good (key : Int) (t : Node) (ht : t.Inv) :
    ∀ n ∈ rebalanceCalls t key, n.GoodCall := by
  induction t with
  | nil => simp [rebalanceCalls]
  | node k l r h ihl ihr =>
    obtain ⟨hl, hr, hh, hb1, hb2⟩ := ht
    have hl0 := hl.height_nonneg
    have hr0 := hr.height_nonneg
    have il := ihl hl
    have ir := ihr hr
    clear ihl ihr
    intro n hn
    by_cases hlt : key < k
    · obtain ⟨l1, el, il1, hgrow, _, _⟩ := insert_spec key l hl
      simp only [rebalanceCalls, if_pos hlt, el, List.mem_append, List.mem_singleton] at hn
      rcases hn with hn | rfl
      · exact il n hn
      · refine ⟨il1, hr, rfl, ?_⟩
        rcases hgrow with hg | ⟨hg1, hg | hg⟩
        · exact Or.inl ⟨by omega, by omega⟩
        · subst hg
          simp only [Node.Height_nil] at hb1 hb2 hg1 hl0 ⊢
          exact Or.inl ⟨by omega, by omega⟩
        · by_cases hc : l1.Height = r.Height + 2
          · exact Or.inr (Or.inl ⟨hc, hg⟩)
          · exact Or.inl ⟨by omega, by omega⟩
    · by_cases hgt : key > k
      · obtain ⟨r1, er, ir1, hgrow, _, _⟩ := insert_spec key r hr
        simp only [rebalanceCalls, if_neg hlt, if_pos hgt, er, List.mem_append,
          List.mem_singleton] at hn
        rcases hn with hn | rfl
        · exact ir n hn
        · refine ⟨hl, ir1, rfl, ?_⟩
          rcases hgrow with hg | ⟨hg1, hg | hg⟩
          · exact Or.inl ⟨by omega, by omega⟩
          · subst hg
            simp only [Node.Height_nil] at hb1 hb2 hg1 hr0 ⊢
            exact Or.inl ⟨by omega, by omega⟩
          · by_cases hc : r1.Height = l.Height + 2
            · exact Or.inr (Or.inr ⟨hc, hg⟩)
            · exact Or.inl ⟨by omega, by omega⟩
      · simp [rebalanceCalls, hlt, hgt] at hn

theorem rebalanceCallsAll_good : ∀ (keys : List Int) (t : Tree), t.Root.Inv →
    ∀ n ∈ t.rebalanceCallsAll keys, n.GoodCall := by
  intro keys
  induction keys with
  | nil => intro t _ n hn; simp [Tree.rebalanceCallsAll] at hn
  | cons key rest ih =>
    intro t ht n hn
    obtain ⟨r1, e1, i1, _⟩ := insert_spec key t.Root ht
    simp only [Tree.rebalanceCallsAll, Tree.Insert, e1, List.mem_append] at hn
    rcases hn with hn | hn
    · exact rebalanceCalls_good key t.Root ht n hn
    · exact ih (Tree.mk r1) i1 n hn

theorem Node.Tilted.bal {t : Node} (ht : t.Tilted) (hi : t.Inv) :
    t.Bal = some (-1) ∨ t.Bal = some 1 := by
  match t, ht, hi with
  | .node k l r h, hne, ⟨_, _, _, hb1, hb2⟩ =>
    simp only [Node.Tilted] at hne
    simp only [Node.Bal_node, Option.some.injEq]
    omega

theorem Node.GoodCall.caseApplies {n : Node} (hg : n.GoodCall) (hb : ∀ k l r h,
    n = .node k l r h → |r.Height - l.Height| > 1) : n.CaseApplies := by
  match n, hg with
  | .node k l r h, ⟨hl, hr, _, hc⟩ =>
    have hb := hb k l r h rfl
    rw [gt_iff_lt, lt_abs] at hb
    rcases hc with ⟨h1, h2⟩ | ⟨h1, ht⟩ | ⟨h1, ht⟩
    · omega
    · have e1 : decide (r.Height - l.Height < -1) = true := by simp; omega
      rcases ht.bal hl with hbal | hbal
      · exact Or.inl (by simp [balGuard, e1, hbal])
      · exact Or.inr (Or.inr (Or.inl (by simp [balGuard, e1, hbal])))
    · have e1 : decide (r.Height - l.Height > 1) = true := by simp; omega
      rcases ht.bal hr with hbal | hbal
      · exact Or.inr (Or.inr (Or.inr (by simp [balGuard, e1, hbal])))
      · exact Or.inr (Or.inl (by simp [balGuard, e1, hbal]))

theorem Node.GoodCall.rebalance_inv {n : Node} (hg : n.GoodCall) :
    ∃ t, n.rebalance = some t ∧ t.Inv := by
  match n, hg with
  | .node k l r h, ⟨hl, hr, hh, hc⟩ =>
    subst hh
    rcases hc with ⟨h1, h2⟩ | ⟨h1, ht⟩ | ⟨h1, ht⟩
    · exact ⟨_, rebalance_noop k l r _ h1 h2, hl, hr, rfl, h1, h2⟩
    · obtain ⟨t, e, i, _⟩ := rebalance_left k l r hl hr h1 ht
      exact ⟨t, e, i⟩
    · obtain ⟨t, e, i, _⟩ := rebalance_right k l r hl hr h1 ht
      exact ⟨t, e, i⟩

theorem Node.CaseApplies.not_underTriggered {n : Node} (hc : n.CaseApplies) :
    ¬ n.UnderTriggered := by
  match n, hc with
  | .node k l r h, hc =>
    rintro ⟨_, h1, h2, h3, h4⟩
    rcases hc with hc | hc | hc | hc
    · rw [h1] at hc; cases hc
    · rw [h2] at hc; cases hc
    · rw [h3] at hc; cases hc
    · rw [h4] at hc; cases hc

theorem Node.UnderTriggered.abs_bal {n : Node} (hu : n.UnderTriggered) :
    ∀ k l r h, n = .node k l r h → |r.Height - l.Height| > 1 := by
  intro k l r h e
  subst e
  exact hu.1

theorem rotateRight_updateHeight {n t : Node} (h : n.rotateRight = some t) :
    t.updateHeight = some t := by
  match n, h with
  | .node k (.node lk ll lr lh) r hh, h =>
    simp only [Node.rotateRight, Option.some.injEq] at h
    subst h
    rfl

theorem rotateLeft_updateHeight {n t : Node} (h : n.rotateLeft = some t) :
    t.updateHeight = some t := by
  match n, h with
  | .node k l (.node rk rl rr rh) hh, h =>
    simp only [Node.rotateLeft, Option.some.injEq] at h
    subst h
    rfl

theorem rotateLeftRight_eq (k : Int) (l r : Node) (h : Int) :
    (Node.node k l r h).rotateLeftRight =
      (match l.rotateLeft with
        | none => none
        | some l1 => (Node.node k l1 r h).rotateRight) := by
  simp only [Node.rotateLeftRight]
  cases e1 : l.rotateLeft with
  | none => rfl
  | some l1 =>
    simp only []
    cases e2 : (Node.node k l1 r h).rotateRight with
    | none => rfl
    | some t => exact rotateRight_updateHeight e2

theorem rotateRightLeft_eq (k : Int) (l r : Node) (h : Int) :
    (Node.node k l r h).rotateRightLeft =
      (match r.rotateRight with
        | none => none
        | some r1 => (Node.node k l r1 h).rotateLeft) := by
  simp only [Node.rotateRightLeft]
  cases e1 : r.rotateRight with
  | none => rfl
  | some r1 =>
    simp only []
    cases e2 : (Node.node k l r1 h).rotateLeft with
    | none => rfl
    | some t => exact rotateLeft_updateHeight e2

theorem Node.GoodCall.rebalanceSpec_eq {n : Node} (hg : n.GoodCall) :
    n.rebalanceSpec = n.rebalance := by
  match n, hg with
  | .node k l r h, ⟨hl, hr, _, hc⟩ =>
    have eLR := rotateLeftRight_eq k l r h
    have eRL := rotateRightLeft_eq k l r h
    rcases hc with ⟨h1, h2⟩ | ⟨h1, ht⟩ | ⟨h1, ht⟩
    · have e1 : decide (r.Height - l.Height < -1) = false := by simp; omega
      have e2 : decide (r.Height - l.Height > 1) = false := by simp; omega
      simp [Node.rebalance, Node.rebalanceSpec, balGuard, signGuard, e1, e2]
    · have e1 : decide (r.Height - l.Height < -1) = true := by simp; omega
      have e2 : decide (r.Height - l.Height > 1) = false := by simp; omega
      rcases ht.bal hl with hbal | hbal
      · simp [Node.rebalance, Node.rebalanceSpec, balGuard, signGuard, e1, e2, hbal]
      · simp only [Node.rebalance, Node.rebalanceSpec, balGuard, signGuard, e1, e2, hbal, eLR]
        simp
    · have e1 : decide (r.Height - l.Height < -1) = false := by simp; omega
      have e2 : decide (r.Height - l.Height > 1) = true := by simp; omega
      rcases ht.bal hr with hbal | hbal
      · simp only [Node.rebalance, Node.rebalanceSpec, balGuard, signGuard, e1, e2, hbal, eRL]
        simp
      · simp [Node.rebalance, Node.rebalanceSpec, balGuard, signGuard, e1, e2, hbal]

theorem insertSpec_eq (key : Int) (t : Node) (ht : t.Inv) : insertSpec t key = insert t key := by
  induction t with
  | nil => rfl
  | node k l r h ihl ihr =>
    have hcalls := rebalanceCalls_good key (.node k l r h) ht
    obtain ⟨hl, hr, _, _, _⟩ := ht
    have il := ihl hl
    have ir := ihr hr
    clear ihl ihr
    by_cases hlt : key < k
    · obtain ⟨l1, e, _⟩ := insert_spec key l hl
      have hg : (Node.node k l1 r (max l1.Height r.Height + 1)).GoodCall :=
        hcalls _ (by simp [rebalanceCalls, hlt, e])
      simp only [insertSpec, insert, if_pos hlt, il, e]
      rw [add_comm 1 (max l1.Height r.Height)]
      exact hg.rebalanceSpec_eq
    · by_cases hgt : key > k
      · obtain ⟨r1, e, _⟩ := insert_spec key r hr
        have hg : (Node.node k l r1 (max l.Height r1.Height + 1)).GoodCall :=
          hcalls _ (by simp [rebalanceCalls, hlt, hgt, e])
        simp only [insertSpec, insert, if_neg hlt, if_pos hgt, ir, e]
        rw [add_comm 1 (max l.Height r1.Height)]
        exact hg.rebalanceSpec_eq
      · simp only [insertSpec, insert, if_neg hlt, if_neg hgt]

theorem InsertAllSpec_eq : ∀ (keys : List Int) (t : Tree), t.Root.Inv →
    t.InsertAllSpec keys = t.InsertAll keys
  | [], _, _ => rfl
  | key :: rest, t, ht => by
    obtain ⟨r1, e, i1, _⟩ := insert_spec key t.Root ht
    simp only [Tree.InsertAllSpec, Tree.InsertAll, Tree.Insert, insertSpec_eq key t.Root ht, e]
    exact InsertAllSpec_eq rest (Tree.mk r1) i1

theorem rebalanceSpec_differs_off_insertion :
    (Node.node 5 (.node 3 (.node 2 .nil .nil 1) (.node 4 .nil .nil 1) 2) .nil 3).rebalance =
        some (.node 5 (.node 3 (.node 2 .nil .nil 1) (.node 4 .nil .nil 1) 2) .nil 3) ∧
      (Node.node 5 (.node 3 (.node 2 .nil .nil 1) (.node 4 .nil .nil 1) 2) .nil 3).rebalanceSpec =
        some (.node 3 (.node 2 .nil .nil 1) (.node 5 (.node 4 .nil .nil 1) .nil 2) 3) := by
  decide

end AVL

/-! The left-leaning red-black tree. -/

namespace RB

@[simp]
theorem isRed_nil : isRed .nil = false := rfl
@[simp]
theorem isRed_node (v : Int) (l r : Node) (c : Bool) : isRed (.node v l r c) = c := by
  cases c <;> rfl

theorem inorder_acc (t : Node) : ∀ acc : List Int, inorder t acc = acc ++ inorder t [] := by
  induction t with
  | nil => intro acc; simp [inorder]
  | node v l r c ihl ihr =>
    intro acc
    simp only [inorder]
    rw [ihr, ihl acc, ihr (inorder l [] ++ [v])]
    simp

@[simp]
theorem rb_inorder_nil : inorder .nil [] = [] := rfl
@[simp]
theorem rb_inorder_node (v : Int) (l r : Node) (c : Bool) :
    inorder (.node v l r c) [] = inorder l [] ++ v :: inorder r [] := by
  simp only [inorder]
  rw [inorder_acc r]
  simp

theorem insert_nil (value : Int) :
    insert .nil value = some (.node value .nil .nil red) := rfl

theorem insert_node (v : Int) (l r : Node) (c : Bool) (value : Int) :
    insert (.node v l r c) value =
      if value < v then (insert l value).bind (fun l1 => fixup (.node v l1 r c))
      else if value > v then (insert r value).bind (fun r1 => fixup (.node v l r1 c))
      else fixup (.node v l r c) := by
  simp only [insert, fixup]
  split_ifs
  · cases insert l value <;> rfl
  · cases insert r value <;> rfl
  · rfl

theorem leanLeftStep_total (v : Int) (l r : Node) (c : Bool) :
    ∃ v1 l1 r1 c1, leanLeftStep (.node v l r c) = some (.node v1 l1 r1 c1) ∧
      inorder (.node v1 l1 r1 c1) [] = inorder (.node v l r c) [] := by
  simp only [leanLeftStep]
  split_ifs with h
  · rcases r with _ | ⟨rv, rl, rr, rc⟩
    · simp at h
    · exact ⟨rv, .node v l rl red, rr, c, rfl, by simp⟩
  · exact ⟨v, l, r, c, rfl, rfl⟩

theorem doubleRedStep_total (v : Int) (l r : Node) (c : Bool) :
    ∃ v1 l1 r1 c1, doubleRedStep (.node v l r c) = some (.node v1 l1 r1 c1) ∧
      inorder (.node v1 l1 r1 c1) [] = inorder (.node v l r c) [] := by
  rcases l with _ | ⟨lv, ll, lr, lc⟩
  · exact ⟨v, .nil, r, c, rfl, rfl⟩
  · cases lc
    · exact ⟨v, _, r, c, rfl, rfl⟩
    · cases h : isRed ll
      · exact ⟨v, _, r, c, by simp [doubleRedStep, Node.Left, h], rfl⟩
      · exact ⟨lv, ll, .node v lr r red, c, by simp [doubleRedStep, Node.Left, h, rotateRight],
          by simp⟩

theorem splitStep_total (v : Int) (l r : Node) (c : Bool) :
    ∃ v1 l1 r1 c1, splitStep (.node v l r c) = some (.node v1 l1 r1 c1) ∧
      inorder (.node v1 l1 r1 c1) [] = inorder (.node v l r c) [] := by
  simp only [splitStep]
  split_ifs with h
  · rcases l with _ | ⟨lv, ll, lr, lc⟩
    · simp at h
    · rcases r with _ | ⟨rv, rl, rr, rc⟩
      · simp at h
      · exact ⟨v, _, _, !c, rfl, by simp⟩
  · exact ⟨v, l, r, c, rfl, rfl⟩

/-- The fix-up never dereferences nil, returns a node, and keeps the in-order sequence. -/
theorem fixup_total (v : Int) (l r : Node) (c : Bool) :
    ∃ v1 l1 r1 c1, fixup (.node v l r c) = some (.node v1 l1 r1 c1) ∧
      inorder (.node v1 l1 r1 c1) [] = inorder (.node v l r c) [] := by
  obtain ⟨v1, l1, r1, c1, e1, o1⟩ := leanLeftStep_total v l r c
  obtain ⟨v2, l2, r2, c2, e2, o2⟩ := doubleRedStep_total v1 l1 r1 c1
  obtain ⟨v3, l3, r3, c3, e3, o3⟩ := splitStep_total v2 l2 r2 c2
  exact ⟨v3, l3, r3, c3, by simp [fixup, e1, e2, e3], by rw [o3, o2, o1]⟩

/-- Totality of `insert` on every tree: it returns a node whose in-order sequence is the old one
with `value` added, and which is strictly ascending when the old one was. -/
theorem insert_total (value : Int) (t : Node) :
    ∃ v1 l1 r1 c1, insert t value = some (.node v1 l1 r1 c1) ∧
      (∀ x, x ∈ inorder (.node v1 l1 r1 c1) [] ↔ x = value ∨ x ∈ inorder t []) ∧
      ((inorder t []).Sorted (· < ·) → (inorder (.node v1 l1 r1 c1) []).Sorted (· < ·)) := by
  induction t with
  | nil => exact ⟨value, .nil, .nil, red, rfl, by simp, by simp⟩
  | node v l r c ihl ihr =>
    rw [insert_node]
    by_cases hlt : value < v
    · obtain ⟨lv, ll, lr, lc, el, hmem, hsort⟩ := ihl
      obtain ⟨v1, l1, r1, c1, e1, o1⟩ := fixup_total v (.node lv ll lr lc) r c
      refine ⟨v1, l1, r1, c1, by simp [hlt, el, e1], ?_⟩
      rw [o1, rb_inorder_node v, rb_inorder_node v]
      exact inorder_left_step hlt hmem hsort
    · by_cases hgt : value > v
      · obtain ⟨rv, rl, rr, rc, er, hmem, hsort⟩ := ihr
        obtain ⟨v1, l1, r1, c1, e1, o1⟩ := fixup_total v l (.node rv rl rr rc) c
        refine ⟨v1, l1, r1, c1, by simp [hlt, hgt, er, e1], ?_⟩
        rw [o1, rb_inorder_node v, rb_inorder_node v]
        exact inorder_right_step hgt hmem hsort
      · have hk : value = v := by omega
        clear ihl ihr
        obtain ⟨v1, l1, r1, c1, e1, o1⟩ := fixup_total v l r c
        refine ⟨v1, l1, r1, c1, by simp [hlt, hgt, e1], ?_⟩
        rw [o1]
        refine ⟨?_, id⟩
        intro x
        simp only [rb_inorder_node, List.mem_append, List.mem_cons, hk]
        tauto

theorem fixup_noop (v : Int) (l r : Node) (c : Bool) (hr : isRed r = false)
    (hl : (isRed l && leftRed l) = false) : fixup (.node v l r c) = some (.node v l r c) := by
  rcases l with _ | ⟨lv, ll, lr, lc⟩
  · simp [fixup, leanLeftStep, doubleRedStep, splitStep, hr]
  · cases lc
    · simp [fixup, leanLeftStep, doubleRedStep, splitStep, hr]
    · simp [leftRed] at hl
      simp [fixup, leanLeftStep, doubleRedStep, splitStep, hr, hl, Node.Left]

theorem fixup_rotateRight (v lv llv : Int) (lll llr lr r : Node) (c : Bool)
    (hr : isRed r = false) :
    fixup (.node v (.node lv (.node llv lll llr red) lr red) r c) =
      some (.node lv (.node llv lll llr black) (.node v lr r black) (!c)) := by
  simp [fixup, leanLeftStep, doubleRedStep, splitStep, hr, Node.Left, rotateRight, flipColors]

theorem fixup_rotateLeft (v rv : Int) (l rl rr : Node) (c : Bool)
    (hl : isRed l = false) (hrr : isRed rr = false) :
    fixup (.node v l (.node rv rl rr red) c) = some (.node rv (.node v l rl red) rr c) := by
  simp [fixup, leanLeftStep, doubleRedStep, splitStep, hl, hrr, Node.Left, rotateLeft]

theorem fixup_flip (v lv rv : Int) (ll lr rl rr : Node) (c : Bool) (hll : isRed ll = false) :
    fixup (.node v (.node lv ll lr red) (.node rv rl rr red) c) =
      some (.node v (.node lv ll lr black) (.node rv rl rr black) (!c)) := by
  simp [fixup, leanLeftStep, doubleRedStep, splitStep, hll, Node.Left, flipColors]

theorem Node.Valid.no_double_red {t : Node} (h : t.Valid) : (isRed t && leftRed t) = false := by
  rcases t with _ | ⟨v, l, r, c⟩
  · rfl
  · cases c
    · simp
    · simpa [leftRed] using h.2.2.2.2 rfl

theorem Node.Valid.almost {v : Int} {l r : Node} {c : Bool} (h : (Node.node v l r c).Valid) :
    (Node.node v l r c).Almost := ⟨h.1, h.2.1, h.2.2.1, h.2.2.2.1⟩

theorem Node.Almost.valid {t : Node} (h : t.Almost) (hd : (isRed t && leftRed t) = false) :
    t.Valid := by
  rcases t with _ | ⟨v, l, r, c⟩
  · trivial
  · refine ⟨h.1, h.2.1, h.2.2.1, h.2.2.2, ?_⟩
    intro hc
    subst hc
    simpa [leftRed] using hd

/-- The fix-up after an insertion into the left subtree. -/
theorem fixup_after_left (v : Int) (l l1 r : Node) (c : Bool) (ht : (Node.node v l r c).Valid)
    (hbh : bh l1 = bh l) (ha : l1.Almost) (hv : isRed l = false → l1.Valid)
    (hred : isRed l = true → isRed l1 = true) :
    ∃ t1, fixup (.node v l1 r c) = some t1 ∧ bh t1 = bh (.node v l r c) ∧ t1.Almost ∧
      (c = black → t1.Valid) ∧ (c = red → isRed t1 = true) := by
  obtain ⟨hl, hr, hb, hrr, hc⟩ := ht
  cases hd : (isRed l1 && leftRed l1)
  · have hv1 := ha.valid hd
    refine ⟨_, fixup_noop v l1 r c hrr hd, by simp [bh, hbh], ⟨hv1, hr, by omega, hrr⟩, ?_, ?_⟩
    · intro hcb
      exact ⟨hv1, hr, by omega, hrr, by simp [hcb]⟩
    · intro hcr
      simp [hcr]
  · rcases l1 with _ | ⟨lv, ll, lr, lc⟩
    · simp at hd
    · rcases ll with _ | ⟨llv, lll, llr, llc⟩
      · simp [leftRed] at hd
      · simp [leftRed] at hd
        obtain ⟨rfl, rfl⟩ := hd
        have hlred : isRed l = true := by
          by_contra hne
          have := (hv (by simpa using hne)).no_double_red
          simp [leftRed] at this
        have hcb : c = black := by
          cases c
          · rfl
          · simp [hlred] at hc
        subst hcb
        obtain ⟨⟨hlll, hllr, hbll, hrllr, _⟩, hlr, hbl, hrlr⟩ := ha
        simp only [bh] at hbl hbh
        simp at hbl hbh
        refine ⟨_, fixup_rotateRight v lv llv lll llr lr r black hrr, ?_, ?_, ?_, ?_⟩
        · simp [bh]; omega
        · refine ⟨⟨hlll, hllr, hbll, hrllr, by simp⟩, ⟨hlr, hr, by omega, hrr, by simp⟩, ?_, ?_⟩
          · simp [bh]; omega
          · simp
        · intro _
          refine ⟨⟨hlll, hllr, hbll, hrllr, by simp⟩, ⟨hlr, hr, by omega, hrr, by simp⟩, ?_, ?_, ?_⟩
          · simp [bh]; omega
          · simp
          · simp
        · simp

/-- The fix-up after an insertion into the right subtree. -/
theorem fixup_after_right (v : Int) (l r r1 : Node) (c : Bool) (ht : (Node.node v l r c).Valid)
    (hbh : bh r1 = bh r) (hv : r1.Valid) :
    ∃ t1, fixup (.node v l r1 c) = some t1 ∧ bh t1 = bh (.node v l r c) ∧ t1.Almost ∧
      (c = black → t1.Valid) ∧ (c = red → isRed t1 = true) := by
  obtain ⟨hl, hr, hb, hrr, hc⟩ := ht
  have hld := hl.no_double_red
  rcases r1 with _ | ⟨rv, rl, rr, rc⟩
  · refine ⟨_, fixup_noop v l .nil c rfl hld, by simp [bh], ⟨hl, hv, by omega, rfl⟩, ?_, ?_⟩
    · intro hcb
      exact ⟨hl, hv, by omega, rfl, by simp [hcb]⟩
    · intro hcr
      simp [hcr]
  · cases rc
    · refine ⟨_, fixup_noop v l _ c (by simp) hld, by simp [bh], ⟨hl, hv, by omega, by simp⟩,
        ?_, ?_⟩
      · intro hcb
        exact ⟨hl, hv, by omega, by simp, by simp [hcb]⟩
      · intro hcr
        simp [hcr]
    · obtain ⟨hrl, hrr1, hbr, hrrr, hrlr⟩ := hv
      have hrlr := hrlr rfl
      simp only [bh] at hbh
      simp at hbh
      cases hlr : isRed l
      · refine ⟨_, fixup_rotateLeft v rv l rl rr c hlr hrrr, ?_, ?_, ?_, ?_⟩
        · simp [bh]
        · exact ⟨⟨hl, hrl, by omega, hrlr, fun _ => hlr⟩, hrr1, by simp [bh]; omega, hrrr⟩
        · intro hcb
          exact ⟨⟨hl, hrl, by omega, hrlr, fun _ => hlr⟩, hrr1, by simp [bh]; omega, hrrr,
            by simp [hcb]⟩
        · intro hcr
          simp [hcr]
      · rcases l with _ | ⟨lv, ll, lr, lc⟩
        · simp at hlr
        · simp at hlr
          subst hlr
          have hcb : c = black := by
            cases c
            · rfl
            · simp at hc
          subst hcb
          obtain ⟨hll, hlr1, hbl, hrlr1, hrll⟩ := hl
          have hrll := hrll rfl
          simp only [bh] at hb
          simp at hb
          refine ⟨_, fixup_flip v lv rv ll lr rl rr black hrll, ?_, ?_, ?_, ?_⟩
          · simp [bh]
          · refine ⟨⟨hll, hlr1, hbl, hrlr1, by simp⟩, ⟨hrl, hrr1, hbr, hrrr, by simp⟩, ?_, ?_⟩
            · simp [bh]; omega
            · simp
          · intro _
            refine ⟨⟨hll, hlr1, hbl, hrlr1, by simp⟩, ⟨hrl, hrr1, hbr, hrrr, by simp⟩, ?_, ?_, ?_⟩
            · simp [bh]; omega
            · simp
            · simp
          · simp

/-- What one `insert` does to a subtree satisfying the left-leaning red-black invariant. -/
theorem insert_valid (value : Int) (t : Node) (ht : t.Valid) :
    ∃ t1, insert t value = some t1 ∧ bh t1 = bh t ∧ t1.Almost ∧
      (isRed t = false → t1.Valid) ∧ (isRed t = true → isRed t1 = true) := by
  induction t with
  | nil =>
    refine ⟨.node value .nil .nil red, rfl, by simp [bh], ⟨trivial, trivial, rfl, rfl⟩, ?_, ?_⟩
    · intro _
      exact ⟨trivial, trivial, rfl, rfl, fun _ => rfl⟩
    · simp
  | node v l r c ihl ihr =>
    have hcases : ∀ t1 : Node, ((c = black → t1.Valid) ∧ (c = red → isRed t1 = true)) →
        ((isRed (Node.node v l r c) = false → t1.Valid) ∧
          (isRed (Node.node v l r c) = true → isRed t1 = true)) := by
      intro t1 h
      simpa using h
    rw [insert_node]
    by_cases hlt : value < v
    · obtain ⟨l1, el, hbh, ha, hv, hred⟩ := ihl ht.1
      obtain ⟨t1, e1, b1, a1, c1⟩ := fixup_after_left v l l1 r c ht hbh ha hv hred
      exact ⟨t1, by simp [hlt, el, e1], b1, a1, hcases t1 c1⟩
    · by_cases hgt : value > v
      · obtain ⟨r1, er, hbh, _, hv, _⟩ := ihr ht.2.1
        obtain ⟨t1, e1, b1, a1, c1⟩ := fixup_after_right v l r r1 c ht hbh (hv ht.2.2.2.1)
        exact ⟨t1, by simp [hlt, hgt, er, e1], b1, a1, hcases t1 c1⟩
      · refine ⟨.node v l r c, ?_, rfl, ht.almost, fun _ => ht, fun h => h⟩
        simp [hlt, hgt, fixup_noop v l r c ht.2.2.2.1 ht.1.no_double_red]

/-- Re-inserting a value already stored in a valid, ordered subtree returns it unchanged. -/
theorem rb_insert_present (value : Int) (t : Node) (ht : t.Valid)
    (hs : (inorder t []).Sorted (· < ·)) (hm : value ∈ inorder t []) :
    insert t value = some t := by
  induction t with
  | nil => simp at hm
  | node v l r c ihl ihr =>
    rw [rb_inorder_node] at hs hm
    simp only [List.Sorted, List.pairwise_append, List.pairwise_cons] at hs
    obtain ⟨s1, ⟨s2, s4⟩, s3⟩ := hs
    have hfix := fixup_noop v l r c ht.2.2.2.1 ht.1.no_double_red
    rw [insert_node]
    by_cases hlt : value < v
    · have hml : value ∈ inorder l [] := by
        rcases List.mem_append.1 hm with h | h
        · exact h
        · rcases List.mem_cons.1 h with h | h
          · omega
          · have := s2 value h
            omega
      simp [hlt, ihl ht.1 s1 hml, hfix]
    · by_cases hgt : value > v
      · have hmr : value ∈ inorder r [] := by
          rcases List.mem_append.1 hm with h | h
          · have := s3 value h v (List.mem_cons_self _ _)
            omega
          · rcases List.mem_cons.1 h with h | h
            · omega
            · exact h
        simp [hlt, hgt, ihr ht.2.1 s4 hmr, hfix]
      · simp [hlt, hgt, hfix]

theorem Node.Valid.blackCounts_eq {t : Node} (ht : t.Valid) : ∀ a ∈ blackCounts t, a = bh t := by
  induction t with
  | nil => simp [blackCounts, bh]
  | node v l r c ihl ihr =>
    obtain ⟨hl, hr, hb, _, _⟩ := ht
    intro a ha
    simp only [blackCounts, List.mem_map, List.mem_append] at ha
    obtain ⟨n, hn | hn, rfl⟩ := ha
    · rw [ihl hl n hn]
      cases c <;> simp [bh]
    · rw [ihr hr n hn, ← hb]
      cases c <;> simp [bh]

theorem Node.Valid.subtrees {t : Node} (ht : t.Valid) : ∀ s ∈ t.subtrees, s.Valid := by
  induction t with
  | nil => simp [Node.subtrees, Node.Valid]
  | node v l r c ihl ihr =>
    intro s hs
    simp only [Node.subtrees, List.mem_cons, List.mem_append] at hs
    rcases hs with rfl | hs | hs
    · exact ht
    · exact ihl ht.1 s hs
    · exact ihr ht.2.1 s hs

theorem Node.Valid.blackUniform {t : Node} (ht : t.Valid) : t.BlackUniform := by
  intro s hs a ha b hb
  have hv := ht.subtrees s hs
  rw [hv.blackCounts_eq a ha, hv.blackCounts_eq b hb]

theorem Node.Valid.noRightLean {t : Node} (ht : t.Valid) : t.NoRightLean := by
  induction t with
  | nil => trivial
  | node v l r c ihl ihr =>
    obtain ⟨hl, hr, _, hrr, _⟩ := ht
    exact ⟨by simp [hrr], ihl hl, ihr hr⟩

theorem Node.Valid.noRedRed {t : Node} (ht : t.Valid) : t.NoRedRed := by
  induction t with
  | nil => trivial
  | node v l r c ihl ihr =>
    obtain ⟨hl, hr, _, hrr, hc⟩ := ht
    exact ⟨fun h => ⟨hc h, hrr⟩, ihl hl, ihr hr⟩

theorem Insert_inv (t : RedBlackTree) (value : Int) (ht : t.Inv) :
    ∃ t1, t.Insert value = some t1 ∧ t1.Inv ∧
      ∀ x, x ∈ inorder t1.Root [] ↔ x = value ∨ x ∈ inorder t.Root [] := by
  obtain ⟨hv, hb, hs⟩ := ht
  obtain ⟨v1, l1, r1, c1, e1, hmem, hsort⟩ := insert_total value t.Root
  obtain ⟨t2, e2, _, _, hv2, _⟩ := insert_valid value t.Root hv
  rw [e1] at e2
  have hv1 : (Node.node v1 l1 r1 c1).Valid := by
    rw [Option.some.inj e2]
    exact hv2 hb
  refine ⟨RedBlackTree.mk (.node v1 l1 r1 black), by simp [RedBlackTree.Insert, e1], ?_, ?_⟩
  · refine ⟨⟨hv1.1, hv1.2.1, hv1.2.2.1, hv1.2.2.2.1, by simp⟩, by simp, ?_⟩
    have := hsort hs
    simpa using this
  · intro x
    have := hmem x
    simpa using this

theorem Insert_stored (t : RedBlackTree) (value : Int) (ht : t.Inv)
    (hm : value ∈ inorder t.Root []) : t.Insert value = some t := by
  obtain ⟨hv, hb, hs⟩ := ht
  have e := rb_insert_present value t.Root hv hs hm
  rcases t with ⟨root⟩
  rcases root with _ | ⟨v, l, r, c⟩
  · simp at hm
  · simp at hb
    subst hb
    simp only [RedBlackTree.Insert, e]

theorem InsertAll_inv : ∀ (values : List Int) (t : RedBlackTree), t.Inv →
    ∃ t1, t.InsertAll values = some t1 ∧ t1.Inv ∧
      ∀ x, x ∈ inorder t1.Root [] ↔ x ∈ values ∨ x ∈ inorder t.Root [] := by
  intro values
  induction values with
  | nil => intro t ht; exact ⟨t, rfl, ht, by simp⟩
  | cons value rest ih =>
    intro t ht
    obtain ⟨t1, e1, i1, m1⟩ := Insert_inv t value ht
    obtain ⟨t2, e2, i2, m2⟩ := ih t1 i1
    refine ⟨t2, by simp only [RedBlackTree.InsertAll, e1, e2], i2, ?_⟩
    intro x
    rw [m2, m1]
    simp only [List.mem_cons]
    tauto

theorem NewRedBlackTree_inv : NewRedBlackTree.Inv :=
  ⟨trivial, rfl, by simp [NewRedBlackTree]⟩

end RB

/-! The sorting, searching and dynamic-programming algorithms. -/

namespace Algorithms

theorem wrapInt_add_wrapInt (x y : Int) : wrapInt (wrapInt x + wrapInt y) = wrapInt (x + y) := by
  unfold wrapInt
  omega

theorem wrapInt_of_range {x : Int} (h1 : -9223372036854775808 ≤ x)
    (h2 : x < 9223372036854775808) : wrapInt x = x := by
  unfold wrapInt
  omega

theorem FibonacciNat_eq (n : Nat) :
    FibonacciNat n = wrapInt (Nat.fib n) ∧ FibonacciNat (n + 1) = wrapInt (Nat.fib (n + 1)) := by
  induction n with
  | zero => exact ⟨by decide, by decide⟩
  | succ n ih =>
    refine ⟨ih.2, ?_⟩
    rw [FibonacciNat, ih.1, ih.2, wrapInt_add_wrapInt, Nat.fib_add_two]
    push_cast
    ring_nf

theorem fibLoop_eq (k : Nat) : ∀ a : Nat,
    fibLoop k (wrapInt (Nat.fib a)) (wrapInt (Nat.fib (a + 1))) = wrapInt (Nat.fib (a + k + 1)) := by
  induction k with
  | zero => intro a; rfl
  | succ k ih =>
    intro a
    rw [fibLoop, wrapInt_add_wrapInt]
    have e : ((Nat.fib a : Int) + (Nat.fib (a + 1) : Int)) = (Nat.fib (a + 1 + 1) : Int) := by
      rw [Nat.fib_add_two]
      push_cast
      ring
    rw [e, ih (a + 1)]
    congr 3
    omega

theorem DynamicFibonacci_eq (n : Nat) : DynamicFibonacci n = wrapInt (Nat.fib n) := by
  cases n with
  | zero => decide
  | succ k =>
    have h0 : ((k + 1 : Nat) : Int) ≠ 0 := by omega
    have h1 : (((k + 1 : Nat) : Int) - 1).toNat = k := by omega
    rw [DynamicFibonacci, if_neg h0, h1]
    have := fibLoop_eq k 0
    simpa [wrapInt] using this

theorem index_eq_some_iff {α : Type} {arr : List α} {i : Int} {x : α} :
    index arr i = some x ↔ 0 ≤ i ∧ ∃ h : i.toNat < arr.length, arr[i.toNat] = x := by
  unfold index
  by_cases h : 0 ≤ i
  · rw [if_pos h, List.getElem?_eq_some_iff]
    simp only [h, true_and]
  · simp [h]

theorem index_bounds {α : Type} {arr : List α} {i : Int} {x : α} (h : index arr i = some x) :
    0 ≤ i ∧ i < arr.length := by
  obtain ⟨h0, h1, _⟩ := index_eq_some_iff.1 h
  omega

theorem index_exists {α : Type} {arr : List α} {i : Int} (h0 : 0 ≤ i) (h1 : i < arr.length) :
    ∃ x, index arr i = some x := by
  have h2 : i.toNat < arr.length := by omega
  exact ⟨arr[i.toNat], index_eq_some_iff.2 ⟨h0, h2, rfl⟩⟩

theorem mem_iff_index {α : Type} {arr : List α} {x : α} :
    x ∈ arr ↔ ∃ i : Int, index arr i = some x := by
  constructor
  · intro h
    obtain ⟨n, hn, e⟩ := List.getElem_of_mem h
    exact ⟨n, index_eq_some_iff.2 ⟨by omega, by simpa using hn, by simpa using e⟩⟩
  · rintro ⟨i, h⟩
    obtain ⟨_, h1, e⟩ := index_eq_some_iff.1 h
    exact e ▸ List.getElem_mem _

theorem sorted_index {arr : List Int} (hs : arr.Sorted (· ≤ ·)) {i j : Int} {x y : Int}
    (hi : index arr i = some x) (hj : index arr j = some y) (hij : i ≤ j) : x ≤ y := by
  obtain ⟨h0, h1, e1⟩ := index_eq_some_iff.1 hi
  obtain ⟨h2, h3, e2⟩ := index_eq_some_iff.1 hj
  rcases Nat.lt_or_ge i.toNat j.toNat with hlt | hge
  · rw [← e1, ← e2]
    exact List.pairwise_iff_getElem.1 hs _ _ h1 h3 hlt
  · have : i.toNat = j.toNat := by omega
    have hij2 : i = j := by omega
    subst hij2
    rw [hi] at hj
    exact le_of_eq (Option.some.inj hj)

/-- The search of a stretch that holds the target finds it. -/
theorem binarySearchRecursive_found {arr : List Int} (hs : arr.Sorted (· ≤ ·)) (target : Int) :
    ∀ (fuel : Nat) (left right : Int), 0 ≤ left → right < arr.length →
      (∃ k, left ≤ k ∧ k ≤ right ∧ index arr k = some target) → right - left + 1 ≤ fuel →
      ∃ i, binarySearchRecursive arr target fuel left right = .done i ∧
        index arr i = some target := by
  intro fuel
  induction fuel with
  | zero =>
    intro left right _ _ ⟨k, h1, h2, _⟩ hf
    omega
  | succ fuel ih =>
    intro left right hl hr ⟨k, hk1, hk2, hk⟩ hf
    have hle : ¬ left > right := by omega
    have hd : (right - left).tdiv 2 = (right - left) / 2 :=
      Int.tdiv_eq_ediv (by omega) (by omega)
    obtain ⟨x, hx⟩ := @index_exists _ arr (left + (right - left) / 2) (by omega) (by omega)
    simp only [binarySearchRecursive, if_neg hle, hd, hx]
    by_cases hxt : x = target
    · subst hxt
      exact ⟨_, by simp, hx⟩
    · by_cases hlt : x < target
      · have hmk : left + (right - left) / 2 < k := by
          by_contra hcon
          have := sorted_index hs hk hx (by omega)
          omega
        obtain ⟨y, hy⟩ := @index_exists _ arr (left + (right - left) / 2 + 1) (by omega) (by omega)
        obtain ⟨z, hz⟩ := @index_exists _ arr right (by omega) (by omega)
        simp only [if_neg hxt, if_pos hlt, hy, hz]
        exact ih _ _ (by omega) hr ⟨k, by omega, hk2, hk⟩ (by omega)
      · have hmk : k < left + (right - left) / 2 := by
          by_contra hcon
          have := sorted_index hs hx hk (by omega)
          omega
        obtain ⟨y, hy⟩ := @index_exists _ arr left (by omega) (by omega)
        obtain ⟨z, hz⟩ := @index_exists _ arr (left + (right - left) / 2 - 1) (by omega) (by omega)
        simp only [if_neg hxt, if_neg hlt, hy, hz]
        exact ih _ _ hl (by omega) ⟨k, hk1, by omega, hk⟩ (by omega)

theorem take_succ_set (arr : List Int) (k : Nat) (x : Int) (h : k < arr.length) :
    (arr.set k x).take (k + 1) = arr.take k ++ [x] := by
  induction arr generalizing k with
  | nil => simp at h
  | cons a rest ih =>
    cases k with
    | zero => simp
    | succ k =>
      simp only [List.length_cons, Nat.add_lt_add_iff_right] at h
      simp [ih k h]

theorem drop_of_getElem? {l : List Int} {i : Nat} {x : Int} (h : l[i]? = some x) :
    l.drop i = x :: l.drop (i + 1) := by
  obtain ⟨hi, e⟩ := List.getElem?_eq_some_iff.1 h
  rw [List.drop_eq_getElem_cons hi, e]

theorem mergeBoth_spec (left right : List Int) : ∀ (fuel : Nat) (arr : List Int) (i j : Nat),
    i ≤ left.length → j ≤ right.length → arr.length = left.length + right.length →
    (left.length - i) + (right.length - j) < fuel →
    ∃ arr1 i1 j1, mergeBoth left right fuel arr i j (i + j) = some (arr1, i1, j1, i1 + j1) ∧
      arr1.length = arr.length ∧ i1 ≤ left.length ∧ j1 ≤ right.length ∧
      (i1 = left.length ∨ j1 = right.length) ∧
      arr1.take (i1 + j1) ++ List.merge (left.drop i1) (right.drop j1) =
        arr.take (i + j) ++ List.merge (left.drop i) (right.drop j) := by
  intro fuel
  induction fuel with
  | zero => intro arr i j _ _ _ hf; omega
  | succ fuel ih =>
    intro arr i j hi hj hlen hf
    by_cases hc : i < left.length ∧ j < right.length
    · obtain ⟨hc1, hc2⟩ := hc
      have ex : left[i]? = some left[i] := List.getElem?_eq_getElem hc1
      have ey : right[j]? = some right[j] := List.getElem?_eq_getElem hc2
      have hk : i + j < arr.length := by omega
      simp only [mergeBoth, hc1, hc2, and_self, if_true, ex, ey, storeAt, if_pos hk]
      by_cases hxy : left[i] ≤ right[j]
      · obtain ⟨arr1, i1, j1, e, h1, h2, h3, h4, h5⟩ :=
          ih (arr.set (i + j) left[i]) (i + 1) j (by omega) hj (by simp [hlen]) (by omega)
        refine ⟨arr1, i1, j1, ?_, by simpa using h1, h2, h3, h4, ?_⟩
        · simp only [if_pos hxy]
          rw [← e]
          congr 1
          omega
        · rw [h5, show i + 1 + j = i + j + 1 by omega, take_succ_set _ _ _ hk,
            drop_of_getElem? ex, drop_of_getElem? ey,
            List.cons_merge_cons_pos _ _ _ (by simpa using hxy)]
          simp [← drop_of_getElem? ey]
      · obtain ⟨arr1, i1, j1, e, h1, h2, h3, h4, h5⟩ :=
          ih (arr.set (i + j) right[j]) i (j + 1) hi (by omega) (by simp [hlen]) (by omega)
        refine ⟨arr1, i1, j1, ?_, by simpa using h1, h2, h3, h4, ?_⟩
        · simp only [if_neg hxy]
          exact e
        · rw [h5, show i + (j + 1) = i + j + 1 by omega, take_succ_set _ _ _ hk,
            drop_of_getElem? ex, drop_of_getElem? ey,
            List.cons_merge_cons_neg _ _ _ (by simpa using hxy)]
          simp [← drop_of_getElem? ex]
    · refine ⟨arr, i, j, by simp only [mergeBoth, if_neg hc], rfl, hi, hj, by omega, rfl⟩

theorem copyRest_spec (src : List Int) : ∀ (fuel : Nat) (arr : List Int) (i k : Nat),
    i ≤ src.length → k + (src.length - i) ≤ arr.length → src.length - i < fuel →
    ∃ arr1, copyRest src fuel arr i k = some (arr1, src.length, k + (src.length - i)) ∧
      arr1.length = arr.length ∧
      arr1.take (k + (src.length - i)) = arr.take k ++ src.drop i := by
  intro fuel
  induction fuel with
  | zero => intro arr i k _ _ hf; omega
  | succ fuel ih =>
    intro arr i k hi hk hf
    by_cases hc : i < src.length
    · have ex : src[i]? = some src[i] := List.getElem?_eq_getElem hc
      have hk2 : k < arr.length := by omega
      obtain ⟨arr1, e, h1, h2⟩ := ih (arr.set k src[i]) (i + 1) (k + 1) (by omega)
        (by simp; omega) (by omega)
      simp only [copyRest, if_pos hc, ex, storeAt, if_pos hk2]
      refine ⟨arr1, ?_, by simpa using h1, ?_⟩
      · rw [e]
        congr 3
        omega
      · rw [show k + (src.length - i) = k + 1 + (src.length - (i + 1)) by omega, h2,
          take_succ_set _ _ _ hk2, drop_of_getElem? ex]
        simp
    · have hi2 : i = src.length := by omega
      subst hi2
      exact ⟨arr, by simp [copyRest], rfl, by simp⟩

theorem MergeSortFuel_spec : ∀ (fuel : Nat) (arr : List Int), arr.length < fuel →
    ∃ out, MergeSortFuel fuel arr = some out ∧ out.Sorted (· ≤ ·) ∧ out.Perm arr := by
  intro fuel
  induction fuel with
  | zero => intro arr hf; omega
  | succ fuel ih =>
    intro arr hf
    by_cases h1 : arr.length ≤ 1
    · refine ⟨arr, by simp only [MergeSortFuel, if_pos h1], ?_, List.Perm.refl _⟩
      match arr, h1 with
      | [], _ => simp
      | [a], _ => simp
    · have hmid : arr.length / 2 < arr.length := by omega
      obtain ⟨left, el, sl, pl⟩ := ih (arr.take (arr.length / 2)) (by simp; omega)
      obtain ⟨right, er, sr, pr⟩ := ih (arr.drop (arr.length / 2)) (by simp; omega)
      have hll : left.length = arr.length / 2 := by
        rw [pl.length_eq]; simp; omega
      have hrl : right.length = arr.length - arr.length / 2 := by
        rw [pr.length_eq]; simp
      obtain ⟨arr1, i1, j1, e1, a1, hi1, hj1, hend, hm⟩ :=
        mergeBoth_spec left right (arr.length + 1) arr 0 0 (Nat.zero_le _) (Nat.zero_le _)
          (by omega) (by omega)
      obtain ⟨arr2, e2, a2, t2⟩ :=
        copyRest_spec left (arr.length + 1) arr1 i1 (i1 + j1) hi1 (by omega) (by omega)
      obtain ⟨arr3, e3, a3, t3⟩ :=
        copyRest_spec right (arr.length + 1) arr2 j1 (i1 + j1 + (left.length - i1)) hj1
          (by omega) (by omega)
      have hout : arr3 = List.merge left right := by
        have hfull : arr3.take (i1 + j1 + (left.length - i1) + (right.length - j1)) = arr3 :=
          List.take_of_length_le (by omega)
        rw [← hfull, t3]
        simp only [List.take_zero, List.nil_append, List.drop_zero, Nat.add_zero] at hm
        rw [← hm]
        rcases hend with hend | hend
        · subst hend
          simp only [Nat.sub_self, Nat.add_zero] at t2 ⊢
          rw [t2]
          simp
        · subst hend
          rw [t2]
          simp
      refine ⟨arr3, ?_, ?_, ?_⟩
      · simp only [MergeSortFuel, if_neg h1, el, er, e1, e2, e3]
      · rw [hout]
        have hs := @List.sorted_merge Int (fun a b : Int => decide (a ≤ b))
          (fun a b c hab hbc => by simp only [decide_eq_true_eq] at *; omega)
          (fun a b => by simp only [Bool.or_eq_true, decide_eq_true_eq]; omega) left right
          (by simpa [List.Sorted] using sl) (by simpa [List.Sorted] using sr)
        simpa [List.Sorted] using hs
      · rw [hout]
        exact ((List.merge_perm_append _).trans (pl.append pr)).trans
          (List.Perm.of_eq (List.take_append_drop _ _))

theorem getElem?_eq_nth {arr : List Int} {i : Nat} (h : i < arr.length) :
    arr[i]? = some (nth arr i) := by
  simp [nth, List.getElem?_eq_getElem h]

theorem nth_eq_getElem {arr : List Int} {i : Nat} (h : i < arr.length) : nth arr i = arr[i] := by
  simp [nth, List.getElem?_eq_getElem h]

theorem nth_set (arr : List Int) (i k : Nat) (x : Int) (h : i < arr.length) :
    nth (arr.set i x) k = if k = i then x else nth arr k := by
  unfold nth
  by_cases hk : k = i
  · subst hk
    simp [List.getElem?_set, h]
  · simp [List.getElem?_set, hk, Ne.symm hk]

theorem set_perm_cons {t : List Int} {j : Nat} {a b : Int} (h : t[j]? = some b) :
    (b :: t.set j a).Perm (a :: t) := by
  induction t generalizing j with
  | nil => simp at h
  | cons c t ih =>
    cases j with
    | zero =>
      simp only [List.getElem?_cons_zero, Option.some.injEq] at h
      subst h
      exact List.Perm.swap _ _ _
    | succ j =>
      simp only [List.getElem?_cons_succ] at h
      simp only [List.set_cons_succ]
      exact (List.Perm.swap c b _).trans (((ih h).cons c).trans (List.Perm.swap a c _))

theorem swapAt_spec {arr : List Int} {i j : Nat} (hi : i < arr.length) (hj : j < arr.length) :
    ∃ out, swapAt arr i j = some out ∧ out.length = arr.length ∧ out.Perm arr ∧
      ∀ k, nth out k = if k = j then nth arr i else if k = i then nth arr j else nth arr k := by
  refine ⟨(arr.set i (nth arr j)).set j (nth arr i), ?_, by simp, ?_, ?_⟩
  · simp [swapAt, getElem?_eq_nth hi, getElem?_eq_nth hj]
  · have key : ∀ (l : List Int) (i j : Nat) (a b : Int), l[i]? = some a → l[j]? = some b →
        ((l.set i b).set j a).Perm l := by
      intro l
      induction l with
      | nil => intro i j a b h; simp at h
      | cons c t ih =>
        intro i j a b h1 h2
        cases i with
        | zero =>
          simp only [List.getElem?_cons_zero, Option.some.injEq] at h1
          subst h1
          cases j with
          | zero =>
            simp only [List.getElem?_cons_zero, Option.some.injEq] at h2
            subst h2
            simp
          | succ j =>
            simp only [List.getElem?_cons_succ] at h2
            simp only [List.set_cons_zero, List.set_cons_succ]
            exact set_perm_cons h2
        | succ i =>
          simp only [List.getElem?_cons_succ] at h1
          cases j with
          | zero =>
            simp only [List.getElem?_cons_zero, Option.some.injEq] at h2
            subst h2
            simp only [List.set_cons_zero, List.set_cons_succ]
            exact set_perm_cons h1
          | succ j =>
            simp only [List.getElem?_cons_succ] at h2
            simp only [List.set_cons_succ]
            exact (ih i j a b h1 h2).cons c
    exact key arr i j _ _ (getElem?_eq_nth hi) (getElem?_eq_nth hj)
  · intro k
    rw [nth_set _ _ _ _ (by simpa using hj), nth_set _ _ _ _ hi]

theorem pickLarger_spec {arr : List Int} {n child largest : Nat} (hn : n ≤ arr.length)
    (hl : largest < arr.length) :
    ∃ m, pickLarger arr n child largest = some m ∧
      ((m = largest ∧ (child < n → nth arr child ≤ nth arr largest)) ∨
        (m = child ∧ child < n ∧ nth arr largest < nth arr child)) := by
  unfold pickLarger
  by_cases hc : child < n
  · have hc2 : child < arr.length := by omega
    simp only [if_pos hc, getElem?_eq_nth hc2, getElem?_eq_nth hl]
    by_cases hx : nth arr child > nth arr largest
    · exact ⟨child, by simp [hx], Or.inr ⟨rfl, hc, hx⟩⟩
    · exact ⟨largest, by simp [hx], Or.inl ⟨rfl, fun _ => by omega⟩⟩
  · exact ⟨largest, by simp [hc], Or.inl ⟨rfl, fun h => absurd h hc⟩⟩

/-- One step of a sift-down: after exchanging node `c` with its larger child `m`, the
sift-down may go on from `m`. -/
theorem sift_step (f g : Nat → Int) (n lo c m : Nat) (hm : m = 2 * c + 1 ∨ m = 2 * c + 2)
    (hmn : m < n) (hlo : lo ≤ c) (hcm : f c < f m)
    (hl : 2 * c + 1 < n → f (2 * c + 1) ≤ f m) (hr : 2 * c + 2 < n → f (2 * c + 2) ≤ f m)
    (hg : ∀ k, g k = if k = m then f c else if k = c then f m else f k)
    (hpre : SiftPre f n lo c) : SiftPre g n lo m := by
  obtain ⟨hp1, hp2⟩ := hpre
  constructor
  · intro j hj hjm
    by_cases hjc : j = c
    · subst hjc
      rcases hm with rfl | rfl <;>
      · constructor <;>
        · intro hch
          simp only [hg]
          split_ifs <;> omega
    · have h1 := hp1 j hj hjc
      have h2 := hp2 j hj
      unfold HeapAt at h1
      rcases hm with rfl | rfl <;>
      · constructor <;>
        · intro hch
          simp only [hg]
          split_ifs <;> omega
  · intro p hp hpm
    have hpc : p = c := by omega
    subst hpc
    have h1 := hp1 m (by omega) (by omega)
    unfold HeapAt at h1
    rcases hm with rfl | rfl <;>
    · constructor <;>
      · intro hch
        simp only [hg]
        split_ifs <;> omega

/-- What `heapify` does: a sift-down from `c` restores the heap property from `lo` on. -/
theorem heapify_spec : ∀ (fuel : Nat) (arr : List Int) (n lo c : Nat),
    n ≤ arr.length → lo ≤ c → SiftPre (nth arr) n lo c → n - c < fuel →
    ∃ out, heapify fuel arr n c = some out ∧ out.length = arr.length ∧ out.Perm arr ∧
      (∀ j, lo ≤ j → HeapAt (nth out) n j) ∧
      (∀ j, j < c ∨ n ≤ j → nth out j = nth arr j) ∧
      (∀ j, j < n → ∃ j2, j2 < n ∧ nth out j = nth arr j2) := by
  intro fuel
  induction fuel with
  | zero => intro arr n lo c _ _ _ hf; omega
  | succ fuel ih =>
    intro arr n lo c hn hlo hpre hf
    have noop : ∀ (hA : HeapAt (nth arr) n c),
        ∃ out, some arr = some out ∧ out.length = arr.length ∧ out.Perm arr ∧
          (∀ j, lo ≤ j → HeapAt (nth out) n j) ∧
          (∀ j, j < c ∨ n ≤ j → nth out j = nth arr j) ∧
          (∀ j, j < n → ∃ j2, j2 < n ∧ nth out j = nth arr j2) := by
      intro hA
      refine ⟨arr, rfl, rfl, List.Perm.refl _, ?_, fun _ _ => rfl, fun j hj => ⟨j, hj, rfl⟩⟩
      intro j hj
      by_cases hjc : j = c
      · exact hjc ▸ hA
      · exact hpre.1 j hj hjc
    have swap_case : ∀ m, (m = 2 * c + 1 ∨ m = 2 * c + 2) → m < n → nth arr c < nth arr m →
        (2 * c + 1 < n → nth arr (2 * c + 1) ≤ nth arr m) →
        (2 * c + 2 < n → nth arr (2 * c + 2) ≤ nth arr m) →
        ∃ out, (match swapAt arr c m with
            | none => none
            | some arr1 => heapify fuel arr1 n m) = some out ∧
          out.length = arr.length ∧ out.Perm arr ∧
          (∀ j, lo ≤ j → HeapAt (nth out) n j) ∧
          (∀ j, j < c ∨ n ≤ j → nth out j = nth arr j) ∧
          (∀ j, j < n → ∃ j2, j2 < n ∧ nth out j = nth arr j2) := by
      intro m hm hmn hcm hl hr
      obtain ⟨arr1, e1, len1, p1, v1⟩ := @swapAt_spec arr c m (by omega) (by omega)
      have hpre1 : SiftPre (nth arr1) n lo m :=
        sift_step (nth arr) (nth arr1) n lo c m hm hmn hlo hcm hl hr v1 hpre
      obtain ⟨out, e2, len2, p2, hh, hu, hs⟩ :=
        ih arr1 n lo m (by omega) (by omega) hpre1 (by omega)
      refine ⟨out, by simp only [e1, e2], by omega, p2.trans p1, hh, ?_, ?_⟩
      · intro j hj
        rw [hu j (by omega), v1 j]
        split_ifs <;> first | rfl | omega
      · intro j hj
        obtain ⟨j2, hj2, e⟩ := hs j hj
        rw [e, v1 j2]
        split_ifs
        · exact ⟨c, by omega, rfl⟩
        · exact ⟨m, hmn, rfl⟩
        · exact ⟨j2, hj2, rfl⟩
    by_cases hcn : c < n
    · obtain ⟨m1, em1, hm1⟩ := @pickLarger_spec arr n (2 * c + 1) c hn (by omega)
      have hm1len : m1 < arr.length := by
        rcases hm1 with ⟨rfl, _⟩ | ⟨rfl, h, _⟩ <;> omega
      obtain ⟨m, em, hm⟩ := @pickLarger_spec arr n (2 * c + 2) m1 hn hm1len
      simp only [heapify, em1, em]
      rcases hm1 with ⟨rfl, h1⟩ | ⟨rfl, h1, h1v⟩
      · rcases hm with ⟨rfl, h2⟩ | ⟨rfl, h2, h2v⟩
        · simp only [ne_eq, not_true_eq_false, if_false]
          exact noop ⟨h1, h2⟩
        · rw [if_pos (by omega)]
          exact swap_case _ (Or.inr rfl) h2 h2v (fun h => by have := h1 h; omega)
            (fun _ => le_refl _)
      · rcases hm with ⟨rfl, h2⟩ | ⟨rfl, h2, h2v⟩
        · rw [if_pos (by omega)]
          exact swap_case _ (Or.inl rfl) h1 h1v (fun _ => le_refl _) h2
        · rw [if_pos (by omega)]
          exact swap_case _ (Or.inr rfl) h2 (by omega) (fun _ => by omega) (fun _ => le_refl _)
    · have e1 : pickLarger arr n (2 * c + 1) c = some c := by
        simp [pickLarger]; omega
      have e2 : pickLarger arr n (2 * c + 2) c = some c := by
        simp [pickLarger]; omega
      simp only [heapify, e1, e2, ne_eq, not_true_eq_false, if_false]
      exact noop ⟨fun h => by omega, fun h => by omega⟩

theorem root_max (f : Nat → Int) (n : Nat) (hh : ∀ j, HeapAt f n j) : ∀ j, j < n → f j ≤ f 0 := by
  intro j
  induction j using Nat.strong_induction_on with
  | _ j ih =>
    intro hj
    rcases Nat.eq_zero_or_pos j with rfl | hpos
    · exact le_refl _
    · have hp := ih ((j - 1) / 2) (by omega) (by omega)
      have hA := hh ((j - 1) / 2)
      unfold HeapAt at hA
      rcases Nat.even_or_odd j with ⟨t, ht⟩ | ⟨t, ht⟩
      · have e : 2 * ((j - 1) / 2) + 2 = j := by omega
        rw [e] at hA
        have := hA.2 hj
        omega
      · have e : 2 * ((j - 1) / 2) + 1 = j := by omega
        rw [e] at hA
        have := hA.1 hj
        omega

theorem buildHeap_spec (n : Nat) : ∀ (count : Nat) (arr : List Int), n ≤ arr.length →
    (∀ j, count ≤ j → HeapAt (nth arr) n j) →
    ∃ out, buildHeap n count arr = some out ∧ out.length = arr.length ∧ out.Perm arr ∧
      ∀ j, HeapAt (nth out) n j := by
  intro count
  induction count with
  | zero =>
    intro arr _ hh
    exact ⟨arr, rfl, rfl, List.Perm.refl _, fun j => hh j (Nat.zero_le _)⟩
  | succ i ih =>
    intro arr hn hh
    have hpre : SiftPre (nth arr) n i i :=
      ⟨fun j hj hne => hh j (by omega), fun p hp hc => by omega⟩
    obtain ⟨arr1, e1, len1, p1, h1, _, _⟩ :=
      heapify_spec (n + 1) arr n i i hn (le_refl _) hpre (by omega)
    obtain ⟨out, e2, len2, p2, h2⟩ := ih arr1 (by omega) h1
    exact ⟨out, by simp only [buildHeap, e1, e2], by omega, p2.trans p1, h2⟩

theorem extractAll_spec : ∀ (m : Nat) (arr : List Int), (m < arr.length ∨ m = 0) →
    (∀ j, HeapAt (nth arr) (m + 1) j) →
    (∀ j k, m < j → j ≤ k → k < arr.length → nth arr j ≤ nth arr k) →
    (∀ j k, j ≤ m → m < k → k < arr.length → nth arr j ≤ nth arr k) →
    ∃ out, extractAll m arr = some out ∧ out.length = arr.length ∧ out.Perm arr ∧
      ∀ j k, j ≤ k → k < out.length → nth out j ≤ nth out k := by
  intro m
  induction m with
  | zero =>
    intro arr _ _ hs hp
    refine ⟨arr, rfl, rfl, List.Perm.refl _, ?_⟩
    intro j k hjk hk
    rcases Nat.eq_zero_or_pos j with rfl | hj
    · rcases Nat.eq_zero_or_pos k with rfl | hk0
      · exact le_refl _
      · exact hp 0 k (le_refl _) hk0 hk
    · exact hs j k hj hjk hk
  | succ i ih =>
    intro arr hm hh hs hp
    have him : i + 1 < arr.length := by omega
    obtain ⟨arr1, e1, len1, p1, v1⟩ := @swapAt_spec arr 0 (i + 1) (by omega) him
    have hpre : SiftPre (nth arr1) (i + 1) 0 0 := by
      constructor
      · intro j _ hj0
        have hA := hh j
        unfold HeapAt at hA ⊢
        constructor <;>
        · intro hch
          simp only [v1]
          split_ifs <;> first | contradiction | omega
      · intro p _ hc
        omega
    obtain ⟨arr2, e2, len2, p2, h2, hu, hsrc⟩ :=
      heapify_spec (i + 2) arr1 (i + 1) 0 0 (by omega) (le_refl _) hpre (by omega)
    have hroot := root_max (nth arr) (i + 1 + 1) hh
    obtain ⟨out, e3, len3, p3, h3⟩ := ih arr2 (Or.inl (by omega)) (fun j => h2 j (Nat.zero_le _))
      (by
        intro j k hj hjk hk
        rw [hu j (Or.inr (by omega)), hu k (Or.inr (by omega)), v1 j, v1 k]
        have a1 := hp 0 k (Nat.zero_le _)
        have a2 := hs j k
        split_ifs <;> first | contradiction | omega)
      (by
        intro j k hj hk hklen
        obtain ⟨j2, hj2, ej⟩ := hsrc j (by omega)
        rw [ej, hu k (Or.inr (by omega)), v1 j2, v1 k]
        have a1 := hroot (i + 1) (by omega)
        have a2 := hroot j2 (by omega)
        have a3 := hp (i + 1) k (le_refl _)
        have a4 := hp j2 k (by omega)
        split_ifs <;> first | contradiction | omega)
    exact ⟨out, by simp only [extractAll, e1, e2, e3], by omega, (p3.trans p2).trans p1, h3⟩

theorem HeapSort_spec (arr : List Int) :
    ∃ out, HeapSort arr = some out ∧ out.Sorted (· ≤ ·) ∧ out.Perm arr := by
  obtain ⟨arr1, e1, len1, p1, h1⟩ := buildHeap_spec arr.length (arr.length / 2) arr (le_refl _)
    (fun j hj => ⟨fun h => by omega, fun h => by omega⟩)
  obtain ⟨out, e2, len2, p2, h2⟩ := extractAll_spec (arr.length - 1) arr1 (by omega)
    (by
      intro j
      have hA := h1 j
      unfold HeapAt at hA ⊢
      constructor
      · intro h; exact hA.1 (by omega)
      · intro h; exact hA.2 (by omega))
    (by intro j k hj hjk hk; omega)
    (by intro j k hj hk hklen; omega)
  refine ⟨out, by simp only [HeapSort, e1, e2], ?_, p2.trans p1⟩
  rw [List.Sorted, List.pairwise_iff_getElem]
  intro i j hi hj hij
  rw [← nth_eq_getElem hi, ← nth_eq_getElem hj]
  exact h2 i j (by omega) hj

theorem commonPrefixLen_prefix : ∀ (xs ys : List Byte),
    ∃ t, t.length = commonPrefixLen xs ys ∧ t <+: xs ∧ t <+: ys
  | [], ys => ⟨[], by simp [commonPrefixLen], List.nil_prefix, List.nil_prefix⟩
  | x :: xs, [] => ⟨[], by simp [commonPrefixLen], List.nil_prefix, List.nil_prefix⟩
  | x :: xs, y :: ys => by
    by_cases h : x = y
    · subst h
      obtain ⟨t, h1, h2, h3⟩ := commonPrefixLen_prefix xs ys
      exact ⟨x :: t, by simp [commonPrefixLen, h1], (List.prefix_cons_inj x).2 h2,
        (List.prefix_cons_inj x).2 h3⟩
    · exact ⟨[], by simp [commonPrefixLen, h], List.nil_prefix, List.nil_prefix⟩

theorem prefix_le_commonPrefixLen : ∀ (t xs ys : List Byte), t <+: xs → t <+: ys →
    t.length ≤ commonPrefixLen xs ys
  | [], _, _, _, _ => Nat.zero_le _
  | a :: t, xs, ys, h1, h2 => by
    obtain ⟨r1, e1⟩ := h1
    obtain ⟨r2, e2⟩ := h2
    subst e1 e2
    have := prefix_le_commonPrefixLen t (t ++ r1) (t ++ r2) (List.prefix_append _ _)
      (List.prefix_append _ _)
    show (a :: t).length ≤ commonPrefixLen (a :: (t ++ r1)) (a :: (t ++ r2))
    simp only [commonPrefixLen, if_true, List.length_cons]
    omega

theorem suf_suffix (str1 str2 : List Byte) (i j : Nat) :
    ∃ t, t.length = suf str1 str2 i j ∧ t <:+ str1.take i ∧ t <:+ str2.take j := by
  obtain ⟨t, h1, h2, h3⟩ := commonPrefixLen_prefix (str1.take i).reverse (str2.take j).reverse
  refine ⟨t.reverse, by simpa using h1, ?_, ?_⟩
  · have := List.reverse_suffix.2 h2
    simpa using this
  · have := List.reverse_suffix.2 h3
    simpa using this

theorem suffix_le_suf (str1 str2 : List Byte) (i j : Nat) (t : List Byte)
    (h1 : t <:+ str1.take i) (h2 : t <:+ str2.take j) : t.length ≤ suf str1 str2 i j := by
  have := prefix_le_commonPrefixLen t.reverse _ _ (List.reverse_prefix.2 h1)
    (List.reverse_prefix.2 h2)
  simpa using this

theorem suf_zero_left (str1 str2 : List Byte) (j : Nat) : suf str1 str2 0 j = 0 := by
  simp [suf, commonPrefixLen]

theorem suf_zero_right (str1 str2 : List Byte) (i : Nat) : suf str1 str2 i 0 = 0 := by
  unfold suf
  cases (List.take i str1).reverse <;> simp [commonPrefixLen]

theorem suf_succ (str1 str2 : List Byte) (i j : Nat) (hi : i < str1.length)
    (hj : j < str2.length) :
    suf str1 str2 (i + 1) (j + 1) = if str1[i] = str2[j] then suf str1 str2 i j + 1 else 0 := by
  unfold suf
  rw [List.take_succ, List.take_succ, List.getElem?_eq_getElem hi, List.getElem?_eq_getElem hj]
  simp only [Option.toList, List.reverse_append, List.reverse_cons, List.reverse_nil,
    List.nil_append, List.singleton_append, commonPrefixLen]

theorem suf_le (str1 str2 : List Byte) (i j : Nat) (hi : i ≤ str1.length) :
    suf str1 str2 i j ≤ i := by
  obtain ⟨t, h1, h2, _⟩ := suf_suffix str1 str2 i j
  have := h2.length_le
  simp only [List.length_take] at this
  omega

theorem load2_eq_cell {dp : List (List Int)} {n x y : Nat} (hx : x < dp.length)
    (hrows : ∀ row ∈ dp, row.length = n + 1) (hy : y ≤ n) :
    load2 dp x y = some (cell dp x y) := by
  have hrow := hrows dp[x] (List.getElem_mem hx)
  have hy2 : y < dp[x].length := by omega
  simp [cell, load2, List.getElem?_eq_getElem hx, List.getElem?_eq_getElem hy2]

theorem store2_spec {dp : List (List Int)} {n i j : Nat} (v : Int) (hi : i < dp.length)
    (hrows : ∀ row ∈ dp, row.length = n + 1) (hj : j ≤ n) :
    ∃ dp1, store2 dp i j v = some dp1 ∧ dp1.length = dp.length ∧
      (∀ row ∈ dp1, row.length = n + 1) ∧
      ∀ x y, cell dp1 x y = if x = i ∧ y = j then v else cell dp x y := by
  have hrow := hrows dp[i] (List.getElem_mem hi)
  have hj2 : j < dp[i].length := by omega
  refine ⟨dp.set i (dp[i].set j v), ?_, by simp, ?_, ?_⟩
  · simp [store2, List.getElem?_eq_getElem hi, hj2]
  · intro row hrow2
    rcases List.mem_or_eq_of_mem_set hrow2 with h | h
    · exact hrows row h
    · rw [h]
      simpa using hrow
  · intro x y
    unfold cell load2
    by_cases hx : x = i
    · subst hx
      by_cases hy : y = j
      · subst hy
        simp [List.getElem?_set, hi, hj2]
      · simp [List.getElem?_set, hi, hy, Ne.symm hy, List.getElem?_eq_getElem hi]
    · simp [List.getElem?_set, hx, Ne.symm hx]

theorem lcsCell_spec (str1 str2 : List Byte) (i j : Nat) (s : LcsState)
    (hi1 : 1 ≤ i) (hi2 : i ≤ str1.length) (hj1 : 1 ≤ j) (hj2 : j ≤ str2.length)
    (hinv : LcsInv str1 str2 i j s) :
    ∃ s1, lcsCell str1 str2 i j s = some s1 ∧ LcsInv str1 str2 i (j + 1) s1 := by
  obtain ⟨hlen, hrows, hcells, hmax, hnn, hwit⟩ := hinv
  have ha : i - 1 < str1.length := by omega
  have hb : j - 1 < str2.length := by omega
  have hsuc := suf_succ str1 str2 (i - 1) (j - 1) ha hb
  rw [show i - 1 + 1 = i by omega, show j - 1 + 1 = j by omega] at hsuc
  have hprev : cell s.dp (i - 1) (j - 1) = (suf str1 str2 (i - 1) (j - 1) : Int) := by
    rw [hcells (i - 1) (j - 1) (by omega) (by omega), if_pos (Or.inl (by omega))]
  have hload := @load2_eq_cell s.dp str2.length (i - 1) (j - 1) (by omega) hrows (by omega)
  simp only [lcsCell, List.getElem?_eq_getElem ha, List.getElem?_eq_getElem hb]
  have key : ∀ (v : Int) (ml e : Int), v = (suf str1 str2 i j : Int) →
      (v ≤ ml) → 0 ≤ ml → (∀ x y, x ≤ str1.length → y ≤ str2.length →
        (x < i ∨ (x = i ∧ y < j)) → (suf str1 str2 x y : Int) ≤ ml) →
      (0 < ml → ∃ x y, x ≤ str1.length ∧ y ≤ str2.length ∧ e = x ∧
        (suf str1 str2 x y : Int) = ml) →
      ∃ dp1, store2 s.dp i j v = some dp1 ∧ LcsInv str1 str2 i (j + 1) (LcsState.mk dp1 ml e) := by
    intro v ml e hv hvml hml hmax2 hwit2
    obtain ⟨dp1, e1, l1, r1, c1⟩ := @store2_spec s.dp str2.length i j v (by omega) hrows hj2
    refine ⟨dp1, e1, ?_⟩
    unfold LcsInv
    dsimp only
    refine ⟨by omega, r1, ?_, ?_, hml, hwit2⟩
    · intro x y hx hy
      rw [c1 x y]
      by_cases hxy : x = i ∧ y = j
      · obtain ⟨rfl, rfl⟩ := hxy
        rw [if_pos ⟨rfl, rfl⟩, if_pos (Or.inr ⟨rfl, by omega⟩), hv]
      · rw [if_neg hxy, hcells x y hx hy]
        by_cases hp : x < i ∨ (x = i ∧ y < j)
        · rw [if_pos hp, if_pos (by omega)]
        · rw [if_neg hp, if_neg (by omega)]
    · intro x y hx hy hp
      by_cases hxy : x = i ∧ y = j
      · obtain ⟨rfl, rfl⟩ := hxy
        omega
      · exact hmax2 x y hx hy (by omega)
  by_cases heq : str1[i - 1] = str2[j - 1]
  · rw [if_pos heq] at hsuc
    simp only [if_pos heq, hload, hprev]
    have hv : (suf str1 str2 (i - 1) (j - 1) : Int) + 1 = (suf str1 str2 i j : Int) := by
      rw [hsuc]; push_cast; rfl
    by_cases hgt : (suf str1 str2 (i - 1) (j - 1) : Int) + 1 > s.maxLength
    · obtain ⟨dp1, e1, inv1⟩ := key _ ((suf str1 str2 (i - 1) (j - 1) : Int) + 1) (i : Int) hv
        (le_refl _) (by omega)
        (fun x y hx hy hp => by have := hmax x y hx hy hp; omega)
        (fun _ => ⟨i, j, hi2, hj2, rfl, hv.symm⟩)
      exact ⟨_, by simp only [e1, if_pos hgt], inv1⟩
    · obtain ⟨dp1, e1, inv1⟩ := key _ s.maxLength s.endIndex hv (by omega) hnn hmax hwit
      exact ⟨_, by simp only [e1, if_neg hgt], inv1⟩
  · rw [if_neg heq] at hsuc
    simp only [if_neg heq]
    obtain ⟨dp1, e1, inv1⟩ := key 0 s.maxLength s.endIndex (by rw [hsuc]; rfl) hnn hnn hmax hwit
    exact ⟨_, by simp only [e1], inv1⟩

theorem lcsRow_spec (str1 str2 : List Byte) (i : Nat) (hi1 : 1 ≤ i) (hi2 : i ≤ str1.length) :
    ∀ (k j : Nat) (s : LcsState), 1 ≤ j → j + k = str2.length + 1 → LcsInv str1 str2 i j s →
    ∃ s1, lcsRow str1 str2 i k j s = some s1 ∧ LcsInv str1 str2 i (str2.length + 1) s1 := by
  intro k
  induction k with
  | zero =>
    intro j s _ hjk hinv
    have : j = str2.length + 1 := by omega
    subst this
    exact ⟨s, rfl, hinv⟩
  | succ k ih =>
    intro j s hj hjk hinv
    obtain ⟨s1, e1, inv1⟩ := lcsCell_spec str1 str2 i j s hi1 hi2 hj (by omega) hinv
    obtain ⟨s2, e2, inv2⟩ := ih (j + 1) s1 (by omega) (by omega) inv1
    exact ⟨s2, by simp only [lcsRow, e1, e2], inv2⟩

theorem LcsInv.next_row {str1 str2 : List Byte} {i : Nat} {s : LcsState}
    (hinv : LcsInv str1 str2 i (str2.length + 1) s) : LcsInv str1 str2 (i + 1) 1 s := by
  obtain ⟨hlen, hrows, hcells, hmax, hnn, hwit⟩ := hinv
  refine ⟨hlen, hrows, ?_, ?_, hnn, hwit⟩
  · intro x y hx hy
    rw [hcells x y hx hy]
    by_cases hp : x < i ∨ (x = i ∧ y < str2.length + 1)
    · rw [if_pos hp, if_pos (by omega)]
    · by_cases hq : x < i + 1 ∨ (x = i + 1 ∧ y < 1)
      · have hy0 : y = 0 := by omega
        subst hy0
        rw [if_neg hp, if_pos hq, suf_zero_right]
        rfl
      · rw [if_neg hp, if_neg hq]
  · intro x y hx hy hq
    by_cases hp : x < i ∨ (x = i ∧ y < str2.length + 1)
    · exact hmax x y hx hy hp
    · have hy0 : y = 0 := by omega
      subst hy0
      rw [suf_zero_right]
      exact hnn

theorem lcsRows_spec (str1 str2 : List Byte) : ∀ (k i : Nat) (s : LcsState), 1 ≤ i →
    i + k = str1.length + 1 → LcsInv str1 str2 i 1 s →
    ∃ s1, lcsRows str1 str2 k i s = some s1 ∧ LcsInv str1 str2 (str1.length + 1) 1 s1 := by
  intro k
  induction k with
  | zero =>
    intro i s _ hik hinv
    have : i = str1.length + 1 := by omega
    subst this
    exact ⟨s, rfl, hinv⟩
  | succ k ih =>
    intro i s hi hik hinv
    obtain ⟨s1, e1, inv1⟩ := lcsRow_spec str1 str2 i hi (by omega) str2.length 1 s (le_refl _)
      (by omega) hinv
    obtain ⟨s2, e2, inv2⟩ := ih (i + 1) s1 (by omega) (by omega) inv1.next_row
    exact ⟨s2, by simp only [lcsRows, e1, e2], inv2⟩

theorem LcsInv_init (str1 str2 : List Byte) :
    LcsInv str1 str2 1 1
      (LcsState.mk (List.replicate (str1.length + 1) (List.replicate (str2.length + 1) 0)) 0 0) := by
  refine ⟨by simp, ?_, ?_, ?_, le_refl _, fun h => absurd h (lt_irrefl _)⟩
  · intro row hrow
    rw [List.eq_of_mem_replicate hrow]
    simp
  · intro x y hx hy
    have hc : cell (List.replicate (str1.length + 1) (List.replicate (str2.length + 1) (0 : Int)))
        x y = 0 := by
      have hx2 : x < str1.length + 1 := by omega
      have hy2 : y < str2.length + 1 := by omega
      simp [cell, load2, List.getElem?_replicate, hx2, hy2]
    rw [hc]
    by_cases hp : x < 1 ∨ (x = 1 ∧ y < 1)
    · rw [if_pos hp]
      rcases hp with hp | ⟨_, hp⟩
      · have : x = 0 := by omega
        subst this
        rw [suf_zero_left]; rfl
      · have : y = 0 := by omega
        subst this
        rw [suf_zero_right]; rfl
    · rw [if_neg hp]
  · intro x y hx hy hp
    rcases hp with hp | ⟨_, hp⟩
    · have : x = 0 := by omega
      subst this
      rw [suf_zero_left]; rfl
    · have : y = 0 := by omega
      subst this
      rw [suf_zero_right]; rfl

theorem infix_le_suf {str1 str2 t : List Byte} (h1 : t <:+: str1) (h2 : t <:+: str2) :
    ∃ x y, x ≤ str1.length ∧ y ≤ str2.length ∧ t.length ≤ suf str1 str2 x y := by
  obtain ⟨p1, q1, e1⟩ := h1
  obtain ⟨p2, q2, e2⟩ := h2
  refine ⟨(p1 ++ t).length, (p2 ++ t).length, ?_, ?_, ?_⟩
  · rw [← e1]; simp
  · rw [← e2]; simp
  · apply suffix_le_suf
    · rw [← e1, List.take_left]
      exact List.suffix_append _ _
    · rw [← e2, List.take_left]
      exact List.suffix_append _ _

theorem LongestCommonSubstring_spec (str1 str2 : List Byte) :
    ∃ out, LongestCommonSubstring str1 str2 = some out ∧ out <:+: str1 ∧ out <:+: str2 ∧
      ∀ t, t <:+: str1 → t <:+: str2 → t.length ≤ out.length := by
  obtain ⟨s, e, hlen, hrows, hcells, hmax, hnn, hwit⟩ := lcsRows_spec str1 str2 str1.length 1 _
    (le_refl _) (by omega) (LcsInv_init str1 str2)
  have hbound : ∀ t, t <:+: str1 → t <:+: str2 → (t.length : Int) ≤ s.maxLength := by
    intro t h1 h2
    obtain ⟨x, y, hx, hy, hle⟩ := infix_le_suf h1 h2
    have := hmax x y hx hy (Or.inl (by omega))
    omega
  simp only [LongestCommonSubstring, e]
  by_cases h0 : s.maxLength = 0
  · refine ⟨[], by simp only [if_pos h0], List.nil_infix, List.nil_infix, ?_⟩
    intro t h1 h2
    have := hbound t h1 h2
    simp only [List.length_nil]
    omega
  · obtain ⟨x, y, hx, hy, hex, hk⟩ := hwit (by omega)
    obtain ⟨t, ht, ht1, ht2⟩ := suf_suffix str1 str2 x y
    have hkx := suf_le str1 str2 x y hx
    have hcond : 0 ≤ s.endIndex - s.maxLength ∧ s.endIndex - s.maxLength ≤ s.endIndex ∧
        s.endIndex ≤ str1.length := by
      omega
    have e1 : (s.endIndex - s.maxLength).toNat = x - suf str1 str2 x y := by omega
    have e2 : s.maxLength.toNat = suf str1 str2 x y := by omega
    have hout : (str1.drop (x - suf str1 str2 x y)).take (suf str1 str2 x y) = t := by
      have h := List.suffix_iff_eq_drop.1 ht1
      rw [List.length_take, Nat.min_eq_left hx, ht] at h
      rw [h, List.drop_take]
      congr 1
      omega
    refine ⟨t, by simp only [if_neg h0, if_pos hcond, e1, e2, hout], ?_, ?_, ?_⟩
    · exact List.infix_iff_prefix_suffix.2 ⟨_, List.prefix_rfl, ht1⟩ |>.trans
        (List.take_prefix _ _).isInfix
    · exact List.infix_iff_prefix_suffix.2 ⟨_, List.prefix_rfl, ht2⟩ |>.trans
        (List.take_prefix _ _).isInfix
    · intro u h1 h2
      have := hbound u h1 h2
      omega

theorem radixWrite_spec : ∀ (nums arr : List Int) (index : Nat),
    index + nums.length ≤ arr.length →
    radixWrite nums arr index =
      some (arr.take index ++ nums ++ arr.drop (index + nums.length), index + nums.length)
  | [], arr, index, _ => by
    simp [radixWrite]
  | num :: rest, arr, index, h => by
    have hlt : index < arr.length := by
      simp only [List.length_cons] at h
      omega
    have ih := radixWrite_spec rest (arr.set index num) (index + 1)
      (by simp only [List.length_cons, List.length_set] at h ⊢; omega)
    simp only [radixWrite, storeAt, if_pos hlt, ih, take_succ_set arr index num hlt]
    have hd : (arr.set index num).drop (index + 1 + rest.length) =
        arr.drop (index + 1 + rest.length) := List.drop_set_of_lt _ _ (by omega)
    rw [hd]
    simp only [List.length_cons, List.append_assoc, List.singleton_append]
    rw [show index + (rest.length + 1) = index + 1 + rest.length from by omega]

theorem radixWrite_full (nums arr : List Int) (h : nums.length = arr.length) :
    radixWrite nums arr 0 = some (nums, arr.length) := by
  rw [radixWrite_spec nums arr 0 (by omega)]
  simp [h]

theorem radixWriteAll_spec : ∀ (buckets : List (List Int)) (arr : List Int) (index : Nat),
    index + buckets.flatten.length ≤ arr.length →
    radixWriteAll buckets arr index =
      some (arr.take index ++ buckets.flatten ++ arr.drop (index + buckets.flatten.length),
        index + buckets.flatten.length)
  | [], arr, index, _ => by
    simp [radixWriteAll]
  | bucket :: rest, arr, index, h => by
    simp only [List.flatten_cons, List.length_append] at h
    have h1 := radixWrite_spec bucket arr index (by omega)
    have ih := radixWriteAll_spec rest
      (arr.take index ++ bucket ++ arr.drop (index + bucket.length)) (index + bucket.length)
      (by simp only [List.length_append, List.length_take, List.length_drop]; omega)
    simp only [radixWriteAll, h1, ih]
    have ht : (arr.take index ++ bucket ++ arr.drop (index + bucket.length)).take
        (index + bucket.length) = arr.take index ++ bucket := by
      apply List.take_left'
      simp only [List.length_append, List.length_take]
      omega
    have hd : (arr.take index ++ bucket ++ arr.drop (index + bucket.length)).drop
        (index + bucket.length + rest.flatten.length) =
        arr.drop (index + (bucket.length + rest.flatten.length)) := by
      have hl : (arr.take index ++ bucket).length = index + bucket.length := by
        simp only [List.length_append, List.length_take]
        omega
      rw [← hl, List.drop_append, List.drop_drop]
      congr 1
      omega
    rw [ht, hd]
    simp only [List.flatten_cons, List.length_append, List.append_assoc]
    congr 2
    omega

theorem radixDigit_eq {x : Int} (hx : 0 ≤ x) (i : Nat) : radixDigit x i = x / 10 ^ i % 10 := by
  have hp : (0 : Int) ≤ 10 ^ i := by positivity
  unfold radixDigit
  rw [Int.tdiv_eq_ediv hx hp, Int.tmod_eq_emod (Int.ediv_nonneg hx hp) (by decide)]

theorem radixDigit_range {x : Int} (hx : 0 ≤ x) (i : Nat) :
    0 ≤ radixDigit x i ∧ radixDigit x i < 10 := by
  rw [radixDigit_eq hx]
  omega

theorem radixFill_spec (i : Nat) : ∀ (nums : List Int) (buckets : List (List Int)),
    buckets.length = 10 → (∀ x ∈ nums, 0 ≤ x) →
    ∃ out, radixFill i nums buckets = some out ∧ out.length = 10 ∧
      ∀ d : Nat, d < 10 → out[d]?.getD [] =
        buckets[d]?.getD [] ++ nums.filter (fun x => decide (radixDigit x i = (d : Int)))
  | [], buckets, hlen, _ => ⟨buckets, rfl, hlen, fun d _ => by simp⟩
  | num :: rest, buckets, hlen, hpos => by
    obtain ⟨h0, h10⟩ := radixDigit_range (hpos num (List.mem_cons_self _ _)) i
    have hlt : (radixDigit num i).toNat < buckets.length := by omega
    obtain ⟨out, e, olen, hout⟩ := radixFill_spec i rest
      (buckets.set (radixDigit num i).toNat (buckets[(radixDigit num i).toNat] ++ [num]))
      (by simp [hlen]) (fun x hx => hpos x (List.mem_cons_of_mem _ hx))
    refine ⟨out, ?_, olen, ?_⟩
    · have hst : (0 ≤ radixDigit num i ∧ radixDigit num i < (buckets.length : Int)) := by omega
      simp only [radixFill, index, if_pos h0, List.getElem?_eq_getElem hlt, store, if_pos hst, e]
    · intro d hd
      rw [hout d hd, List.getElem?_set]
      by_cases hdd : (radixDigit num i).toNat = d
      · have hdi : radixDigit num i = (d : Int) := by omega
        simp [hdd, hdi, hlen, hd, List.getElem?_eq_getElem]
      · have hdi : ¬ radixDigit num i = (d : Int) := by omega
        simp [hdd, hdi]

theorem radixFill_eq (i : Nat) (nums : List Int) (hpos : ∀ x ∈ nums, 0 ≤ x) :
    radixFill i nums (List.replicate 10 []) = some (bucketsOf i nums) := by
  obtain ⟨out, e, olen, hout⟩ := radixFill_spec i nums (List.replicate 10 []) (by simp) hpos
  rw [e]
  congr 1
  apply List.ext_getElem?
  intro d
  by_cases hd : d < 10
  · have h1 := hout d hd
    have hb : (bucketsOf i nums)[d]? =
        some (nums.filter (fun x => decide (radixDigit x i = (d : Int)))) := by
      simp [bucketsOf, List.getElem?_map, List.getElem?_range hd]
    have hr : (List.replicate 10 ([] : List Int))[d]?.getD [] = [] := by
      rw [List.getElem?_replicate, if_pos hd]
      rfl
    rw [hr, List.getElem?_eq_getElem (by omega), Option.getD_some, List.nil_append] at h1
    rw [hb, List.getElem?_eq_getElem (by omega), h1]
  · rw [List.getElem?_eq_none (by omega), List.getElem?_eq_none (by simp [bucketsOf]; omega)]

theorem filter_disjoint_perm (p q : Int → Bool) (hpq : ∀ x, ¬ (p x = true ∧ q x = true)) :
    ∀ l : List Int, (l.filter p ++ l.filter q).Perm (l.filter (fun x => p x || q x))
  | [] => by simp
  | x :: l => by
    have ih := filter_disjoint_perm p q hpq l
    have h := hpq x
    cases hp : p x <;> cases hq : q x
    · simpa [List.filter_cons, hp, hq] using ih
    · simp only [List.filter_cons, hp, hq, Bool.false_or, if_true, Bool.false_eq_true, if_false]
      exact List.perm_middle.trans (ih.cons x)
    · simp only [List.filter_cons, hp, hq, Bool.or_false, if_true, Bool.false_eq_true, if_false,
        List.cons_append]
      exact ih.cons x
    · exact absurd ⟨hp, hq⟩ h

theorem flatten_buckets_perm (f : Int → Int) (l : List Int) : ∀ k : Nat,
    ((List.range k).map (fun (d : Nat) => l.filter (fun x => decide (f x = (d : Int))))).flatten.Perm
      (l.filter (fun x => decide (0 ≤ f x ∧ f x < (k : Int))))
  | 0 => by
    have : l.filter (fun x => decide (0 ≤ f x ∧ f x < ((0 : Nat) : Int))) = [] := by
      apply List.filter_eq_nil_iff.2
      intro x _
      simp only [decide_eq_true_eq]
      omega
    rw [this]
    simp
  | k + 1 => by
    have ih := flatten_buckets_perm f l k
    rw [List.range_succ, List.map_append, List.flatten_append]
    simp only [List.map_cons, List.map_nil, List.flatten_cons, List.flatten_nil, List.append_nil]
    refine (ih.append_right _).trans ?_
    refine (filter_disjoint_perm _ _ ?_ l).trans ?_
    · intro x
      simp only [decide_eq_true_eq]
      omega
    · apply List.Perm.of_eq
      apply List.filter_congr
      intro x _
      rw [← Bool.decide_or, decide_eq_decide]
      push_cast
      omega

theorem bucketsOf_perm (i : Nat) (nums : List Int) (hpos : ∀ x ∈ nums, 0 ≤ x) :
    (bucketsOf i nums).flatten.Perm nums := by
  refine (flatten_buckets_perm (fun x => radixDigit x i) nums 10).trans ?_
  apply List.Perm.of_eq
  apply List.filter_eq_self.2
  intro x hx
  have := radixDigit_range (hpos x hx) i
  simp only [decide_eq_true_eq]
  push_cast
  omega

theorem emod_pow_succ {x : Int} (hx : 0 ≤ x) (i : Nat) :
    x % 10 ^ (i + 1) = x % 10 ^ i + 10 ^ i * radixDigit x i := by
  rw [radixDigit_eq hx]
  obtain ⟨n, rfl⟩ := Int.eq_ofNat_of_zero_le hx
  have := @Nat.mod_pow_succ n 10 i
  exact_mod_cast this

theorem bucketsOf_sorted (i : Nat) (nums : List Int) (hpos : ∀ x ∈ nums, 0 ≤ x)
    (hs : nums.Pairwise (fun a b => a % 10 ^ i ≤ b % 10 ^ i)) :
    (bucketsOf i nums).flatten.Pairwise (fun a b => a % 10 ^ (i + 1) ≤ b % 10 ^ (i + 1)) := by
  rw [List.pairwise_flatten]
  constructor
  · intro l hl
    simp only [bucketsOf, List.mem_map, List.mem_range] at hl
    obtain ⟨d, _, rfl⟩ := hl
    refine (hs.filter _).imp_of_mem ?_
    intro a b ha hb hab
    simp only [List.mem_filter, decide_eq_true_eq] at ha hb
    rw [emod_pow_succ (hpos a ha.1), emod_pow_succ (hpos b hb.1), ha.2, hb.2]
    linarith
  · unfold bucketsOf
    rw [List.pairwise_map]
    refine (List.pairwise_lt_range 10).imp ?_
    intro d1 d2 hlt x hx y hy
    simp only [List.mem_filter, decide_eq_true_eq] at hx hy
    rw [emod_pow_succ (hpos x hx.1), emod_pow_succ (hpos y hy.1), hx.2, hy.2]
    have hp : (0 : Int) < 10 ^ i := by positivity
    have h1 : x % 10 ^ i < 10 ^ i := Int.emod_lt_of_pos _ hp
    have h2 : 0 ≤ y % 10 ^ i := Int.emod_nonneg _ (ne_of_gt hp)
    have h3 : (10 : Int) ^ i * ((d1 : Int) + 1) ≤ 10 ^ i * (d2 : Int) :=
      mul_le_mul_of_nonneg_left (by exact_mod_cast hlt) hp.le
    linarith

theorem radixPasses_spec : ∀ (passes i : Nat) (l : List Int), (∀ x ∈ l, 0 ≤ x) →
    l.Pairwise (fun a b => a % 10 ^ i ≤ b % 10 ^ i) →
    ∃ out, radixPasses passes i l = some out ∧ out.Perm l ∧
      out.Pairwise (fun a b => a % 10 ^ (i + passes) ≤ b % 10 ^ (i + passes))
  | 0, i, l, _, hs => ⟨l, rfl, List.Perm.refl _, hs⟩
  | passes + 1, i, l, hpos, hs => by
    have hperm := bucketsOf_perm i l hpos
    have hlen := hperm.length_eq
    have hw := radixWriteAll_spec (bucketsOf i l) l 0 (by omega)
    simp only [List.take_zero, List.nil_append, Nat.zero_add, hlen, List.drop_length,
      List.append_nil] at hw
    obtain ⟨out, e, p, s⟩ := radixPasses_spec passes (i + 1) (bucketsOf i l).flatten
      (fun x hx => hpos x (hperm.subset hx)) (bucketsOf_sorted i l hpos hs)
    refine ⟨out, ?_, p.trans hperm, ?_⟩
    · simp only [radixPasses, radixFill_eq i l hpos, hw, e]
    · rw [show i + (passes + 1) = i + 1 + passes from by omega]
      exact s

theorem radixSort_spec (l : List Int) (maxDigs : Int)
    (hl : ∀ x ∈ l, 0 ≤ x ∧ x < 10 ^ maxDigs.toNat) :
    ∃ out, radixSort l maxDigs = some out ∧ out.Perm l ∧ out.Pairwise (· ≤ ·) := by
  obtain ⟨out, e, p, s⟩ := radixPasses_spec maxDigs.toNat 0 l (fun x hx => (hl x hx).1)
    (List.pairwise_of_forall (fun a b => by simp))
  refine ⟨out, e, p, s.imp_of_mem ?_⟩
  intro a b ha hb hab
  obtain ⟨a0, a1⟩ := hl a (p.subset ha)
  obtain ⟨b0, b1⟩ := hl b (p.subset hb)
  rw [Nat.zero_add] at hab
  rwa [Int.emod_eq_of_lt a0 a1, Int.emod_eq_of_lt b0 b1] at hab

theorem radixMaxLoop_spec : ∀ (l : List Int) (max : Int),
    (∀ x ∈ l, -9223372036854775808 < x ∧ x ≤ 9223372036854775807) →
    max ≤ radixMaxLoop l max ∧ ∀ x ∈ l, x ≤ radixMaxLoop l max ∧ -x ≤ radixMaxLoop l max
  | [], max, _ => ⟨le_refl _, fun x hx => by simp at hx⟩
  | num :: rest, max, hb => by
    obtain ⟨b1, b2⟩ := hb num (List.mem_cons_self _ _)
    have hw : wrapInt (-num) = -num := wrapInt_of_range (by omega) (by omega)
    obtain ⟨ih1, ih2⟩ := radixMaxLoop_spec rest
      (if (if num < 0 then wrapInt (-num) else num) > max then
        (if num < 0 then wrapInt (-num) else num) else max)
      (fun x hx => hb x (List.mem_cons_of_mem _ hx))
    simp only [radixMaxLoop]
    rw [hw] at ih1 ih2 ⊢
    refine ⟨?_, ?_⟩
    · split_ifs at ih1 ⊢ <;> omega
    · intro x hx
      rcases List.mem_cons.1 hx with rfl | hx
      · split_ifs at ih1 ⊢ <;> omega
      · exact ih2 x hx

theorem radixSplit_spec : ∀ (l negativeArr nonNegativeArr : List Int),
    (∀ x ∈ l, -9223372036854775808 < x ∧ x ≤ 9223372036854775807) →
    radixSplit l negativeArr nonNegativeArr =
      (negativeArr ++ (l.filter (fun x => decide (x < 0))).map (fun x => -x),
        nonNegativeArr ++ l.filter (fun x => !decide (x < 0)))
  | [], negativeArr, nonNegativeArr, _ => by simp [radixSplit]
  | num :: rest, negativeArr, nonNegativeArr, hb => by
    obtain ⟨b1, b2⟩ := hb num (List.mem_cons_self _ _)
    have hw : wrapInt (-num) = -num := wrapInt_of_range (by omega) (by omega)
    have ih := fun a b => radixSplit_spec rest a b (fun x hx => hb x (List.mem_cons_of_mem _ hx))
    by_cases hn : num < 0
    · simp [radixSplit, hn, ih, hw, List.filter_cons]
    · simp [radixSplit, hn, ih, List.filter_cons]

theorem RadixGetLength_bound (nanLen : Int) {max : Int} (hmax : 0 ≤ max) {x : Int}
    (hx : x ≤ max) : x < 10 ^ (RadixGetLength nanLen max).toNat := by
  unfold RadixGetLength
  by_cases h0 : max = 0
  · rw [if_pos h0]
    have : (1 : Int).toNat = 1 := rfl
    rw [this]
    omega
  · rw [if_neg h0, if_neg (by omega)]
    have h := Nat.lt_pow_succ_log_self (by decide : 1 < 10) max.toNat
    have e : ((Nat.log 10 max.toNat : Int) + 1).toNat = (Nat.log 10 max.toNat).succ := by omega
    rw [e]
    have hm : max = (max.toNat : Int) := (Int.toNat_of_nonneg hmax).symm
    have h2 : ((max.toNat : Nat) : Int) < 10 ^ (Nat.log 10 max.toNat).succ := by exact_mod_cast h
    omega

theorem radixWrite_both (negOut posS arr : List Int)
    (h : negOut.length + posS.length = arr.length) :
    ∃ arr1 k, radixWrite negOut arr 0 = some (arr1, k) ∧
      ∃ k2, radixWrite posS arr1 k = some (negOut ++ posS, k2) := by
  have w1 := radixWrite_spec negOut arr 0 (by omega)
  simp only [List.take_zero, List.nil_append, Nat.zero_add] at w1
  refine ⟨_, _, w1, ?_⟩
  have hl : (negOut ++ arr.drop negOut.length).length = arr.length := by
    simp only [List.length_append, List.length_drop]
    omega
  have w2 := radixWrite_spec posS (negOut ++ arr.drop negOut.length) negOut.length (by omega)
  refine ⟨negOut.length + posS.length, ?_⟩
  rw [w2, List.take_left' rfl, List.drop_eq_nil_of_le (by omega), List.append_nil]

theorem RadixSort_spec (nanLen : Int) (arr : List Int) (hne : arr ≠ [])
    (hb : ∀ x ∈ arr, -9223372036854775808 < x ∧ x ≤ 9223372036854775807) :
    ∃ out, RadixSort nanLen arr = some out ∧ out.Sorted (· ≤ ·) ∧ out.Perm arr := by
  obtain ⟨a0, rest, harr⟩ := List.exists_cons_of_ne_nil hne
  have hidx : index arr 0 = some a0 := by
    rw [harr]
    simp [index]
  obtain ⟨_, m2⟩ := radixMaxLoop_spec arr a0 hb
  have hmax0 : 0 ≤ radixMaxLoop arr a0 := by
    have := m2 a0 (by rw [harr]; exact List.mem_cons_self _ _)
    omega
  have hlenE : RadixGetMaxLength nanLen arr =
      some (RadixGetLength nanLen (radixMaxLoop arr a0)) := by
    simp only [RadixGetMaxLength, hidx]
  have hsplit := radixSplit_spec arr [] [] hb
  simp only [List.nil_append] at hsplit
  obtain ⟨negS, en, pn, sn⟩ := radixSort_spec
    ((arr.filter (fun x => decide (x < 0))).map (fun x => -x))
    (RadixGetLength nanLen (radixMaxLoop arr a0)) (by
      intro y hy
      simp only [List.mem_map, List.mem_filter, decide_eq_true_eq] at hy
      obtain ⟨x, ⟨hx, hx0⟩, rfl⟩ := hy
      exact ⟨by omega, RadixGetLength_bound nanLen hmax0 (m2 x hx).2⟩)
  obtain ⟨posS, ep, pp, sp⟩ := radixSort_spec (arr.filter (fun x => !decide (x < 0)))
    (RadixGetLength nanLen (radixMaxLoop arr a0)) (by
      intro y hy
      simp only [List.mem_filter, Bool.not_eq_true', decide_eq_false_iff_not] at hy
      exact ⟨by omega, RadixGetLength_bound nanLen hmax0 (m2 y hy.1).1⟩)
  have hnegmem : ∀ y ∈ negS, 0 < y ∧ wrapInt (-y) = -y ∧ -y ∈ arr := by
    intro y hy
    have hy2 := pn.subset hy
    simp only [List.mem_map, List.mem_filter, decide_eq_true_eq] at hy2
    obtain ⟨x, ⟨hx, hx0⟩, rfl⟩ := hy2
    obtain ⟨b1, b2⟩ := hb x hx
    refine ⟨by omega, wrapInt_of_range (by omega) (by omega), ?_⟩
    rw [neg_neg]
    exact hx
  have hmap : negS.map (fun num => wrapInt (-num)) = negS.map (fun num => -num) :=
    List.map_congr_left (fun y hy => (hnegmem y hy).2.1)
  have hnegperm : (negS.reverse.map (fun num => wrapInt (-num))).Perm
      (arr.filter (fun x => decide (x < 0))) := by
    rw [List.map_reverse, hmap]
    refine (List.reverse_perm _).trans ?_
    refine (pn.map _).trans ?_
    rw [List.map_map]
    apply List.Perm.of_eq
    conv_rhs => rw [← List.map_id (arr.filter (fun x => decide (x < 0)))]
    apply List.map_congr_left
    intro x _
    simp
  have hperm : (negS.reverse.map (fun num => wrapInt (-num)) ++ posS).Perm arr :=
    (hnegperm.append pp).trans (List.filter_append_perm _ arr)
  have hlen : (negS.reverse.map (fun num => wrapInt (-num))).length + posS.length =
      arr.length := by
    rw [← List.length_append]
    exact hperm.length_eq
  obtain ⟨arr1, k, w1, k2, w2⟩ := radixWrite_both _ posS arr hlen
  refine ⟨_, ?_, ?_, hperm⟩
  · simp only [RadixSort, hlenE, hsplit, en, ep, w1, w2]
  · unfold List.Sorted
    rw [List.pairwise_append]
    refine ⟨?_, sp, ?_⟩
    · rw [List.pairwise_map, List.pairwise_reverse]
      refine sn.imp_of_mem ?_
      intro a b ha hb2 hab
      rw [(hnegmem a ha).2.1, (hnegmem b hb2).2.1]
      omega
    · intro a ha b hb2
      simp only [List.mem_map, List.mem_reverse] at ha
      obtain ⟨y, hy, rfl⟩ := ha
      have h1 := hnegmem y hy
      have h2 := pp.subset hb2
      simp only [List.mem_filter, Bool.not_eq_true', decide_eq_false_iff_not] at h2
      rw [h1.2.1]
      omega

end Algorithms

/-! The max-heap. -/

namespace Maxheap

open Algorithms

theorem swapAt_length {arr out : List Int} {i j : Nat} (h : swapAt arr i j = some out) :
    out.length = arr.length := by
  unfold swapAt at h
  split at h
  · cases h
    simp
  · cases h

theorem PercolateDown_eq_heapify : ∀ (fuel : Nat) (heap : List Int) (index : Nat),
    PercolateDown fuel heap index = heapify fuel heap heap.length index := by
  intro fuel
  induction fuel with
  | zero => intro heap index; rfl
  | succ fuel ih =>
    intro heap index
    simp only [PercolateDown, heapify]
    cases h1 : pickLarger heap heap.length (2 * index + 1) index with
    | none => rfl
    | some m1 =>
      simp only []
      cases h2 : pickLarger heap heap.length (2 * index + 2) m1 with
      | none => rfl
      | some m =>
        simp only []
        by_cases hm : m = index
        · simp [hm]
        · simp only [if_neg hm, ne_eq, hm, not_false_eq_true, if_true]
          cases h3 : swapAt heap index m with
          | none => rfl
          | some heap1 =>
            simp [ih heap1 m, swapAt_length h3]

/-- One step of a sift-up: after exchanging node `c` with its smaller parent `p`, the
sift-up may go on from `p`. -/
theorem up_step (f g : Nat → Int) (n c p : Nat) (hp : c = 2 * p + 1 ∨ c = 2 * p + 2)
    (hcn : c < n) (hlt : f p < f c)
    (hg : ∀ k, g k = if k = p then f c else if k = c then f p else f k)
    (hpre : UpPre f n c) : UpPre g n p := by
  obtain ⟨hp1, hp2⟩ := hpre
  constructor
  · intro j q hjn hjq hjp
    have h1 := hp1 j q hjn hjq
    have h2 := hp2 j p hjn
    have h3 := hp1 p
    simp only [hg]
    split_ifs with a1 a2 a3 a4 a5 a6
    all_goals first
      | contradiction
      | omega
      | (subst_vars; omega)
  · intro j pp hjn hjp hpp
    have h1 := hp1 j p hjn
    have h3 := hp1 p pp (by omega) hpp (by omega)
    simp only [hg]
    split_ifs with a1 a2 a3 a4 a5 a6
    all_goals first
      | contradiction
      | omega

theorem PercolateUp_spec : ∀ (fuel : Nat) (heap : List Int) (c : Nat), c < heap.length →
    UpPre (nth heap) heap.length c → c < fuel →
    ∃ out, PercolateUp fuel heap c = some out ∧ out.length = heap.length ∧ out.Perm heap ∧
      ∀ j q, j < heap.length → (j = 2 * q + 1 ∨ j = 2 * q + 2) → nth out j ≤ nth out q := by
  intro fuel
  induction fuel with
  | zero => intro heap c _ _ hf; omega
  | succ fuel ih =>
    intro heap c hc hpre hf
    by_cases hc0 : c > 0
    · have hpar : c = 2 * ((c - 1) / 2) + 1 ∨ c = 2 * ((c - 1) / 2) + 2 := by omega
      have hplen : (c - 1) / 2 < heap.length := by omega
      simp only [PercolateUp, if_pos hc0, getElem?_eq_nth hc, getElem?_eq_nth hplen]
      by_cases hle : nth heap c ≤ nth heap ((c - 1) / 2)
      · refine ⟨heap, by simp only [if_pos hle], rfl, List.Perm.refl _, ?_⟩
        intro j q hj hjq
        by_cases hjc : j = c
        · subst hjc
          have : q = (j - 1) / 2 := by omega
          subst this
          exact hle
        · exact hpre.1 j q hj hjq hjc
      · obtain ⟨heap1, e1, len1, p1, v1⟩ := @swapAt_spec heap c ((c - 1) / 2) hc hplen
        have hpre1 : UpPre (nth heap1) heap1.length ((c - 1) / 2) := by
          rw [len1]
          exact up_step (nth heap) (nth heap1) heap.length c ((c - 1) / 2) hpar hc (by omega)
            v1 hpre
        obtain ⟨out, e2, len2, p2, h2⟩ := ih heap1 ((c - 1) / 2) (by omega) hpre1 (by omega)
        refine ⟨out, by simp only [if_neg hle, e1, e2], by omega, p2.trans p1, ?_⟩
        intro j q hj hjq
        exact h2 j q (by omega) hjq
    · have : c = 0 := by omega
      subst this
      refine ⟨heap, by simp [PercolateUp], rfl, List.Perm.refl _, ?_⟩
      intro j q hj hjq
      exact hpre.1 j q hj hjq (by omega)

theorem nth_append_left {l : List Int} {j : Nat} (x : Int) (h : j < l.length) :
    nth (l ++ [x]) j = nth l j := by
  simp [nth, List.getElem?_append_left h]

theorem nth_take {l : List Int} {j m : Nat} (h : j < m) : nth (l.take m) j = nth l j := by
  simp [nth, List.getElem?_take, h]

theorem Insert_isMaxHeap (h : MaxHeap) (value : Int) (hh : IsMaxHeap h.heap) :
    ∃ h1, h.Insert value = some h1 ∧ IsMaxHeap h1.heap := by
  have hpre : UpPre (nth (h.heap ++ [value])) (h.heap ++ [value]).length h.heap.length := by
    constructor
    · intro j q hj hjq hjc
      have hj2 : j < h.heap.length := by
        simp only [List.length_append, List.length_singleton] at hj
        omega
      rw [nth_append_left _ hj2, nth_append_left _ (by omega)]
      have hA := hh q
      unfold HeapAt at hA
      rcases hjq with rfl | rfl
      · exact hA.1 hj2
      · exact hA.2 hj2
    · intro j p hj hjc _
      simp only [List.length_append, List.length_singleton] at hj
      omega
  obtain ⟨out, e, len, _, ho⟩ := PercolateUp_spec (h.heap.length + 2) (h.heap ++ [value])
    h.heap.length (by simp) hpre (by omega)
  refine ⟨MaxHeap.mk out, by simp only [MaxHeap.Insert, e], ?_⟩
  intro i
  constructor
  · intro hi
    exact ho (2 * i + 1) i (by simpa [len] using hi) (Or.inl rfl)
  · intro hi
    exact ho (2 * i + 2) i (by simpa [len] using hi) (Or.inr rfl)

theorem Remove_isMaxHeap (h : MaxHeap) (hh : IsMaxHeap h.heap) :
    ∃ r h1, h.Remove = some (r, h1) ∧ IsMaxHeap h1.heap := by
  by_cases h0 : h.heap.length = 0
  · exact ⟨0, h, by simp only [MaxHeap.Remove, if_pos h0], hh⟩
  · have hpos : 0 < h.heap.length := by omega
    have hlast : h.heap.length - 1 < h.heap.length := by omega
    simp only [MaxHeap.Remove, if_neg h0, getElem?_eq_nth hpos, getElem?_eq_nth hlast,
      PercolateDown_eq_heapify]
    have hlen : ((h.heap.set 0 (nth h.heap (h.heap.length - 1))).take
        (h.heap.length - 1)).length = h.heap.length - 1 := by
      simp
    have hpre : SiftPre (nth ((h.heap.set 0 (nth h.heap (h.heap.length - 1))).take
        (h.heap.length - 1))) (h.heap.length - 1) 0 0 := by
      constructor
      · intro j _ hj0
        have hA := hh j
        unfold HeapAt at hA ⊢
        constructor
        · intro hch
          rw [nth_take hch, nth_take (by omega), nth_set _ _ _ _ hpos, nth_set _ _ _ _ hpos,
            if_neg (by omega), if_neg hj0]
          exact hA.1 (by omega)
        · intro hch
          rw [nth_take hch, nth_take (by omega), nth_set _ _ _ _ hpos, nth_set _ _ _ _ hpos,
            if_neg (by omega), if_neg hj0]
          exact hA.2 (by omega)
      · intro p _ hc
        omega
    obtain ⟨out, e, len, _, ho, _, _⟩ := heapify_spec (h.heap.length + 1) _ (h.heap.length - 1)
      0 0 (le_of_eq hlen.symm) (le_refl _) hpre (by omega)
    rw [hlen] at len ⊢
    refine ⟨nth h.heap 0, MaxHeap.mk out, by simp only [e], ?_⟩
    intro i
    have := ho i (Nat.zero_le _)
    rw [show (MaxHeap.mk out).heap.length = h.heap.length - 1 from len]
    exact this

theorem run_isMaxHeap : ∀ (calls : List Call) (h : MaxHeap), IsMaxHeap h.heap →
    ∃ h1, h.run calls = some h1 ∧ IsMaxHeap h1.heap := by
  intro calls
  induction calls with
  | nil => intro h hh; exact ⟨h, rfl, hh⟩
  | cons call rest ih =>
    intro h hh
    cases call with
    | insert value =>
      obtain ⟨h1, e1, hh1⟩ := Insert_isMaxHeap h value hh
      obtain ⟨h2, e2, hh2⟩ := ih h1 hh1
      exact ⟨h2, by simp only [MaxHeap.run, e1, e2], hh2⟩
    | remove =>
      obtain ⟨r, h1, e1, hh1⟩ := Remove_isMaxHeap h hh
      obtain ⟨h2, e2, hh2⟩ := ih h1 hh1
      exact ⟨h2, by simp only [MaxHeap.run, e1, e2], hh2⟩

theorem IsMaxHeap.root_largest {heap : List Int} (hh : IsMaxHeap heap) :
    ∀ x ∈ heap, x ≤ nth heap 0 := by
  intro x hx
  obtain ⟨n, hn, e⟩ := List.getElem_of_mem hx
  rw [← e, ← nth_eq_getElem hn]
  exact Algorithms.root_max (nth heap) heap.length hh n hn

end Maxheap

/-! The binary search tree. -/

namespace Binary

theorem insertNode_spec (value : Int) (t : Node) (ht : t ≠ .nil) :
    ∃ t1, insertNode t value = some t1 ∧ t1 ≠ .nil ∧
      (∀ x, x ∈ t1.values ↔ x = value ∨ x ∈ t.values) ∧ (t.Ordered → t1.Ordered) := by
  induction t with
  | nil => exact absurd rfl ht
  | node v l r ihl ihr =>
    by_cases h : value < v
    · by_cases hl : l = .nil
      · subst hl
        refine ⟨.node v (.node value .nil .nil) r, by simp [insertNode, h], by simp, ?_, ?_⟩
        · intro x
          simp [Node.values]
        · intro ho
          obtain ⟨_, h2, _, h4⟩ := ho
          exact ⟨by simp [Node.values, h], h2, ⟨by simp [Node.values], by simp [Node.values],
            trivial, trivial⟩, h4⟩
      · obtain ⟨l1, e1, _, m1, o1⟩ := ihl hl
        clear ihl ihr
        refine ⟨.node v l1 r, by simp [insertNode, h, hl, e1], by simp, ?_, ?_⟩
        · intro x
          simp only [Node.values, List.mem_append, List.mem_cons, m1]
          tauto
        · intro ho
          obtain ⟨h1, h2, h3, h4⟩ := ho
          refine ⟨?_, h2, o1 h3, h4⟩
          intro x hx
          rcases (m1 x).1 hx with rfl | hx
          · exact h
          · exact h1 x hx
    · by_cases hr : r = .nil
      · subst hr
        refine ⟨.node v l (.node value .nil .nil), by simp [insertNode, h], by simp, ?_, ?_⟩
        · intro x
          simp [Node.values]
          tauto
        · intro ho
          obtain ⟨h1, _, h3, _⟩ := ho
          refine ⟨h1, ?_, h3, ⟨by simp [Node.values], by simp [Node.values], trivial, trivial⟩⟩
          intro x hx
          simp [Node.values] at hx
          omega
      · obtain ⟨r1, e1, _, m1, o1⟩ := ihr hr
        clear ihl ihr
        refine ⟨.node v l r1, by simp [insertNode, h, hr, e1], by simp, ?_, ?_⟩
        · intro x
          simp only [Node.values, List.mem_append, List.mem_cons, m1]
          tauto
        · intro ho
          obtain ⟨h1, h2, h3, h4⟩ := ho
          refine ⟨h1, ?_, h3, o1 h4⟩
          intro x hx
          rcases (m1 x).1 hx with rfl | hx
          · omega
          · exact h2 x hx

theorem searchNode_iff (value : Int) (t : Node) (ht : t.Ordered) :
    searchNode t value = true ↔ value ∈ t.values := by
  induction t with
  | nil => simp [searchNode, Node.values]
  | node v l r ihl ihr =>
    obtain ⟨h1, h2, h3, h4⟩ := ht
    have il := ihl h3
    have ir := ihr h4
    clear ihl ihr
    simp only [searchNode, Node.values, List.mem_append, List.mem_cons]
    by_cases he : value = v
    · simp [he]
    · by_cases hlt : value < v
      · simp only [if_neg he, if_pos hlt, il]
        constructor
        · intro h; exact Or.inl h
        · rintro (h | h | h)
          · exact h
          · exact absurd h he
          · have := h2 value h
            omega
      · simp only [if_neg he, if_neg hlt, ir]
        constructor
        · intro h; exact Or.inr (Or.inr h)
        · rintro (h | h | h)
          · have := h1 value h
            omega
          · exact absurd h he
          · exact h

theorem bst_Insert_spec (t : Tree) (value : Int) :
    ∃ t1, t.Insert value = some t1 ∧
      (∀ x, x ∈ t1.Root.values ↔ x = value ∨ x ∈ t.Root.values) ∧
      (t.Root.Ordered → t1.Root.Ordered) := by
  by_cases h : t.Root = .nil
  · refine ⟨Tree.mk (.node value .nil .nil), by simp [Tree.Insert, h], ?_, ?_⟩
    · intro x
      simp [Node.values, h]
    · intro _
      exact ⟨by simp [Node.values], by simp [Node.values], trivial, trivial⟩
  · obtain ⟨r1, e1, _, m1, o1⟩ := insertNode_spec value t.Root h
    exact ⟨Tree.mk r1, by simp [Tree.Insert, h, e1], m1, o1⟩

theorem bst_InsertAll_spec : ∀ (values : List Int) (t : Tree), t.Root.Ordered →
    ∃ t1, t.InsertAll values = some t1 ∧ t1.Root.Ordered ∧
      ∀ x, x ∈ t1.Root.values ↔ x ∈ values ∨ x ∈ t.Root.values := by
  intro values
  induction values with
  | nil => intro t ht; exact ⟨t, rfl, ht, by simp⟩
  | cons value rest ih =>
    intro t ht
    obtain ⟨t1, e1, m1, o1⟩ := bst_Insert_spec t value
    obtain ⟨t2, e2, o2, m2⟩ := ih t1 (o1 ht)
    refine ⟨t2, by simp only [Tree.InsertAll, e1, e2], o2, ?_⟩
    intro x
    rw [m2, m1]
    simp only [List.mem_cons]
    tauto

end Binary

/-! The properties of the trees and the algorithms. -/

/-- C1: for every sequence of keys inserted into an empty AVL tree, every node of the
resulting tree satisfies `|height(Right) - height(Left)| ≤ 1` for the true subtree heights
(an absent child has height 0). -/
theorem avl_balance_invariant (keys : List Int) :
    ∃ t, AVL.Tree.empty.InsertAll keys = some t ∧ t.Root.Balanced := by
  obtain ⟨t, e, hi, _, _⟩ := AVL.insertAll_spec keys _ AVL.empty_inv.1 AVL.empty_inv.2
  exact ⟨t, e, hi.balanced⟩

/-- C2: for every sequence of keys inserted into an empty AVL tree, the in-order key sequence
of the resulting tree is strictly ascending, stores no key twice, and holds exactly the keys
that were inserted. -/
theorem avl_inorder_sorted_distinct (keys : List Int) :
    ∃ t, AVL.Tree.empty.InsertAll keys = some t ∧
      t.Root.inorder.Sorted (· < ·) ∧ t.Root.inorder.Nodup ∧
      ∀ x, x ∈ t.Root.inorder ↔ x ∈ keys := by
  obtain ⟨t, e, _, hs, hm⟩ := AVL.insertAll_spec keys _ AVL.empty_inv.1 AVL.empty_inv.2
  refine ⟨t, e, hs, hs.nodup, ?_⟩
  intro x
  simpa [AVL.Tree.empty] using hm x

/-- C8: for every sequence of keys inserted into an empty AVL tree, every node's cached
`height` equals `1 + max(Height(Left), Height(Right))`, is at least 1, and equals the true
height of the subtree rooted there. -/
theorem avl_cached_heights (keys : List Int) :
    ∃ t, AVL.Tree.empty.InsertAll keys = some t ∧ t.Root.HeightsCached := by
  obtain ⟨t, e, hi, _, _⟩ := AVL.insertAll_spec keys _ AVL.empty_inv.1 AVL.empty_inv.2
  exact ⟨t, e, hi.heightsCached⟩

/-- C9: for every AVL tree `t` built by `Insert` calls from the empty tree and every key `k`,
`Insert k` succeeds with some tree `t1`, a second `Insert k` returns exactly `t1` (same shape,
keys and cached heights), and when `k` was already inserted `t1` is `t` itself. -/
theorem avl_insert_duplicate_idempotent (keys : List Int) (k : Int) :
    ∃ t t1, AVL.Tree.empty.InsertAll keys = some t ∧ t.Insert k = some t1 ∧
      t1.Insert k = some t1 ∧ (k ∈ keys → t1 = t) := by
  obtain ⟨t, e, hi, hs, hm⟩ := AVL.insertAll_spec keys _ AVL.empty_inv.1 AVL.empty_inv.2
  obtain ⟨r1, e1, i1, _, m1, s1⟩ := AVL.insert_spec k t.Root hi
  have e2 := AVL.avl_insert_present k r1 i1 (s1 hs) ((m1 k).2 (Or.inl rfl))
  refine ⟨t, AVL.Tree.mk r1, e, by simp only [AVL.Tree.Insert, e1],
    by simp only [AVL.Tree.Insert, e2], ?_⟩
  intro hk
  have e3 := AVL.avl_insert_present k t.Root hi hs ((hm k).2 (Or.inl hk))
  rw [e3] at e1
  rw [← Option.some.inj e1]

/-- C9 at a concrete input: after inserting 30, 10, 20 the key 10 is already stored. -/
theorem avl_insert_duplicate_idempotent_witness :
    (10 : Int) ∈ [30, 10, 20] ∧
      ∃ t, AVL.Tree.empty.InsertAll [30, 10, 20] = some t ∧ t.Insert 10 = some t := by
  refine ⟨by decide, ?_⟩
  obtain ⟨t, t1, h1, h2, _, h4⟩ := avl_insert_duplicate_idempotent [30, 10, 20] 10
  have := h4 (by decide)
  subst this
  exact ⟨_, h1, h2⟩

/-- C3: for every sequence of values inserted into a new red-black tree, `InorderTraversal`
returns a strictly ascending sequence holding exactly the inserted values, each once (so the
empty sequence when nothing was inserted). -/
theorem rb_inorder_sorted_distinct (values : List Int) :
    ∃ t, RB.NewRedBlackTree.InsertAll values = some t ∧
      t.InorderTraversal.Sorted (· < ·) ∧ t.InorderTraversal.Nodup ∧
      ∀ x, x ∈ t.InorderTraversal ↔ x ∈ values := by
  obtain ⟨t, e, ⟨_, _, hs⟩, hm⟩ := RB.InsertAll_inv values _ RB.NewRedBlackTree_inv
  refine ⟨t, e, hs, hs.nodup, ?_⟩
  intro x
  simpa [RB.NewRedBlackTree] using hm x

/-- C4: for every sequence of values inserted into a new red-black tree, from every node of
the resulting tree all paths down to a nil child pass through the same number of black
nodes. -/
theorem rb_black_height_uniform (values : List Int) :
    ∃ t, RB.NewRedBlackTree.InsertAll values = some t ∧ t.Root.BlackUniform := by
  obtain ⟨t, e, ⟨hv, _, _⟩, _⟩ := RB.InsertAll_inv values _ RB.NewRedBlackTree_inv
  exact ⟨t, e, hv.blackUniform⟩

/-- C5: after `Insert` on any tree whatsoever (any shape and colouring, empty included) with
any value (duplicates included), the call succeeds and the root is a non-nil black node. -/
theorem rb_root_black_after_insert (t : RB.RedBlackTree) (value : Int) :
    ∃ v l r, t.Insert value = some (RB.RedBlackTree.mk (.node v l r RB.black)) := by
  obtain ⟨v1, l1, r1, c1, e1, _⟩ := RB.insert_total value t.Root
  exact ⟨v1, l1, r1, by simp [RB.RedBlackTree.Insert, e1]⟩

/-- C6: for every sequence of values inserted into a new red-black tree, no node of the
resulting tree has a red right child while its left child is nil or black. -/
theorem rb_no_right_leaning_red (values : List Int) :
    ∃ t, RB.NewRedBlackTree.InsertAll values = some t ∧ t.Root.NoRightLean := by
  obtain ⟨t, e, ⟨hv, _, _⟩, _⟩ := RB.InsertAll_inv values _ RB.NewRedBlackTree_inv
  exact ⟨t, e, hv.noRightLean⟩

/-- C7: for every sequence of values inserted into a new red-black tree, no red node of the
resulting tree has a red child, left or right. -/
theorem rb_no_red_red (values : List Int) :
    ∃ t, RB.NewRedBlackTree.InsertAll values = some t ∧ t.Root.NoRedRed := by
  obtain ⟨t, e, ⟨hv, _, _⟩, _⟩ := RB.InsertAll_inv values _ RB.NewRedBlackTree_inv
  exact ⟨t, e, hv.noRedRed⟩

/-- C10: for every red-black tree `t` built by `Insert` calls from the new tree and every
value `v`, `Insert v` succeeds with some tree `t1`, a second `Insert v` returns exactly `t1`
(same shape, values and colours), and when `v` was already inserted `t1` is `t` itself. -/
theorem rb_insert_duplicate_idempotent (values : List Int) (v : Int) :
    ∃ t t1, RB.NewRedBlackTree.InsertAll values = some t ∧ t.Insert v = some t1 ∧
      t1.Insert v = some t1 ∧ (v ∈ values → t1 = t) := by
  obtain ⟨t, e, ht, hm⟩ := RB.InsertAll_inv values _ RB.NewRedBlackTree_inv
  obtain ⟨t1, e1, ht1, hm1⟩ := RB.Insert_inv t v ht
  refine ⟨t, t1, e, e1, RB.Insert_stored t1 v ht1 ((hm1 v).2 (Or.inl rfl)), ?_⟩
  intro hv
  have := RB.Insert_stored t v ht ((hm v).2 (Or.inl hv))
  rw [this] at e1
  exact (Option.some.inj e1).symm

/-- C10 at a concrete input: after inserting 3, 1, 2 the value 2 is already stored. -/
theorem rb_insert_duplicate_idempotent_witness :
    (2 : Int) ∈ [3, 1, 2] ∧
      ∃ t, RB.NewRedBlackTree.InsertAll [3, 1, 2] = some t ∧ t.Insert 2 = some t := by
  refine ⟨by decide, ?_⟩
  obtain ⟨t, t1, h1, h2, _, h4⟩ := rb_insert_duplicate_idempotent [3, 1, 2] 2
  have := h4 (by decide)
  subst this
  exact ⟨_, h1, h2⟩

/-- C11: for every AVL node with a right child whose cached heights are accurate,
`rotateLeft` followed by `rotateRight` on the result returns the original node unchanged:
same shape, same keys, same cached height on every node. -/
theorem avl_rotateLeft_rotateRight (k : Int) (l : AVL.Node) (rk : Int) (rl rr : AVL.Node)
    (rh h : Int) (ha : (AVL.Node.node k l (.node rk rl rr rh) h).HeightsAccurate) :
    (AVL.Node.node k l (.node rk rl rr rh) h).rotateLeft.bind AVL.Node.rotateRight =
      some (.node k l (.node rk rl rr rh) h) := by
  obtain ⟨hh, _, hrh, _, _⟩ := ha
  simp only [AVL.Node.Height_node] at hh
  simp only [AVL.Node.rotateLeft, AVL.Node.rotateRight, Option.some_bind, AVL.Node.Height_node]
  have e1 : max rl.Height rr.Height + 1 = rh := by omega
  rw [e1]
  have e2 : max l.Height rh + 1 = h := by omega
  rw [e2]

/-- C11 at a concrete input: the node 1 with right child 2. -/
theorem avl_rotateLeft_rotateRight_witness :
    (AVL.Node.node 1 .nil (.node 2 .nil .nil 1) 2).HeightsAccurate ∧
      (AVL.Node.node 1 .nil (.node 2 .nil .nil 1) 2).rotateLeft.bind AVL.Node.rotateRight =
        some (.node 1 .nil (.node 2 .nil .nil 1) 2) :=
  ⟨by decide, avl_rotateLeft_rotateRight 1 .nil 2 .nil .nil 1 2 (by decide)⟩

/-- C12 fails as stated: on the black node 1 whose right child 2 is black, `rotateLeft`
followed by `rotateRight` returns the same shape and values but the right child is now red. -/
theorem rb_rotate_roundtrip_counterexample :
    (RB.rotateLeft (.node 1 .nil (.node 2 .nil .nil RB.black) RB.black)).bind RB.rotateRight =
        some (.node 1 .nil (.node 2 .nil .nil RB.red) RB.black) ∧
      (RB.rotateLeft (.node 1 .nil (.node 2 .nil .nil RB.black) RB.black)).bind RB.rotateRight ≠
        some (.node 1 .nil (.node 2 .nil .nil RB.black) RB.black) := by
  decide

/-- C12 as amended: for every red-black node with a non-nil right child, `rotateLeft`
followed by `rotateRight` restores the shape, the values and every colour except that the
right child comes back red; the result is the original node exactly when its right child
was red. -/
theorem rb_rotate_roundtrip (v : Int) (l : RB.Node) (xv : Int) (xl xr : RB.Node) (xc c : Bool) :
    (RB.rotateLeft (.node v l (.node xv xl xr xc) c)).bind RB.rotateRight =
        some (.node v l (.node xv xl xr RB.red) c) ∧
      ((RB.rotateLeft (.node v l (.node xv xl xr xc) c)).bind RB.rotateRight =
        some (.node v l (.node xv xl xr xc) c) ↔ xc = RB.red) := by
  constructor
  · rfl
  · simp [RB.rotateLeft, RB.rotateRight]

/-- C13: each of the four rotations, applied to a node that has the child it needs, succeeds
and returns a tree with the same in-order key sequence as its input. -/
theorem rotations_preserve_inorder :
    (∀ (k : Int) (l : AVL.Node) (rk : Int) (rl rr : AVL.Node) (rh h : Int),
      ∃ t, (AVL.Node.node k l (.node rk rl rr rh) h).rotateLeft = some t ∧
        t.inorder = (AVL.Node.node k l (.node rk rl rr rh) h).inorder) ∧
    (∀ (k lk : Int) (ll lr r : AVL.Node) (lh h : Int),
      ∃ t, (AVL.Node.node k (.node lk ll lr lh) r h).rotateRight = some t ∧
        t.inorder = (AVL.Node.node k (.node lk ll lr lh) r h).inorder) ∧
    (∀ (v : Int) (l : RB.Node) (xv : Int) (xl xr : RB.Node) (xc c : Bool),
      ∃ t, RB.rotateLeft (.node v l (.node xv xl xr xc) c) = some t ∧
        RB.inorder t [] = RB.inorder (.node v l (.node xv xl xr xc) c) []) ∧
    (∀ (v xv : Int) (xl xr r : RB.Node) (xc c : Bool),
      ∃ t, RB.rotateRight (.node v (.node xv xl xr xc) r c) = some t ∧
        RB.inorder t [] = RB.inorder (.node v (.node xv xl xr xc) r c) []) := by
  refine ⟨?_, ?_, ?_, ?_⟩
  · intro k l rk rl rr rh h
    exact ⟨_, rfl, by simp⟩
  · intro k lk ll lr r lh h
    exact ⟨_, rfl, by simp⟩
  · intro v l xv xl xr xc c
    exact ⟨_, rfl, by simp⟩
  · intro v xv xl xr r xc c
    exact ⟨_, rfl, by simp⟩

/-- C14: any three distinct keys `a < b < c`, inserted into an empty AVL tree in any of the six
orders, give the tree with root `b` (height 2), left child `a` (height 1), right child `c`
(height 1) and no other node. -/
theorem avl_three_keys (a b c : Int) (hab : a < b) (hbc : b < c) (ks : List Int)
    (hp : ks.Perm [a, b, c]) :
    AVL.Tree.empty.InsertAll ks =
      some (AVL.Tree.mk (.node b (.node a .nil .nil 1) (.node c .nil .nil 1) 2)) := by
  have hac : a < c := by omega
  have nba : ¬ b < a := by omega
  have ncb : ¬ c < b := by omega
  have nca : ¬ c < a := by omega
  rcases perm_three hp with rfl | rfl | rfl | rfl | rfl | rfl <;>
    simp [AVL.Tree.InsertAll, AVL.Tree.Insert, AVL.Tree.empty, AVL.insert, AVL.NewNode,
      AVL.Node.rebalance, AVL.balGuard, AVL.Node.rotateLeft, AVL.Node.rotateRight,
      AVL.Node.rotateLeftRight, AVL.Node.rotateRightLeft, AVL.Node.updateHeight,
      hab, hbc, hac, nba, ncb, nca]

/-- C14 at the three orders named by the scenarios. -/
theorem avl_three_keys_witness :
    ((10 : Int) < 20 ∧ (20 : Int) < 30) ∧
    AVL.Tree.empty.InsertAll [10, 20, 30] =
      some (AVL.Tree.mk (.node 20 (.node 10 .nil .nil 1) (.node 30 .nil .nil 1) 2)) ∧
    AVL.Tree.empty.InsertAll [30, 20, 10] =
      some (AVL.Tree.mk (.node 20 (.node 10 .nil .nil 1) (.node 30 .nil .nil 1) 2)) ∧
    AVL.Tree.empty.InsertAll [30, 10, 20] =
      some (AVL.Tree.mk (.node 20 (.node 10 .nil .nil 1) (.node 30 .nil .nil 1) 2)) :=
  ⟨by decide,
    avl_three_keys 10 20 30 (by decide) (by decide) [10, 20, 30] (List.Perm.refl _),
    avl_three_keys 10 20 30 (by decide) (by decide) [30, 20, 10] (by decide),
    avl_three_keys 10 20 30 (by decide) (by decide) [30, 10, 20] (by decide)⟩

/-- C15: any three distinct values `a < b < c`, inserted into a new red-black tree in any
order, give the tree with root `b`, left child `a`, right child `c`, no other node, and all
three nodes black. -/
theorem rb_three_values (a b c : Int) (hab : a < b) (hbc : b < c) (vs : List Int)
    (hp : vs.Perm [a, b, c]) :
    RB.NewRedBlackTree.InsertAll vs =
      some (RB.RedBlackTree.mk
        (.node b (.node a .nil .nil RB.black) (.node c .nil .nil RB.black) RB.black)) := by
  have hac : a < c := by omega
  have nba : ¬ b < a := by omega
  have ncb : ¬ c < b := by omega
  have nca : ¬ c < a := by omega
  rcases perm_three hp with rfl | rfl | rfl | rfl | rfl | rfl <;>
    simp [RB.RedBlackTree.InsertAll, RB.RedBlackTree.Insert, RB.NewRedBlackTree, RB.insert_nil,
      RB.insert_node, RB.fixup_noop, RB.fixup_rotateLeft, RB.fixup_rotateRight, RB.fixup_flip,
      RB.leftRed, hab, hbc, hac, nba, ncb, nca]

/-- C15 at the order named by the scenario. -/
theorem rb_three_values_witness :
    ((10 : Int) < 20 ∧ (20 : Int) < 30) ∧
    RB.NewRedBlackTree.InsertAll [10, 20, 30] =
      some (RB.RedBlackTree.mk
        (.node 20 (.node 10 .nil .nil RB.black) (.node 30 .nil .nil RB.black) RB.black)) :=
  ⟨by decide, rb_three_values 10 20 30 (by decide) (by decide) [10, 20, 30] (List.Perm.refl _)⟩

/-- C16: on every AVL tree reachable from the empty tree by `Insert` calls, `Insert` of any
key completes: no `Bal`, rotation or height update inside `rebalance` is reached with a nil
receiver or a missing child (each of which would make the result `none`). -/
theorem avl_insert_no_nil_dereference (keys : List Int) (key : Int) :
    ∃ t, AVL.Tree.empty.InsertAll keys = some t ∧ ∃ t1, t.Insert key = some t1 := by
  obtain ⟨t, e, hi, _, _⟩ := AVL.insertAll_spec keys _ AVL.empty_inv.1 AVL.empty_inv.2
  obtain ⟨r1, e1, _⟩ := AVL.insert_spec key t.Root hi
  exact ⟨t, e, AVL.Tree.mk r1, by simp only [AVL.Tree.Insert, e1]⟩

/-- C17: on every red-black tree, of any shape and colouring, `Insert` of any value is total:
each of the three fix-up statements succeeds on every non-nil node (so its rotation or colour
flip finds the children it dereferences), `insert` returns a non-nil node, and the final root
re-colouring succeeds. -/
theorem rb_insert_never_dereferences_nil (t : RB.RedBlackTree) (value : Int) :
    (∀ (v : Int) (l r : RB.Node) (c : Bool),
      (∃ n, RB.leanLeftStep (.node v l r c) = some n ∧ n ≠ .nil) ∧
      (∃ n, RB.doubleRedStep (.node v l r c) = some n ∧ n ≠ .nil) ∧
      (∃ n, RB.splitStep (.node v l r c) = some n ∧ n ≠ .nil)) ∧
    (∃ n, RB.insert t.Root value = some n ∧ n ≠ .nil) ∧
    (∃ t1, t.Insert value = some t1) := by
  refine ⟨?_, ?_, ?_⟩
  · intro v l r c
    obtain ⟨v1, l1, r1, c1, e1, _⟩ := RB.leanLeftStep_total v l r c
    obtain ⟨v2, l2, r2, c2, e2, _⟩ := RB.doubleRedStep_total v l r c
    obtain ⟨v3, l3, r3, c3, e3, _⟩ := RB.splitStep_total v l r c
    exact ⟨⟨_, e1, by simp⟩, ⟨_, e2, by simp⟩, ⟨_, e3, by simp⟩⟩
  · obtain ⟨v1, l1, r1, c1, e1, _⟩ := RB.insert_total value t.Root
    exact ⟨_, e1, by simp⟩
  · obtain ⟨v1, l1, r1, c1, e1, _⟩ := RB.insert_total value t.Root
    exact ⟨RB.RedBlackTree.mk (.node v1 l1 r1 RB.black), by simp [RB.RedBlackTree.Insert, e1]⟩

/-- C18 fails on the code: on the graph of `TestDijkstraAlgorithm` with start 0, the path
0, 2, 3, 4 has total weight 6, yet `Dijkstra` returns a `dist` map with no entry for vertex 4
(reading it gives the zero value 0); the vertices with outgoing edges get 0, 4, 2 and 5. -/
theorem dijkstra_misses_sink_vertex :
    Algorithms.pathWeight Algorithms.testGraph [0, 2, 3, 4] = some 6 ∧
    ∃ dist prev, Algorithms.testGraph.Dijkstra 0 20 = some (dist, prev) ∧
      Algorithms.mapFind dist 4 = none ∧ Algorithms.mapGet dist 4 = 0 ∧
      Algorithms.mapFind dist 0 = some 0 ∧ Algorithms.mapFind dist 1 = some 4 ∧
      Algorithms.mapFind dist 2 = some 2 ∧ Algorithms.mapFind dist 3 = some 5 := by
  refine ⟨by decide, [(3, 5), (2, 2), (1, 4), (0, 0)], [(3, 2), (2, 0), (1, 0), (0, -1)], ?_⟩
  decide

/-- C19 fails on the code: `QuickSort` turns the slice 1, 2, 0 into 1, 0, 2, which is not in
non-decreasing order. -/
theorem quickSort_leaves_unsorted :
    Algorithms.QuickSort [1, 2, 0] = some [1, 0, 2] ∧ ¬ List.Sorted (· ≤ ·) [1, 0, (2 : Int)] := by
  constructor
  · decide
  · decide

/-- C20 fails on the code: `ShellSort` leaves the slice 2, 1 of length 2 and the slice
0, 0, 0, 1, 0 of length 5 exactly as they are, neither in non-decreasing order. -/
theorem shellSort_leaves_unsorted :
    Algorithms.ShellSort [2, 1] = some [2, 1] ∧ ¬ List.Sorted (· ≤ ·) [2, (1 : Int)] ∧
    Algorithms.ShellSort [0, 0, 0, 1, 0] = some [0, 0, 0, 1, 0] ∧
    ¬ List.Sorted (· ≤ ·) [0, 0, 0, 1, (0 : Int)] := by
  refine ⟨by decide, by decide, by decide, by decide⟩

/-- C21: for every slice of ints, the empty one included, `HeapSort` returns (no panic),
leaving the slice sorted in non-decreasing order and a permutation of its original
contents. -/
theorem heapSort_sorts (arr : List Int) :
    ∃ out, Algorithms.HeapSort arr = some out ∧ out.Sorted (· ≤ ·) ∧ out.Perm arr :=
  Algorithms.HeapSort_spec arr

/-- C22: for every slice of ints, `MergeSort` returns (no panic), leaving the slice sorted in
non-decreasing order and a permutation of its original contents. -/
theorem mergeSort_sorts (arr : List Int) :
    ∃ out, Algorithms.MergeSort arr = some out ∧ out.Sorted (· ≤ ·) ∧ out.Perm arr :=
  Algorithms.MergeSortFuel_spec (arr.length + 1) arr (Nat.lt_succ_self _)

/-- C23 fails on the code: for `arr = [-9223372036854775808, 5]` the digit count is 1, the
negation of the first element wraps back to itself, so `negativeArr` holds a negative number,
its digit is `-8` and `buckets[-8]` panics; `RadixSort` does not return. -/
theorem radixSort_panics_on_min_int (nanLen : Int) :
    Algorithms.RadixGetMaxLength nanLen [-9223372036854775808, 5] = some 1 ∧
      (Algorithms.radixSplit [-9223372036854775808, 5] [] []).1 = [-9223372036854775808] ∧
      Algorithms.radixDigit (-9223372036854775808) 0 = -8 ∧
      Algorithms.RadixSort nanLen [-9223372036854775808, 5] = none := by
  have hlen : Algorithms.RadixGetMaxLength nanLen [-9223372036854775808, 5] = some 1 := by
    have h5 : Nat.log 10 5 = 0 := Nat.log_of_lt (by decide)
    simp [Algorithms.RadixGetMaxLength, Algorithms.index, Algorithms.radixMaxLoop,
      Algorithms.wrapInt, Algorithms.RadixGetLength, h5]
  have hsplit : Algorithms.radixSplit [-9223372036854775808, 5] [] [] =
      ([-9223372036854775808], [5]) := by decide
  have hdigit : Algorithms.radixDigit (-9223372036854775808) 0 = -8 := by decide
  have hneg : Algorithms.radixSort [-9223372036854775808] 1 = none := by decide
  refine ⟨hlen, by rw [hsplit], hdigit, ?_⟩
  rw [Algorithms.RadixSort, hlen]
  simp only [hsplit, hneg]

/-- C24: for every slice sorted in non-decreasing order and every target that occurs in it,
`BinarySearch` returns (no panic) an index `i` with `0 ≤ i < len(arr)` and `arr[i] == target`. -/
theorem binarySearch_finds_present (arr : List Int) (target : Int)
    (hs : arr.Sorted (· ≤ ·)) (hm : target ∈ arr) :
    ∃ i, Algorithms.BinarySearch arr target = .done i ∧ 0 ≤ i ∧ i < arr.length ∧
      Algorithms.index arr i = some target := by
  obtain ⟨k, hk⟩ := Algorithms.mem_iff_index.1 hm
  have hb := Algorithms.index_bounds hk
  obtain ⟨i, e, hi⟩ := Algorithms.binarySearchRecursive_found hs target (arr.length + 1) 0
    ((arr.length : Int) - 1) (le_refl 0) (by omega) ⟨k, hb.1, by omega, hk⟩
    (by push_cast; omega)
  have hb2 := Algorithms.index_bounds hi
  exact ⟨i, e, hb2.1, hb2.2, hi⟩

/-- C24 at a concrete input: 5 is found at index 2 of the slice 1, 3, 5, 7. -/
theorem binarySearch_finds_present_witness :
    ([1, 3, 5, 7] : List Int).Sorted (· ≤ ·) ∧ (5 : Int) ∈ [1, 3, 5, 7] ∧
      ∃ i, Algorithms.BinarySearch [1, 3, 5, 7] 5 = .done i ∧ 0 ≤ i ∧
        i < ([1, 3, 5, 7] : List Int).length ∧
        Algorithms.index ([1, 3, 5, 7] : List Int) i = some 5 :=
  ⟨by decide, by decide, binarySearch_finds_present [1, 3, 5, 7] 5 (by decide) (by decide)⟩

/-- C25 fails on the code: on the sorted slice holding only 1, searching for the absent
target 2 panics instead of returning -1, because the trace output reads `arr[mid+1]` with
`mid + 1 = 1 = len(arr)`; searching for the absent target 0 panics on `arr[mid-1]` with
`mid - 1 = -1`. -/
theorem binarySearch_panics_on_absent :
    ([1] : List Int).Sorted (· ≤ ·) ∧ (2 : Int) ∉ [1] ∧ (0 : Int) ∉ [1] ∧
      Algorithms.BinarySearch [1] 2 = .panic ∧ Algorithms.index ([1] : List Int) (0 + 1) = none ∧
      Algorithms.BinarySearch [1] 0 = .panic ∧ Algorithms.index ([1] : List Int) (0 - 1) = none := by
  decide

/-- C26 fails as stated: for `n = 93` the iterative `DynamicFibonacci` agrees with the
recursive `Fibonacci`, but the value is not the 93rd Fibonacci number: the 64-bit sum has
wrapped around to a negative number. -/
theorem fibonacci_overflow_counterexample :
    Algorithms.Fibonacci 93 = some (Algorithms.DynamicFibonacci 93) ∧
      Algorithms.DynamicFibonacci 93 = -6246583658587674878 ∧
      Algorithms.DynamicFibonacci 93 ≠ (Nat.fib 93 : Int) := by
  have h : Algorithms.DynamicFibonacci 93 = -6246583658587674878 := by
    have := Algorithms.DynamicFibonacci_eq 93
    rw [show ((93 : Nat) : Int) = 93 from rfl] at this
    rw [this]
    norm_num [Algorithms.wrapInt]
  refine ⟨?_, h, ?_⟩
  · have := (Algorithms.FibonacciNat_eq 93).1
    rw [h, Algorithms.Fibonacci, if_pos (by decide), show (93 : Int).toNat = 93 from rfl, this]
    norm_num [Algorithms.wrapInt]
  · rw [h]
    have : (0 : Int) ≤ (Nat.fib 93 : Int) := Int.natCast_nonneg _
    omega

/-- C26 as amended: for every `n ≥ 0` the recursive `Fibonacci(n)` returns, and returns the
same value as the iterative `DynamicFibonacci(n)`, namely the `n`-th Fibonacci number
(`F(0) = 0`, `F(1) = 1`) reduced to a 64-bit two's-complement `int`; for `n ≤ 92` that is the
`n`-th Fibonacci number itself. -/
theorem fibonacci_dynamic_agrees (n : Int) (hn : 0 ≤ n) :
    Algorithms.Fibonacci n = some (Algorithms.DynamicFibonacci n) ∧
      Algorithms.DynamicFibonacci n = Algorithms.wrapInt (Nat.fib n.toNat) ∧
      (n ≤ 92 → Algorithms.DynamicFibonacci n = (Nat.fib n.toNat : Int)) := by
  obtain ⟨k, rfl⟩ := Int.eq_ofNat_of_zero_le hn
  have hd := Algorithms.DynamicFibonacci_eq k
  refine ⟨?_, ?_, ?_⟩
  · simp only [Algorithms.Fibonacci, if_pos hn, Int.toNat_ofNat, hd,
      (Algorithms.FibonacciNat_eq k).1]
  · simpa using hd
  · intro h92
    have hk : k ≤ 92 := by omega
    have hm : Nat.fib k ≤ Nat.fib 92 := Nat.fib_mono hk
    have h92v : Nat.fib 92 = 7540113804746346429 := by norm_num
    rw [hd, Int.toNat_ofNat]
    apply Algorithms.wrapInt_of_range
    · have : (0 : Int) ≤ (Nat.fib k : Int) := Int.natCast_nonneg _
      omega
    · have : (Nat.fib k : Int) ≤ 7540113804746346429 := by
        rw [← h92v] at *
        exact_mod_cast hm
      omega

/-- C26 at a concrete input: the tenth Fibonacci number. -/
theorem fibonacci_dynamic_agrees_witness :
    (0 : Int) ≤ 10 ∧ Algorithms.Fibonacci 10 = some 55 ∧ Algorithms.DynamicFibonacci 10 = 55 := by
  obtain ⟨h1, _, h3⟩ := fibonacci_dynamic_agrees 10 (by decide)
  have h4 := h3 (by decide)
  have e : ((Nat.fib (10 : Int).toNat : Nat) : Int) = 55 := by decide
  rw [e] at h4
  exact ⟨by decide, by rw [h1, h4], h4⟩

/-- C27: for all strings `str1` and `str2`, `LongestCommonSubstring` returns (no panic) a
string that occurs as a contiguous substring of both; no contiguous substring common to both
is longer; and the result is empty exactly when the two strings share no byte. -/
theorem longestCommonSubstring_correct (str1 str2 : List Algorithms.Byte) :
    ∃ out, Algorithms.LongestCommonSubstring str1 str2 = some out ∧
      out <:+: str1 ∧ out <:+: str2 ∧
      (∀ t, t <:+: str1 → t <:+: str2 → t.length ≤ out.length) ∧
      (out = [] ↔ ∀ c, ¬ (c ∈ str1 ∧ c ∈ str2)) := by
  obtain ⟨out, e, h1, h2, h3⟩ := Algorithms.LongestCommonSubstring_spec str1 str2
  refine ⟨out, e, h1, h2, h3, ?_, ?_⟩
  · intro hnil c hc
    have i1 : [c] <:+: str1 := by
      obtain ⟨p, q, e1⟩ := List.append_of_mem hc.1
      exact ⟨p, q, by simp [e1]⟩
    have i2 : [c] <:+: str2 := by
      obtain ⟨p, q, e2⟩ := List.append_of_mem hc.2
      exact ⟨p, q, by simp [e2]⟩
    have := h3 [c] i1 i2
    rw [hnil] at this
    simp at this
  · intro hno
    cases out with
    | nil => rfl
    | cons c rest =>
      exact absurd ⟨h1.subset (List.mem_cons_self _ _), h2.subset (List.mem_cons_self _ _)⟩
        (hno c)

/-- C27 at a concrete input: the byte strings "abcde" and "xcdey" share "cde". -/
theorem longestCommonSubstring_example :
    Algorithms.LongestCommonSubstring [97, 98, 99, 100, 101] [120, 99, 100, 101, 121] =
      some [99, 100, 101] := by
  decide

/-- C28: starting from `NewMaxHeap()`, every finite sequence of `Insert` and `Remove` calls
runs without a panic and leaves a backing slice with the max-heap property: for every index
`i`, `heap[i] >= heap[2i+1]` and `heap[i] >= heap[2i+2]` whenever those indices exist; so
`heap[0]` is at least every stored value. -/
theorem maxheap_property_invariant (calls : List Maxheap.Call) :
    ∃ h, Maxheap.NewMaxHeap.run calls = some h ∧
      (∀ i, (2 * i + 1 < h.heap.length →
          Algorithms.nth h.heap (2 * i + 1) ≤ Algorithms.nth h.heap i) ∧
        (2 * i + 2 < h.heap.length →
          Algorithms.nth h.heap (2 * i + 2) ≤ Algorithms.nth h.heap i)) ∧
      ∀ x ∈ h.heap, x ≤ Algorithms.nth h.heap 0 := by
  obtain ⟨h, e, hh⟩ := Maxheap.run_isMaxHeap calls Maxheap.NewMaxHeap
    (fun i => ⟨fun hi => by simp [Maxheap.NewMaxHeap] at hi,
      fun hi => by simp [Maxheap.NewMaxHeap] at hi⟩)
  exact ⟨h, e, hh, hh.root_largest⟩

/-- C29: for every sequence of values inserted into a new binary search tree (duplicates
allowed) and every value `v`, every `Insert` succeeds and `Search(v)` on the resulting tree is
true exactly when `v` is one of the inserted values; on the empty tree it is false. -/
theorem bst_search_iff_inserted (values : List Int) (v : Int) :
    Binary.NewBinaryTree.Search v = false ∧
    ∃ t, Binary.NewBinaryTree.InsertAll values = some t ∧ (t.Search v = true ↔ v ∈ values) := by
  refine ⟨rfl, ?_⟩
  obtain ⟨t, e, ho, hm⟩ := Binary.bst_InsertAll_spec values Binary.NewBinaryTree trivial
  refine ⟨t, e, ?_⟩
  rw [Binary.Tree.Search, Binary.searchNode_iff v t.Root ho, hm]
  simp [Binary.NewBinaryTree, Binary.Node.values]

/-- C30 fails on the code: there is no sequence of keys inserted into an empty AVL tree during
which `rebalance` is called on a node with `|n.Bal()| > 1` while none of its four exact-match
cases applies. -/
theorem avl_guards_never_under_trigger :
    ¬ ∃ (keys : List Int) (n : AVL.Node),
      n ∈ AVL.Tree.empty.rebalanceCallsAll keys ∧ n.UnderTriggered := by
  rintro ⟨keys, n, hn, hu⟩
  have hg := AVL.rebalanceCallsAll_good keys AVL.Tree.empty AVL.empty_inv.1 n hn
  exact (hg.caseApplies hu.abs_bal).not_underTriggered hu

/-- C30 as amended: for every sequence of keys inserted into an empty AVL tree, whenever
`rebalance` is called on a node `n` with `|n.Bal()| > 1`, one of its four exact-match cases
applies (the taller child's balance factor is exactly -1 or 1) and `rebalance` returns a
subtree in which every node is balanced. -/
theorem avl_guards_always_apply (keys : List Int) (k : Int) (l r : AVL.Node) (h : Int)
    (hn : AVL.Node.node k l r h ∈ AVL.Tree.empty.rebalanceCallsAll keys)
    (hb : |r.Height - l.Height| > 1) :
    (AVL.Node.node k l r h).CaseApplies ∧
      ∃ t, (AVL.Node.node k l r h).rebalance = some t ∧ t.Balanced := by
  have hg := AVL.rebalanceCallsAll_good keys AVL.Tree.empty AVL.empty_inv.1 _ hn
  refine ⟨hg.caseApplies ?_, ?_⟩
  · intro k1 l1 r1 h1 e
    cases e
    exact hb
  · obtain ⟨t, e, i⟩ := hg.rebalance_inv
    exact ⟨t, e, i.balanced⟩

/-- C30 at a concrete input: inserting 10, 20, 30 calls `rebalance` on the node 10 with
balance 2, whose right child 20 has balance 1; the second case applies and the result is
balanced. -/
theorem avl_guards_always_apply_witness :
    (AVL.Node.node 10 .nil (.node 20 .nil (.node 30 .nil .nil 1) 2) 3 ∈
        AVL.Tree.empty.rebalanceCallsAll [10, 20, 30] ∧
      |(AVL.Node.node 20 .nil (.node 30 .nil .nil 1) 2).Height - AVL.Node.nil.Height| > 1) ∧
    (AVL.Node.node 10 .nil (.node 20 .nil (.node 30 .nil .nil 1) 2) 3).CaseApplies ∧
      ∃ t, (AVL.Node.node 10 .nil (.node 20 .nil (.node 30 .nil .nil 1) 2) 3).rebalance = some t ∧
        t.Balanced :=
  ⟨⟨by decide, by decide⟩,
    avl_guards_always_apply [10, 20, 30] 10 .nil (.node 20 .nil (.node 30 .nil .nil 1) 2) 3
      (by decide) (by decide)⟩

/-- C31: for every finite sequence of keys, building an AVL tree from the empty tree by
insertion with the source's exact-match rebalance guards returns a tree, and building it with
the specification's sign-based guards returns exactly the same tree (shape, keys and cached
heights). -/
theorem avl_exact_guards_agree_with_sign_guards (keys : List Int) :
    ∃ t, AVL.Tree.empty.InsertAll keys = some t ∧ AVL.Tree.empty.InsertAllSpec keys = some t := by
  obtain ⟨t, e, _⟩ := AVL.insertAll_spec keys AVL.Tree.empty AVL.empty_inv.1 AVL.empty_inv.2
  exact ⟨t, e, by rw [AVL.InsertAllSpec_eq keys AVL.Tree.empty AVL.empty_inv.1, e]⟩
